import Mathlib

/-!
Verification of the reader/evaluator core of a small Lisp interpreter
(the step3 variant, the most advanced one in the repository).

The C value type `node` is a tagged union whose sequence fields are
next-pointer chains; here each List/Vector owns a `List Node` of elements and
a HashMap owns two element lists (keys and values).  C `int` numbers are
modelled as `Int` (no claim exercises machine overflow).  Allocation never
fails in the model, so the out-of-memory error paths of the source
(`allocnode` returning the static sentinel, `allocerror` fallback) are not
representable; they are noted in comments where they occur.

Evaluation in the source mutates `environment` objects in place; only the
innermost environment of the chain is ever mutated (`add_variable` receives
the current environment).  The model threads the whole chain as a list of
scopes, innermost first, and every evaluation step returns the updated chain.
`eval_` in the source recurses without bound for adversarial environments
(e.g. `let*` rebound with 0 uneval args), so the model gives `eval_` a fuel
parameter counting recursion depth; `none` means the fuel ran out.  The
helper functions receive the recursive evaluator as an explicit callback,
exactly like the `eval_` function-pointer parameter in the source.
-/

inductive Node where
  | eofN : Node
  | errorN : String → Node
  | nilN : Node
  | trueN : Node
  | falseN : Node
  | number : Int → Node
  | symbol : String → Node
  | keyword : String → Node
  | string : String → Node
  | list : List Node → Node
  | vector : List Node → Node
  | hashmap : List Node → List Node → Node

mutual

def node_beq : Node → Node → Bool
  | .eofN, .eofN => true
  | .errorN a, .errorN b => a == b
  | .nilN, .nilN => true
  | .trueN, .trueN => true
  | .falseN, .falseN => true
  | .number a, .number b => a == b
  | .symbol a, .symbol b => a == b
  | .keyword a, .keyword b => a == b
  | .string a, .string b => a == b
  | .list a, .list b => node_list_beq a b
  | .vector a, .vector b => node_list_beq a b
  | .hashmap ka va, .hashmap kb vb => node_list_beq ka kb && node_list_beq va vb
  | _, _ => false

def node_list_beq : List Node → List Node → Bool
  | [], [] => true
  | a :: as_, b :: bs => node_beq a b && node_list_beq as_ bs
  | _, _ => false

end

mutual

theorem node_beq_iff : ∀ a b : Node, node_beq a b = true ↔ a = b := by
  intro a b
  cases a <;> cases b <;> simp [node_beq, node_list_beq_iff]

theorem node_list_beq_iff : ∀ a b : List Node, node_list_beq a b = true ↔ a = b := by
  intro a b
  cases a <;> cases b <;> simp [node_list_beq, node_beq_iff, node_list_beq_iff]

end

instance : DecidableEq Node := fun a b => decidable_of_iff (node_beq a b = true) (node_beq_iff a b)

/-- The `nodetype` enumeration of the source. -/
inductive nodetype where
  | MAL_EOF | MAL_ERROR | MAL_NIL | MAL_TRUE | MAL_FALSE | MAL_NUMBER
  | MAL_SYMBOL | MAL_KEYWORD | MAL_STRING | MAL_LIST | MAL_VECTOR | MAL_HASHMAP
deriving DecidableEq

/-- The tag (`n->type`) of a node. -/
def node_type : Node → nodetype
  | .eofN => .MAL_EOF
  | .errorN _ => .MAL_ERROR
  | .nilN => .MAL_NIL
  | .trueN => .MAL_TRUE
  | .falseN => .MAL_FALSE
  | .number _ => .MAL_NUMBER
  | .symbol _ => .MAL_SYMBOL
  | .keyword _ => .MAL_KEYWORD
  | .string _ => .MAL_STRING
  | .list _ => .MAL_LIST
  | .vector _ => .MAL_VECTOR
  | .hashmap _ _ => .MAL_HASHMAP

/-- `n->type == MAL_ERROR`. -/
def Node.isError : Node → Bool
  | .errorN _ => true
  | _ => false

mutual

/-- `copy_node` of the source: a deep copy of one node (the `next` sibling
chain of the node itself is not followed; the element chains of containers
are copied via `copy_elements`).  Allocation failures cannot occur in the
model, so `copy_atom`'s error results do not arise here. -/
def copy_node : Node → Node
  | .list xs => .list (copy_elements xs)
  | .vector xs => .vector (copy_elements xs)
  | .hashmap ks vs => .hashmap (copy_elements ks) (copy_elements vs)
  | .eofN => .eofN
  | .errorN m => .errorN m
  | .nilN => .nilN
  | .trueN => .trueN
  | .falseN => .falseN
  | .number i => .number i
  | .symbol s => .symbol s
  | .keyword s => .keyword s
  | .string s => .string s

/-- `copy_elements` of the source, copying a whole element chain. -/
def copy_elements : List Node → List Node
  | [] => []
  | x :: xs => copy_node x :: copy_elements xs

end

mutual

theorem copy_node_id : ∀ n, copy_node n = n := by
  intro n
  cases n <;> simp [copy_node, copy_elements_id]

theorem copy_elements_id : ∀ xs, copy_elements xs = xs := by
  intro xs
  cases xs <;> simp [copy_elements, copy_node_id, copy_elements_id]

end

theorem copy_node_isError (n : Node) : (copy_node n).isError = n.isError := by
  rw [copy_node_id]

/-- Identifies which native implementation a `SYM_FUNCTION` entry points to
(the model of the C function pointer `symbol.u.func.eval`). -/
inductive FuncId where
  | fadd | fmul | fsub | fdiv | flt | flteq | fgt | fgteq | feq | fdef | flet
deriving DecidableEq

/-- A symbol-table entry (`struct symbol_s`): a Variable owns a value, a
Function records the uneval-args count and the native implementation. -/
inductive SymEntry where
  | var : String → Node → SymEntry
  | func : String → Nat → FuncId → SymEntry
deriving DecidableEq

/-- An environment chain, innermost scope first.  Each scope is the symbol
list of one `environment` object (newest entry first, as `add_symbol`
prepends); the rest of the list is the `outer` chain.  `[]` models a NULL
environment pointer. -/
abbrev Env := List (List SymEntry)

/-- The scan of one environment's symbol list done by `lookup_variable`:
first entry with the right name and kind `SYM_VARIABLE`. -/
def find_variable : List SymEntry → String → Option Node
  | [], _ => none
  | .var n v :: rest, name => if n = name then some v else find_variable rest name
  | .func _ _ _ :: rest, name => find_variable rest name

/-- The scan done by `lookup_function` (kind `SYM_FUNCTION`). -/
def find_function : List SymEntry → String → Option (Nat × FuncId)
  | [], _ => none
  | .func n nea fid :: rest, name =>
    if n = name then some (nea, fid) else find_function rest name
  | .var _ _ :: rest, name => find_function rest name

/-- `lookup_variable`: search the current scope, then each outer scope. -/
def lookup_variable : Env → String → Option Node
  | [], _ => none
  | syms :: outer, name =>
    match find_variable syms name with
    | some v => some v
    | none => lookup_variable outer name

/-- `lookup_function`: the chained search restricted to Function entries. -/
def lookup_function : Env → String → Option (Nat × FuncId)
  | [], _ => none
  | syms :: outer, name =>
    match find_function syms name with
    | some f => some f
    | none => lookup_function outer name

/-- `remove_variable`: unlink the first Variable of that name from the
current scope's symbol list only (the source also hands the removed value
back to the caller, which frees it). -/
def remove_variable : List SymEntry → String → List SymEntry
  | [], _ => []
  | .var n v :: rest, name =>
    if n = name then rest else .var n v :: remove_variable rest name
  | e :: rest, name => e :: remove_variable rest name

/-- `remove_function`: same for Function entries. -/
def remove_function : List SymEntry → String → List SymEntry
  | [], _ => []
  | .func n nea fid :: rest, name =>
    if n = name then rest else .func n nea fid :: remove_function rest name
  | e :: rest, name => e :: remove_function rest name

/-- `add_variable`: remove any prior Variable of that name from the current
scope, copy the value, and prepend the new entry (`add_symbol`).  `none`
models the NULL result when the copied value is an Error node (the callers
always check for errors first, so this path is unreachable from `eval_`) or
when the environment pointer is NULL. -/
def add_variable (env : Env) (name : String) (value : Node) : Option Env :=
  match env with
  | [] => none
  | syms :: outer =>
    let syms1 := remove_variable syms name
    let value1 := copy_node value
    if value1.isError then none
    else some ((SymEntry.var name value1 :: syms1) :: outer)

/-- `add_function`: remove any prior Function of that name from the current
scope and prepend the new entry. -/
def add_function (env : Env) (name : String) (nonevalargs : Nat) (fid : FuncId) : Env :=
  match env with
  | [] => []
  | syms :: outer => (SymEntry.func name nonevalargs fid :: remove_function syms name) :: outer

/-- Loop of `eval_add`: sum the arguments, failing on a non-number. -/
def eval_add_loop (sum : Int) : List Node → Node
  | [] => .number sum
  | .number k :: rest => eval_add_loop (sum + k) rest
  | _ :: _ => .errorN "argument to + not a number"

/-- `eval_add`: fold `+` starting from 0. -/
def eval_add (args : List Node) : Node := eval_add_loop 0 args

/-- Loop of `eval_mul`. -/
def eval_mul_loop (mult : Int) : List Node → Node
  | [] => .number mult
  | .number k :: rest => eval_mul_loop (mult * k) rest
  | _ :: _ => .errorN "argument to * not a number"

/-- `eval_mul`: fold `*` starting from 1. -/
def eval_mul (args : List Node) : Node := eval_mul_loop 1 args

/-- Loop of `eval_sub` over the arguments after the first. -/
def eval_sub_loop (remainder : Int) : List Node → Node
  | [] => .number remainder
  | .number k :: rest => eval_sub_loop (remainder - k) rest
  | _ :: _ => .errorN "argument to - not a number"

/-- `eval_sub`: the first argument seeds the accumulator (so a single
argument is returned unchanged), later arguments are subtracted in turn. -/
def eval_sub : List Node → Node
  | [] => .number 0
  | .number k :: rest => eval_sub_loop k rest
  | _ :: _ => .errorN "first argument to - not a number"

/-- Loop of `eval_div`; C integer division truncates toward zero, which is
`Int.div`. -/
def eval_div_loop (quotient : Int) : List Node → Node
  | [] => .number quotient
  | .number k :: rest =>
    if k = 0 then .errorN "division by 0"
    else eval_div_loop (Int.tdiv quotient k) rest
  | _ :: _ => .errorN "division by something other than number"

/-- `eval_div`: the first argument seeds the accumulator, later arguments
divide it, each checked for zero first. -/
def eval_div : List Node → Node
  | [] => .number 0
  | .number k :: rest => eval_div_loop k rest
  | _ :: _ => .errorN "first argument to / not a number"

/-- Loop of `eval_lt`: `res &= first < arg` over the later arguments. -/
def eval_lt_loop (first : Int) (res : Bool) : List Node → Node
  | [] => if res then .trueN else .falseN
  | .number k :: rest => eval_lt_loop first (res && decide (first < k)) rest
  | _ :: _ => .errorN "comparison by something other than number"

/-- `eval_lt`: no arguments gives False; one number gives True; otherwise the
first argument is compared against every later one. -/
def eval_lt : List Node → Node
  | [] => .falseN
  | .number k :: rest => eval_lt_loop k true rest
  | _ :: _ => .errorN "first argument to < not a number"

/-- Loop of `eval_lteq`. -/
def eval_lteq_loop (first : Int) (res : Bool) : List Node → Node
  | [] => if res then .trueN else .falseN
  | .number k :: rest => eval_lteq_loop first (res && decide (first ≤ k)) rest
  | _ :: _ => .errorN "comparison by something other than number"

/-- `eval_lteq`, structured like `eval_lt`. -/
def eval_lteq : List Node → Node
  | [] => .falseN
  | .number k :: rest => eval_lteq_loop k true rest
  | _ :: _ => .errorN "first argument to <= not a number"

/-- Loop of `eval_gt`. -/
def eval_gt_loop (first : Int) (res : Bool) : List Node → Node
  | [] => if res then .trueN else .falseN
  | .number k :: rest => eval_gt_loop first (res && decide (first > k)) rest
  | _ :: _ => .errorN "comparison by something other than number"

/-- `eval_gt`, structured like `eval_lt`. -/
def eval_gt : List Node → Node
  | [] => .falseN
  | .number k :: rest => eval_gt_loop k true rest
  | _ :: _ => .errorN "first argument to > not a number"

/-- Loop of `eval_gteq`. -/
def eval_gteq_loop (first : Int) (res : Bool) : List Node → Node
  | [] => if res then .trueN else .falseN
  | .number k :: rest => eval_gteq_loop first (res && decide (first ≥ k)) rest
  | _ :: _ => .errorN "comparison by something other than number"

/-- `eval_gteq`, structured like `eval_lt`. -/
def eval_gteq : List Node → Node
  | [] => .falseN
  | .number k :: rest => eval_gteq_loop k true rest
  | _ :: _ => .errorN "first argument to >= not a number"

/-- `nodes_atom_eq` of the source: equality of two same-typed atoms (numbers
by value, symbols/keywords/strings by text, everything else false).  The
source switches on `fst->type` and reads the same union field of `snd`; it is
only called with equal tags. -/
def nodes_atom_eq : Node → Node → Bool
  | .number a, .number b => a == b
  | .symbol a, .symbol b => a == b
  | .keyword a, .keyword b => a == b
  | .string a, .string b => a == b
  | _, _ => false

mutual

/-- `nodes_eq` of the source: a type mismatch is inequality, lists compare
element-wise, all other nodes via `nodes_atom_eq`. -/
def nodes_eq (fst snd : Node) : Bool :=
  if node_type fst ≠ node_type snd then false
  else
    match fst, snd with
    | .list a, .list b => nodes_list_eq a b
    | _, _ => nodes_atom_eq fst snd

/-- Modelled from the spec: the source's `nodes_list_eq` (part_002 lines
941-951) is incomplete and does not compile; spec §4.4 defines list equality
as equal length with pairwise recursively equal elements. -/
def nodes_list_eq : List Node → List Node → Bool
  | [], [] => true
  | a :: as_, b :: bs => nodes_eq a b && nodes_list_eq as_ bs
  | _, _ => false

end

/-- Modelled from the spec: the source's `eval_eq` (part_002 lines 964-1024)
is incomplete and does not compile.  Following its skeleton and spec §4.4,
the first argument is compared structurally against every later one; with no
arguments the running flag stays false. -/
def eval_eq (args : List Node) : Node :=
  match args with
  | [] => .falseN
  | first :: rest => if rest.all (fun a => nodes_eq first a) then .trueN else .falseN

/-- `eval_def`: the argument list holds the (unevaluated) name and the
already-evaluated value.  The checks and their error messages follow the
source order: no arguments, non-symbol name, missing value, excess values.
On success the value is bound in the current scope and a copy of the stored
value is returned. -/
def eval_def (env : Env) (args : List Node) : Node × Env :=
  match args with
  | [] => (.errorN "no symbol to define", env)
  | sym :: rest =>
    match sym with
    | .symbol name =>
      match rest with
      | [] => (.errorN "symbol value missing", env)
      | [value] =>
        match add_variable env name value with
        | none => (.errorN "unable to define symbol", env)
        | some env1 => (copy_node (copy_node value), env1)
      | _ :: _ :: _ => (.errorN "excessive symbol values", env)
    | _ => (.errorN "not a symbol", env)

/-- The type of the recursive-evaluator callback that the source passes to
every native implementation (`node *(eval_)(environment *, node *)`). -/
abbrev EvalCb := Env → Node → Option (Node × Env)

/-- Which `next`-chain inside a container a `node **dst` argument points at. -/
inductive chainsel where
  | elems | hashkeys | hashvalues

/-- Append an element at the end of the selected chain of a container. -/
def append_to_chain (container : Node) (sel : chainsel) (element : Node) : Node :=
  match container, sel with
  | .list xs, .elems => .list (xs ++ [element])
  | .vector xs, .elems => .vector (xs ++ [element])
  | .hashmap ks vs, .hashkeys => .hashmap (ks ++ [element]) vs
  | .hashmap ks vs, .hashvalues => .hashmap ks (vs ++ [element])
  | c, _ => c

/-- `eval_append_element`: an Error element frees the container and is itself
returned; otherwise the element is appended at the end of the chain.  The
source's NULL-destination and NULL-element checks cannot fire in the model
(`eval_` always yields a node). -/
def eval_append_element (container : Node) (sel : chainsel) (element : Node) : Node :=
  if element.isError then element
  else append_to_chain container sel element

/-- The element loop shared by `eval_list`, `eval_vector` and `eval_hashmap`:
evaluate each element in order, appending results with `eval_append_element`,
stopping at the first error. -/
def eval_elements_loop (cb : EvalCb) (env : Env) (result : Node) (sel : chainsel) :
    List Node → Option (Node × Env)
  | [] => some (result, env)
  | e :: rest =>
    match cb env e with
    | none => none
    | some (r, env1) =>
      let result1 := eval_append_element result sel r
      if result1.isError then some (result1, env1)
      else eval_elements_loop cb env1 result1 sel rest

/-- The argument-processing loop of `eval_function`: argument positions below
`nonevalargs` are raw copies, later ones are evaluated through the callback;
an Error element discards the accumulated list and is handed back on the
left. -/
def eval_args (cb : EvalCb) (env : Env) (nea : Nat) (i : Nat) :
    List Node → Option ((Node ⊕ List Node) × Env)
  | [] => some (.inr [], env)
  | a :: rest =>
    if i < nea then
      let element := copy_node a
      if element.isError then some (.inl element, env)
      else
        match eval_args cb env nea (i + 1) rest with
        | none => none
        | some (.inl err, env1) => some (.inl err, env1)
        | some (.inr es, env1) => some (.inr (element :: es), env1)
    else
      match cb env a with
      | none => none
      | some (element, env1) =>
        if element.isError then some (.inl element, env1)
        else
          match eval_args cb env1 nea (i + 1) rest with
          | none => none
          | some (.inl err, env2) => some (.inl err, env2)
          | some (.inr es, env2) => some (.inr (element :: es), env2)

/-- The binding loop of `eval_let` over the alternating name/value elements:
a trailing lone element is an unterminated binding, a non-symbol name is
rejected, a failing value evaluation is reported with a fresh
"can not evaluate binding value" error, and each bound pair extends the child
environment before the next pair is processed. -/
def eval_let_bindings (cb : EvalCb) (env : Env) : List Node → Option ((Node ⊕ Unit) × Env)
  | [] => some (.inr (), env)
  | [_] => some (.inl (.errorN "unterminated binding"), env)
  | b :: v :: rest =>
    match b with
    | .symbol name =>
      match cb env v with
      | none => none
      | some (value, env1) =>
        if value.isError then some (.inl (.errorN "can not evaluate binding value"), env1)
        else
          match add_variable env1 name value with
          | none => some (.inl (.errorN "could not set binding"), env1)
          | some env2 => eval_let_bindings cb env2 rest
    | _ => some (.inl (.errorN "can not set binding for non-symbol"), env)

/-- Arity handling and child-environment part of `eval_let`: exactly one body
expression is required; a fresh child scope is pushed onto the chain
(`allocenvironment(outer)`), the bindings and then the body are evaluated in
it, and the child scope is dropped again (`freeenvironment`), so the caller
sees the chain below the child. -/
def eval_let_body (cb : EvalCb) (outer : Env) (belems : List Node) (rest : List Node) :
    Option (Node × Env) :=
  match rest with
  | [] => some (.errorN "no expression to evaluate using bindings", outer)
  | [expression] =>
    let env : Env := [] :: outer
    match eval_let_bindings cb env belems with
    | none => none
    | some (.inl err, cenv) => some (err, cenv.tail)
    | some (.inr (), cenv) =>
      match cb cenv expression with
      | none => none
      | some (result, cenv1) => some (result, cenv1.tail)
  | _ :: _ :: _ => some (.errorN "too many expressions to evaluate", outer)

/-- `eval_let`: the first argument must be a List or Vector of bindings
(checked before the arity of the remaining arguments, as in the source). -/
def eval_let (cb : EvalCb) (outer : Env) (args : List Node) : Option (Node × Env) :=
  match args with
  | [] => some (.errorN "no bindings", outer)
  | bindings :: rest =>
    match bindings with
    | .list belems => eval_let_body cb outer belems rest
    | .vector belems => eval_let_body cb outer belems rest
    | _ => some (.errorN "no valid list/vector of bindings", outer)

/-- The indirect call `func->u.func.eval(env, args, eval_)` through the
function pointer stored in the symbol table. -/
def apply_function (cb : EvalCb) (env : Env) (fid : FuncId) (args : List Node) :
    Option (Node × Env) :=
  match fid with
  | .fadd => some (eval_add args, env)
  | .fmul => some (eval_mul args, env)
  | .fsub => some (eval_sub args, env)
  | .fdiv => some (eval_div args, env)
  | .flt => some (eval_lt args, env)
  | .flteq => some (eval_lteq args, env)
  | .fgt => some (eval_gt args, env)
  | .fgteq => some (eval_gteq args, env)
  | .feq => some (eval_eq args, env)
  | .fdef => some (eval_def env args)
  | .flet => eval_let cb env args

/-- `eval_function`: look the head symbol up as a Function, process the
arguments with `eval_args` (the `nonevalargs >= 0` guard of the source is
always true for a `Nat` count), and call the implementation.  The fallback
arm is unreachable: `eval_list` only dispatches here when the head is a
symbol (the source would read the union field of a non-symbol head). -/
def eval_function (cb : EvalCb) (env : Env) (elements : List Node) : Option (Node × Env) :=
  match elements with
  | .symbol s :: args =>
    match lookup_function env s with
    | none => some (.errorN "function not found", env)
    | some (nea, fid) =>
      match eval_args cb env nea 0 args with
      | none => none
      | some (.inl err, env1) => some (err, env1)
      | some (.inr evallist, env1) => apply_function cb env1 fid evallist
  | _ => some (.errorN "function not found", env)

/-- `eval_list`: a list whose head is a Symbol bound as a Function is a call;
any other list evaluates every element in order into a fresh list. -/
def eval_list (cb : EvalCb) (env : Env) (elements : List Node) : Option (Node × Env) :=
  match elements with
  | .symbol s :: rest =>
    if (lookup_function env s).isSome then eval_function cb env (.symbol s :: rest)
    else eval_elements_loop cb env (.list []) .elems (.symbol s :: rest)
  | _ => eval_elements_loop cb env (.list []) .elems elements

/-- `eval_vector`: evaluate every element into a fresh vector. -/
def eval_vector (cb : EvalCb) (env : Env) (elements : List Node) : Option (Node × Env) :=
  eval_elements_loop cb env (.vector []) .elems elements

/-- `eval_hashmap`: the keys are copied verbatim, the values evaluated.  The
source copies the key chain with `copy_node(hashmap->u.hash.keys)`, which
deep-copies only the first node of the chain (its `next` siblings are lost),
and dereferences a NULL pointer when the key chain is empty; the model keeps
the single-node copy and returns an empty chain in the (crashing) empty
case.  No claim exercises this function. -/
def eval_hashmap (cb : EvalCb) (env : Env) (ks vs : List Node) : Option (Node × Env) :=
  let keys : List Node :=
    match ks with
    | [] => []
    | k :: _ => [copy_node k]
  eval_elements_loop cb env (.hashmap keys []) .hashvalues vs

/-- `eval_variable`: look the name up through the scope chain; unbound names
give the formatted "unbound variable" error, bound ones a copy of the value. -/
def eval_variable (env : Env) (name : String) : Node :=
  match lookup_variable env name with
  | none => .errorN ("unbound variable '" ++ name ++ "'")
  | some v => copy_node v

/-- `eval_atom`: self-evaluating nodes evaluate to a copy of themselves. -/
def eval_atom (atom : Node) : Node := copy_node atom

/-- `eval_` of the source, with a fuel parameter bounding the recursion
depth; `none` means the fuel ran out (the source would still be recursing).
The helpers receive `eval_ fuel` as the callback, exactly as the source
passes `eval_` as a function pointer. -/
def eval_ : Nat → Env → Node → Option (Node × Env)
  | 0, _, _ => none
  | fuel + 1, env, n =>
    match n with
    | .list xs => eval_list (fun e m => eval_ fuel e m) env xs
    | .vector xs => eval_vector (fun e m => eval_ fuel e m) env xs
    | .hashmap ks vs => eval_hashmap (fun e m => eval_ fuel e m) env ks vs
    | .symbol s => some (eval_variable env s, env)
    | other => some (eval_atom other, env)

/-- `eval`: evaluate and free the input form. -/
def eval (fuel : Nat) (env : Env) (n : Node) : Option (Node × Env) := eval_ fuel env n

/-- `initial_environment`: the reference top-level environment with its
registered uneval-args counts. -/
def initial_environment : Env :=
  let env : Env := [[]]
  let env := add_function env "def!" 1 .fdef
  let env := add_function env "let*" 2 .flet
  let env := add_function env "+" 0 .fadd
  let env := add_function env "*" 0 .fmul
  let env := add_function env "-" 0 .fsub
  let env := add_function env "/" 0 .fdiv
  let env := add_function env "<" 0 .flt
  let env := add_function env ">" 0 .fgt
  let env := add_function env "<=" 0 .flteq
  let env := add_function env ">=" 0 .fgteq
  let env := add_function env "=" 0 .feq
  env

example : eval_ 2 initial_environment (.list [.symbol "+", .number 1, .number 2]) =
    some (.number 3, initial_environment) := by decide

example : eval_ 2 initial_environment (.list [.symbol "-", .number 5]) =
    some (.number 5, initial_environment) := by decide

example : eval_ 3 initial_environment
      (.list [.symbol "def!", .symbol "x", .number 5]) =
    some (.number 5,
      (SymEntry.var "x" (.number 5) :: initial_environment.head!) :: []) := by decide

/-!
Tokenizer (part_002 lines 1616-1799).  A line of text is a `List Char`; each
`tokenize_*` helper either recognises a token at the front of the line,
returning the token text and the rest of the line, or declines.
-/

/-- The whitespace/comma set skipped between tokens. -/
def whitecomma : List Char := [' ', '\t', '\x0b', '\r', '\n', ',']

/-- The single-character special tokens. -/
def special_chars : List Char := ['[', ']', '{', '}', '(', ')', '\'', '`', '~', '^', '@']

/-- The characters that end a keyword or symbol token. -/
def notallowed_chars : List Char :=
  [' ', '\t', '\x0b', '\r', '\n', '[', ']', '{', '}', '(', ')', '\'', '"', '`', ',', ';']

/-- `read_whitecomma`: skip leading whitespace and commas. -/
def read_whitecomma : List Char → List Char
  | [] => []
  | c :: rest => if c ∈ whitecomma then read_whitecomma rest else c :: rest

/-- `tokenize_spliceunquote`: the two-character token `~@`. -/
def tokenize_spliceunquote : List Char → Option (List Char × List Char)
  | '~' :: '@' :: rest => some (['~', '@'], rest)
  | _ => none

/-- `tokenize_special`: one character from the special set. -/
def tokenize_special : List Char → Option (List Char × List Char)
  | [] => none
  | c :: rest => if c ∈ special_chars then some ([c], rest) else none

/-- The maximal run of characters outside the `notallowed` set (the scanning
loop shared by `tokenize_keyword` and `tokenize_symbol`). -/
def token_span : List Char → List Char × List Char
  | [] => ([], [])
  | c :: rest =>
    if c ∈ notallowed_chars then ([], c :: rest)
    else
      let (tok, rem) := token_span rest
      (c :: tok, rem)

/-- `tokenize_keyword`: a `:` followed by a (possibly empty) allowed-char run;
always matches when the line starts with `:`. -/
def tokenize_keyword : List Char → Option (List Char × List Char)
  | ':' :: rest =>
    let (tok, rem) := token_span rest
    some (':' :: tok, rem)
  | _ => none

/-- The quote scan of `tokenize_string`: find the first `"` whose immediately
preceding character is not a backslash (the source repeatedly `strchr`s for
`"` and skips those preceded by `\`; tracking the previous character is the
same test). -/
def string_scan (prev : Char) : List Char → Option (List Char × List Char)
  | [] => none
  | c :: rest =>
    if c = '"' && prev ≠ '\\' then some (['"'], rest)
    else
      match string_scan c rest with
      | none => none
      | some (tok, rem) => some (c :: tok, rem)

/-- `tokenize_string`: from an opening quote, the token runs to the first
unescaped closing quote; without one it swallows the rest of the line. -/
def tokenize_string : List Char → Option (List Char × List Char)
  | '"' :: rest =>
    match string_scan '"' rest with
    | some (tok, rem) => some ('"' :: tok, rem)
    | none => some ('"' :: rest, [])
  | _ => none

/-- `read_comment`: a `;` swallows the rest of the line (the tokenizer loop
discards the result instead of recording a token). -/
def read_comment : List Char → Option (List Char × List Char)
  | ';' :: rest => some (';' :: rest, [])
  | _ => none

/-- `tokenize_symbol`: a nonempty maximal run of allowed characters. -/
def tokenize_symbol (line : List Char) : Option (List Char × List Char) :=
  let (tok, rem) := token_span line
  if tok.isEmpty then none else some (tok, rem)

/-- The lexeme-class selection of one `tokenizer` iteration, in the source's
order of attempts.  The all-classes-fail case is unreachable: every character
in the `notallowed` set is claimed by an earlier class, so `tokenize_symbol`
accepts whatever is left. -/
def tokenizer_classes (l : List Char) : Option (List Char × List Char) :=
  match tokenize_spliceunquote l with
  | some r => some r
  | none =>
    match tokenize_keyword l with
    | some r => some r
    | none =>
      match tokenize_special l with
      | some r => some r
      | none =>
        match tokenize_string l with
        | some r => some r
        | none => tokenize_symbol l

/-- The token-gathering loop of `tokenizer`, fueled by the iteration count.
Each iteration skips whitespace/commas, drops a comment (ending the line),
and otherwise cuts one token off the front of the line. -/
def tokenizer_loop : Nat → List Char → Option (List String)
  | 0, _ => none
  | fuel + 1, line =>
    let l := read_whitecomma line
    match l with
    | [] => some []
    | _ :: _ =>
      if (read_comment l).isSome then some []
      else
        match tokenizer_classes l with
        | none => none
        | some (tok, rem) =>
          match tokenizer_loop fuel rem with
          | none => none
          | some toks => some (String.mk tok :: toks)

/-- `tokenizer`: every iteration of the loop consumes at least one character,
so the line length plus one is always enough fuel. -/
def tokenizer (line : List Char) : Option (List String) :=
  tokenizer_loop (line.length + 1) line

/-!
Reader (part_002 lines 1295-1614).  The token cursor `char ***tokens` becomes
the remaining token list, returned alongside each result.  The inner
`Option Node` models the NULL node the source returns at the end of the
token array; the outer `Option` is the fuel: `read_metadata` re-reads from an
unadvanced cursor, so the source's reader does not terminate on `^` and the
model must be fueled.  Container-reading functions receive the recursive
`read_form_` as a callback, as in the source.
-/

/-- The type of the recursive-reader callback (`node *(read_form_(char ***))`). -/
abbrev ReadCb := List String → Option (Option Node × List String)

/-- `read_prepend_element`: a missing element leaves the container alone, an
Error element frees the container and is itself returned, otherwise the
element is pushed at the front of the list's element chain (the destination
is always a list's chain at the call sites). -/
def read_prepend_element (container : Node) (element : Option Node) : Node :=
  match element with
  | none => container
  | some e =>
    if e.isError then e
    else
      match container with
      | .list xs => .list (e :: xs)
      | c => c

/-- `read_append_element`: like `eval_append_element` but tolerating a
missing element, appending at the end of the selected chain. -/
def read_append_element (container : Node) (sel : chainsel) (element : Option Node) : Node :=
  match element with
  | none => container
  | some e => if e.isError then e else append_to_chain container sel e

/-- `read_quote`: consume the quote token, read one form, and wrap it as
`(<quote> <form>)` by prepending. -/
def read_quote (cb : ReadCb) (quote : String) (tokens : List String) :
    Option (Option Node × List String) :=
  match cb tokens.tail with
  | none => none
  | some (element, tokens1) =>
    let result := read_prepend_element (.list []) element
    if result.isError then some (some result, tokens1)
    else some (some (read_prepend_element result (some (.symbol quote))), tokens1)

/-- `read_metadata`: reads two forms and prepends `with-meta`.  Unlike
`read_quote`, the source never advances past the `^` token, so the first
callback call re-reads from the very same cursor. -/
def read_metadata (cb : ReadCb) (tokens : List String) : Option (Option Node × List String) :=
  match cb tokens with
  | none => none
  | some (e1, tokens1) =>
    let r1 := read_prepend_element (.list []) e1
    if r1.isError then some (some r1, tokens1)
    else
      match cb tokens1 with
      | none => none
      | some (e2, tokens2) =>
        let r2 := read_prepend_element r1 e2
        if r2.isError then some (some r2, tokens2)
        else some (some (read_prepend_element r2 (some (.symbol "with-meta"))), tokens2)

/-- `read_keyword` (the reader one): the token minus its leading `:` becomes
the keyword text; an empty remainder is an error and does not advance. -/
def read_keyword (tokens : List String) : Node × List String :=
  match tokens with
  | [] => (.errorN "keyword terminated too early", [])
  | t :: rest =>
    match t.data with
    | [] => (.errorN "keyword terminated too early", t :: rest)
    | _ :: kchars =>
      if kchars.isEmpty then (.errorN "keyword terminated too early", t :: rest)
      else (.keyword (String.mk kchars), rest)

/-- The escape-resolving copy loop of `allocstring`.  The recognised escapes
are `\\`, `\<newline>` (the case label in the source is the newline
character, not the letter `n`) and `\"`; anything else after a backslash is
an unknown escape. -/
def allocstring_loop : List Char → Node ⊕ List Char
  | [] => .inr []
  | c :: rest =>
    if c = '\\' then
      match rest with
      | [] => .inl (.errorN "unterminated escape sequence at end of string")
      | e :: rest1 =>
        if e = '\\' then
          match allocstring_loop rest1 with
          | .inl err => .inl err
          | .inr cs => .inr ('\\' :: cs)
        else if e = '\n' then
          match allocstring_loop rest1 with
          | .inl err => .inl err
          | .inr cs => .inr ('\n' :: cs)
        else if e = '"' then
          match allocstring_loop rest1 with
          | .inl err => .inl err
          | .inr cs => .inr ('"' :: cs)
        else .inl (.errorN ("unknown escape sequence '" ++ String.mk [e] ++ "' in string"))
    else
      match allocstring_loop rest with
      | .inl err => .inl err
      | .inr cs => .inr (c :: cs)

/-- `allocstring` on an explicit character range: resolve escapes or fail. -/
def allocstring (content : List Char) : Node :=
  match allocstring_loop content with
  | .inl err => err
  | .inr cs => .string (String.mk cs)

/-- `read_string` (the reader one): the token body after the opening quote
must be nonempty and end with `"`; the text in between has its escapes
resolved.  Errors do not advance the cursor. -/
def read_string (tokens : List String) : Node × List String :=
  match tokens with
  | [] => (.errorN "unterminated string", [])
  | t :: rest =>
    match t.data with
    | [] => (.errorN "unterminated string", t :: rest)
    | _ :: body =>
      if body.length < 1 then (.errorN "unterminated string", t :: rest)
      else
        match body.getLast? with
        | none => (.errorN "unterminated string", t :: rest)
        | some last =>
          if last ≠ '"' then
            (.errorN ("string can not be terminated by '" ++ String.mk [last] ++ "'"), t :: rest)
          else
            let result := allocstring body.dropLast
            if result.isError then (result, t :: rest) else (result, rest)

/-- The digit set `read_number` scans with. -/
def digit_chars : List Char := ['0', '1', '2', '3', '4', '5', '6', '7', '8', '9']

/-- The accumulating digit loop of `read_number`; a non-digit anywhere makes
the token a non-number (`NULL` in the source, `none` here). -/
def read_number_digits (val : Int) : List Char → Option Int
  | [] => some val
  | c :: rest =>
    if c ∈ digit_chars then
      read_number_digits (val * 10 + ((c.toNat - '0'.toNat : Nat) : Int)) rest
    else none

/-- `read_number`: optional sign, then a nonempty all-digit run. -/
def read_number (t : String) : Option Node :=
  let (negative, cs) :=
    match t.data with
    | '+' :: cs => (false, cs)
    | '-' :: cs => (true, cs)
    | cs => (false, cs)
  if cs.isEmpty then none
  else
    match read_number_digits 0 cs with
    | none => none
    | some v => some (.number (if negative then -v else v))

/-- `read_atom`: `nil`/`true`/`false` literals, then a number parse, then a
nonempty token becomes a symbol. -/
def read_atom (tokens : List String) : Node × List String :=
  match tokens with
  | [] => (.errorN "no token to read", [])
  | t :: rest =>
    let result : Option Node :=
      if t = "nil" then some .nilN
      else if t = "true" then some .trueN
      else if t = "false" then some .falseN
      else read_number t
    match result with
    | some n => (n, rest)
    | none =>
      if t.length ≠ 0 then (.symbol t, rest)
      else (.errorN "token of unknown type", t :: rest)

/-- The element loop of `read_list`, fueled by its iteration count.  The
source's "expected ')'" arm after the loop is dead code (the loop only exits
at the end of tokens or at `)`). -/
def read_list_loop (cb : ReadCb) : Nat → Node → List String → Option (Option Node × List String)
  | 0, _, _ => none
  | fuel + 1, result, tokens =>
    match tokens with
    | [] => some (some (.errorN "unterminated list"), [])
    | t :: rest =>
      if t = ")" then some (some result, rest)
      else
        match cb (t :: rest) with
        | none => none
        | some (element, tokens1) =>
          let result1 := read_append_element result .elems element
          if result1.isError then some (some result1, tokens1)
          else read_list_loop cb fuel result1 tokens1

/-- `read_list`: consume the `(` and gather elements until `)`. -/
def read_list (cb : ReadCb) (fuel : Nat) (tokens : List String) :
    Option (Option Node × List String) :=
  read_list_loop cb fuel (.list []) tokens.tail

/-- The element loop of `read_vector` (the source duplicates the list loop
with `]` and vector-specific messages). -/
def read_vector_loop (cb : ReadCb) : Nat → Node → List String → Option (Option Node × List String)
  | 0, _, _ => none
  | fuel + 1, result, tokens =>
    match tokens with
    | [] => some (some (.errorN "unterminated vector"), [])
    | t :: rest =>
      if t = "]" then some (some result, rest)
      else
        match cb (t :: rest) with
        | none => none
        | some (element, tokens1) =>
          let result1 := read_append_element result .elems element
          if result1.isError then some (some result1, tokens1)
          else read_vector_loop cb fuel result1 tokens1

/-- `read_vector`: consume the `[` and gather elements until `]`. -/
def read_vector (cb : ReadCb) (fuel : Nat) (tokens : List String) :
    Option (Option Node × List String) :=
  read_vector_loop cb fuel (.vector []) tokens.tail

/-- The alternating key/value loop of `read_hashmap`; key types are not
checked.  At the closer, an odd number of forms is the
"last keyword in hashmap lacks value" error (cursor not advanced); running
out of tokens is "unterminated hashmap".  The source's "expected '}'" arm is
dead code. -/
def read_hashmap_loop (cb : ReadCb) :
    Nat → Node → Bool → List String → Option (Option Node × List String)
  | 0, _, _, _ => none
  | fuel + 1, result, key, tokens =>
    match tokens with
    | [] => some (some (.errorN "unterminated hashmap"), [])
    | t :: rest =>
      if t = "\x7d" then
        if !key then some (some (.errorN "last keyword in hashmap lacks value"), t :: rest)
        else some (some result, rest)
      else
        match cb (t :: rest) with
        | none => none
        | some (element, tokens1) =>
          let result1 := read_append_element result (if key then .hashkeys else .hashvalues) element
          if result1.isError then some (some result1, tokens1)
          else read_hashmap_loop cb fuel result1 (!key) tokens1

/-- `read_hashmap`: consume the `{` and gather alternating keys and values
until `}`. -/
def read_hashmap (cb : ReadCb) (fuel : Nat) (tokens : List String) :
    Option (Option Node × List String) :=
  read_hashmap_loop cb fuel (.hashmap [] []) true tokens.tail

/-- `read_form_`: dispatch on the current token.  An exhausted cursor yields
the NULL node (`none`).  The `~@` case wraps with the misspelled symbol
`splite-unquote` exactly as the source does.  The `^` case calls
`read_metadata` without consuming the token, so it re-enters itself on the
same cursor and only the fuel stops it. -/
def read_form_ : Nat → List String → Option (Option Node × List String)
  | 0, _ => none
  | fuel + 1, tokens =>
    match tokens with
    | [] => some (none, [])
    | t :: rest =>
      if t = "~@" then read_quote (fun ts => read_form_ fuel ts) "splite-unquote" (t :: rest)
      else if t = "'" then read_quote (fun ts => read_form_ fuel ts) "quote" (t :: rest)
      else if t = "`" then read_quote (fun ts => read_form_ fuel ts) "quasiquote" (t :: rest)
      else if t = "~" then read_quote (fun ts => read_form_ fuel ts) "unquote" (t :: rest)
      else if t = "@" then read_quote (fun ts => read_form_ fuel ts) "deref" (t :: rest)
      else if t = "^" then read_metadata (fun ts => read_form_ fuel ts) (t :: rest)
      else if t = "\x7b" then read_hashmap (fun ts => read_form_ fuel ts) fuel (t :: rest)
      else if t = "(" then read_list (fun ts => read_form_ fuel ts) fuel (t :: rest)
      else if t = "[" then read_vector (fun ts => read_form_ fuel ts) fuel (t :: rest)
      else
        match t.data with
        | ':' :: _ =>
          let (n, ts) := read_keyword (t :: rest)
          some (some n, ts)
        | '"' :: _ =>
          let (n, ts) := read_string (t :: rest)
          some (some n, ts)
        | _ =>
          let (n, ts) := read_atom (t :: rest)
          some (some n, ts)

/-- `read_form`: a NULL token array (failed tokenizer) reads as EOF. -/
def read_form (fuel : Nat) (tokens : Option (List String)) :
    Option (Option Node × List String) :=
  match tokens with
  | none => some (some .eofN, [])
  | some ts => read_form_ fuel ts

/-- `parse`: tokenize one line and read the first form off it (any remaining
tokens are dropped, as in the source). -/
def parse (fuel : Nat) (line : List Char) : Option (Option Node) :=
  match read_form fuel (tokenizer line) with
  | none => none
  | some (n, _) => some n

/-!
Printer (part_002 lines 596-690).  `printf` output becomes an accumulated
`List Char`; the `mayfree` flag and the level-0 trailing newline of the
source do not affect the text of one value.
-/

/-- A decimal digit character. -/
def digit_char (d : Nat) : Char := Char.ofNat ('0'.toNat + d)

/-- Decimal digits of a natural number, most significant first, fueled to
stay structural (the quotient chain `n, n/10, n/10/10, ...` is shorter than
`n+1`). -/
def nat_chars_aux : Nat → Nat → List Char
  | 0, _ => []
  | fuel + 1, n =>
    if n < 10 then [digit_char n]
    else nat_chars_aux fuel (n / 10) ++ [digit_char (n % 10)]

/-- Decimal rendering of a natural number. -/
def nat_chars (n : Nat) : List Char := nat_chars_aux (n + 1) n

/-- The `%d` rendering of a number. -/
def int_chars (i : Int) : List Char :=
  if i < 0 then '-' :: nat_chars i.natAbs else nat_chars i.toNat

/-- The readable-mode string escaping of `print_`: backslash, newline and
quote are escaped (in that order of checks), everything else is copied. -/
def escape_string : List Char → List Char
  | [] => []
  | c :: rest =>
    if c = '\\' then '\\' :: '\\' :: escape_string rest
    else if c = '\n' then '\\' :: 'n' :: escape_string rest
    else if c = '"' then '\\' :: '"' :: escape_string rest
    else c :: escape_string rest

/-- The `while (k && v)` pair loop of the hashmap case of `print_`, over the
already-rendered texts of the two chains: each pair prints as `key value`;
after advancing, a space follows whenever keys remain (`if (k)`), even when
the values have run out. -/
def hashpairs_text : List (List Char) → List (List Char) → List Char
  | k :: ks, v :: vs =>
    k ++ ' ' :: (v ++ ((if ks.isEmpty then [] else [' ']) ++ hashpairs_text ks vs))
  | _, _ => []

mutual

/-- `print_`: the text of one value.  EOF prints nothing (it only sets the
returned flag), an Error prints its bare message, containers print their
delimiters with single-space separators.  For a hashmap, both chains are
rendered and then joined pairwise by `hashpairs_text`. -/
def print_ (readably : Bool) : Node → List Char
  | .eofN => []
  | .errorN m => m.data
  | .nilN => "nil".data
  | .trueN => "true".data
  | .falseN => "false".data
  | .number i => int_chars i
  | .symbol s => s.data
  | .keyword k => ':' :: k.data
  | .string s => if readably then '"' :: (escape_string s.data ++ ['"']) else s.data
  | .list xs => '(' :: (print_elements readably xs ++ [')'])
  | .vector xs => '[' :: (print_elements readably xs ++ [']'])
  | .hashmap ks vs =>
    '{' :: (hashpairs_text (print_each readably ks) (print_each readably vs) ++ ['}'])

/-- The element loop shared by the list and vector cases of `print_` (both
emit a space exactly between consecutive elements). -/
def print_elements (readably : Bool) : List Node → List Char
  | [] => []
  | [x] => print_ readably x
  | x :: y :: rest => print_ readably x ++ ' ' :: print_elements readably (y :: rest)

/-- The rendering of every node of one chain. -/
def print_each (readably : Bool) : List Node → List (List Char)
  | [] => []
  | x :: xs => print_ readably x :: print_each readably xs

end

/-- `print`: the REPL prints values readably. -/
def print (n : Node) : List Char := print_ true n

example : tokenizer "(+ 1 2)".data = some ["(", "+", "1", "2", ")"] := by decide

example : read_form_ 9 ["(", "+", "1", "2", ")"] =
    some (some (.list [.symbol "+", .number 1, .number 2]), []) := by decide

example : parse 9 "{1 2}".data = some (some (.hashmap [.number 1] [.number 2])) := by decide

example : print (.list [.number 1, .number (-2), .string "a\"b"]) = "(1 -2 \"a\\\"b\")".data := by
  decide

/-!
Supporting lemmas for the arithmetic and comparison primitives.
-/

theorem eval_add_loop_fold (ns : List Int) :
    ∀ acc : Int, eval_add_loop acc (ns.map Node.number) = .number (ns.foldl (· + ·) acc) := by
  induction ns with
  | nil => intro acc; rfl
  | cons k rest ih => intro acc; simpa [eval_add_loop] using ih (acc + k)

theorem eval_mul_loop_fold (ns : List Int) :
    ∀ acc : Int, eval_mul_loop acc (ns.map Node.number) = .number (ns.foldl (· * ·) acc) := by
  induction ns with
  | nil => intro acc; rfl
  | cons k rest ih => intro acc; simpa [eval_mul_loop] using ih (acc * k)

theorem eval_sub_loop_fold (ns : List Int) :
    ∀ acc : Int, eval_sub_loop acc (ns.map Node.number) = .number (ns.foldl (· - ·) acc) := by
  induction ns with
  | nil => intro acc; rfl
  | cons k rest ih => intro acc; simpa [eval_sub_loop] using ih (acc - k)

theorem eval_lt_loop_all (ns : List Int) :
    ∀ (first : Int) (res : Bool),
      eval_lt_loop first res (ns.map Node.number) =
        if res && ns.all (fun k => decide (first < k)) then Node.trueN else Node.falseN := by
  induction ns with
  | nil => intro first res; cases res <;> rfl
  | cons k rest ih =>
    intro first res
    simp only [List.map_cons, eval_lt_loop, ih, List.all_cons, Bool.and_assoc]

theorem eval_lteq_loop_all (ns : List Int) :
    ∀ (first : Int) (res : Bool),
      eval_lteq_loop first res (ns.map Node.number) =
        if res && ns.all (fun k => decide (first ≤ k)) then Node.trueN else Node.falseN := by
  induction ns with
  | nil => intro first res; cases res <;> rfl
  | cons k rest ih =>
    intro first res
    simp only [List.map_cons, eval_lteq_loop, ih, List.all_cons, Bool.and_assoc]

theorem eval_gt_loop_all (ns : List Int) :
    ∀ (first : Int) (res : Bool),
      eval_gt_loop first res (ns.map Node.number) =
        if res && ns.all (fun k => decide (first > k)) then Node.trueN else Node.falseN := by
  induction ns with
  | nil => intro first res; cases res <;> rfl
  | cons k rest ih =>
    intro first res
    simp only [List.map_cons, eval_gt_loop, ih, List.all_cons, Bool.and_assoc]

theorem eval_gteq_loop_all (ns : List Int) :
    ∀ (first : Int) (res : Bool),
      eval_gteq_loop first res (ns.map Node.number) =
        if res && ns.all (fun k => decide (first ≥ k)) then Node.trueN else Node.falseN := by
  induction ns with
  | nil => intro first res; cases res <;> rfl
  | cons k rest ih =>
    intro first res
    simp only [List.map_cons, eval_gteq_loop, ih, List.all_cons, Bool.and_assoc]

/-- C5 counterexample: the claim says `(- 5)` evaluates to `Integer(-5)`, but
the reference environment evaluates it to `Integer(5)` (the single argument
seeds the accumulator and nothing is subtracted). -/
theorem C5_unary_minus_counterexample :
    parse 9 "(- 5)".data = some (some (.list [.symbol "-", .number 5])) ∧
    eval_ 2 initial_environment (.list [.symbol "-", .number 5]) =
      some (.number 5, initial_environment) ∧
    Node.number 5 ≠ Node.number (-5) := by
  refine ⟨by decide, by decide, by decide⟩

/-- C5 (amended): `-` with a single Integer argument returns that argument
unchanged; with two or more Integer arguments it left-folds subtraction from
the first argument; `+` and `*` fold from their identity elements 0 and 1. -/
theorem C5_sub_fold_semantics :
    (∀ (f : Nat) (n : Int),
      eval_ (f + 2) initial_environment (.list [.symbol "-", .number n]) =
        some (.number n, initial_environment)) ∧
    (∀ (a : Int) (ns : List Int),
      eval_sub (.number a :: ns.map Node.number) = .number (ns.foldl (· - ·) a)) ∧
    (∀ ns : List Int, eval_add (ns.map Node.number) = .number (ns.foldl (· + ·) 0)) ∧
    (∀ ns : List Int, eval_mul (ns.map Node.number) = .number (ns.foldl (· * ·) 1)) := by
  refine ⟨fun f n => rfl, fun a ns => ?_, fun ns => ?_, fun ns => ?_⟩
  · simpa [eval_sub] using eval_sub_loop_fold ns a
  · simpa [eval_add] using eval_add_loop_fold ns 0
  · simpa [eval_mul] using eval_mul_loop_fold ns 1

/-- C10: each comparison primitive returns False on no arguments, True on a
single Integer argument, and with more arguments compares the first argument
against every later one individually; `(< 1 3 2)` is True. -/
theorem C10_comparison_semantics :
    (eval_lt [] = .falseN ∧ eval_lteq [] = .falseN ∧
      eval_gt [] = .falseN ∧ eval_gteq [] = .falseN) ∧
    (∀ n : Int, eval_lt [.number n] = .trueN ∧ eval_lteq [.number n] = .trueN ∧
      eval_gt [.number n] = .trueN ∧ eval_gteq [.number n] = .trueN) ∧
    (∀ (a : Int) (ns : List Int),
      eval_lt (.number a :: ns.map Node.number) =
        (if ns.all (fun k => decide (a < k)) then Node.trueN else Node.falseN) ∧
      eval_lteq (.number a :: ns.map Node.number) =
        (if ns.all (fun k => decide (a ≤ k)) then Node.trueN else Node.falseN) ∧
      eval_gt (.number a :: ns.map Node.number) =
        (if ns.all (fun k => decide (a > k)) then Node.trueN else Node.falseN) ∧
      eval_gteq (.number a :: ns.map Node.number) =
        (if ns.all (fun k => decide (a ≥ k)) then Node.trueN else Node.falseN)) ∧
    (parse 9 "(< 1 3 2)".data = some (some (.list [.symbol "<", .number 1, .number 3, .number 2])) ∧
      eval_ 2 initial_environment (.list [.symbol "<", .number 1, .number 3, .number 2]) =
        some (.trueN, initial_environment)) := by
  refine ⟨⟨rfl, rfl, rfl, rfl⟩, fun n => ⟨rfl, rfl, rfl, rfl⟩,
    fun a ns => ⟨?_, ?_, ?_, ?_⟩, by decide, by decide⟩
  · simpa [eval_lt] using eval_lt_loop_all ns a true
  · simpa [eval_lteq] using eval_lteq_loop_all ns a true
  · simpa [eval_gt] using eval_gt_loop_all ns a true
  · simpa [eval_gteq] using eval_gteq_loop_all ns a true

/-- C4: `=` with two or more arguments is True exactly when the first
argument is structurally equal to every later one; a type mismatch between
compared arguments is inequality, never an error; `(= (1 2) (1 2))`
evaluates to True and `(= 1 "1")` to False. -/
theorem C4_structural_equality :
    (∀ (first : Node) (rest : List Node), rest ≠ [] →
      (eval_eq (first :: rest) = .trueN ↔ ∀ a ∈ rest, nodes_eq first a = true)) ∧
    (∀ (first : Node) (rest : List Node),
      eval_eq (first :: rest) = .trueN ∨ eval_eq (first :: rest) = .falseN) ∧
    (∀ a b : Node, node_type a ≠ node_type b → nodes_eq a b = false) ∧
    (parse 9 "(= (1 2) (1 2))".data =
      some (some (.list [.symbol "=",
        .list [.number 1, .number 2], .list [.number 1, .number 2]])) ∧
      eval_ 3 initial_environment (.list [.symbol "=",
        .list [.number 1, .number 2], .list [.number 1, .number 2]]) =
        some (.trueN, initial_environment)) ∧
    (parse 9 "(= 1 \"1\")".data =
      some (some (.list [.symbol "=", .number 1, .string "1"])) ∧
      eval_ 2 initial_environment (.list [.symbol "=", .number 1, .string "1"]) =
        some (.falseN, initial_environment)) := by
  refine ⟨fun first rest _ => ?_, fun first rest => ?_, fun a b h => ?_,
    ⟨by decide, by decide⟩, ⟨by decide, by decide⟩⟩
  · simp only [eval_eq]
    constructor
    · intro h
      by_cases hall : rest.all (fun a => nodes_eq first a) = true
      · simpa [List.all_eq_true] using hall
      · simp [hall] at h
    · intro h
      have : rest.all (fun a => nodes_eq first a) = true := by
        simpa [List.all_eq_true] using h
      simp [this]
  · simp only [eval_eq]
    by_cases hall : rest.all (fun a => nodes_eq first a) = true
    · left; simp [hall]
    · right; simp [hall]
  · unfold nodes_eq
    simp [h]

/-- C4 witness: the conditional parts applied at concrete inputs. -/
theorem C4_structural_equality_witness :
    eval_eq [.number 1, .number 1] = .trueN ∧
    nodes_eq (.number 1) (.string "1") = false := by
  constructor
  · exact (C4_structural_equality.1 (.number 1) [.number 1] (by decide)).mpr (by decide)
  · exact C4_structural_equality.2.2.1 (.number 1) (.string "1") (by decide)

/-!
Supporting lemmas about `eval_args`: result length, the raw-copy prefix, and
the evaluated suffix.
-/

theorem eval_args_length (cb : EvalCb) :
    ∀ (args : List Node) (env : Env) (nea i : Nat) (res : List Node) (env' : Env),
      eval_args cb env nea i args = some (.inr res, env') → res.length = args.length := by
  intro args
  induction args with
  | nil =>
    intro env nea i res env' h
    simp only [eval_args, Option.some.injEq, Prod.mk.injEq, Sum.inr.injEq] at h
    obtain ⟨h1, h2⟩ := h
    subst h1
    rfl
  | cons a rest ih =>
    intro env nea i res env' h
    simp only [eval_args] at h
    by_cases hi : i < nea
    · rw [if_pos hi] at h
      by_cases he : (copy_node a).isError
      · simp [he] at h
      · rw [if_neg he] at h
        cases hrec : eval_args cb env nea (i + 1) rest with
        | none => rw [hrec] at h; cases h
        | some p =>
          rw [hrec] at h
          obtain ⟨x, env1⟩ := p
          cases x with
          | inl err => simp at h
          | inr es =>
            simp only [Option.some.injEq, Prod.mk.injEq, Sum.inr.injEq] at h
            obtain ⟨h1, h2⟩ := h
            subst h2
            rw [← h1]
            simp [ih _ _ _ _ _ hrec]
    · rw [if_neg hi] at h
      cases hcb : cb env a with
      | none => rw [hcb] at h; cases h
      | some p =>
        obtain ⟨element, env1⟩ := p
        rw [hcb] at h
        dsimp only at h
        by_cases he : element.isError
        · simp [he] at h
        · rw [if_neg he] at h
          cases hrec : eval_args cb env1 nea (i + 1) rest with
          | none => rw [hrec] at h; cases h
          | some p2 =>
            rw [hrec] at h
            obtain ⟨x, env2⟩ := p2
            cases x with
            | inl err => simp at h
            | inr es =>
              simp only [Option.some.injEq, Prod.mk.injEq, Sum.inr.injEq] at h
              obtain ⟨h1, h2⟩ := h
              subst h2
              rw [← h1]
              simp [ih _ _ _ _ _ hrec]

theorem eval_args_past_prefix (cb : EvalCb) :
    ∀ (args : List Node) (env : Env) (nea i j : Nat), nea ≤ i →
      eval_args cb env nea i args = eval_args cb env 0 j args := by
  intro args
  induction args with
  | nil => intro env nea i j _; rfl
  | cons a rest ih =>
    intro env nea i j h
    simp only [eval_args, if_neg (Nat.not_lt.mpr h), if_neg (Nat.not_lt_zero j)]
    cases hcb : cb env a with
    | none => rfl
    | some p =>
      obtain ⟨element, env1⟩ := p
      dsimp only
      by_cases he : element.isError
      · simp [he]
      · rw [if_neg he, if_neg he, ih env1 nea (i + 1) (j + 1) (Nat.le_succ_of_le h)]

theorem eval_args_split (cb : EvalCb) :
    ∀ (args : List Node) (env : Env) (nea i : Nat) (res : List Node) (env' : Env),
      eval_args cb env nea i args = some (.inr res, env') →
      res.take (nea - i) = (args.take (nea - i)).map copy_node ∧
      eval_args cb env 0 0 (args.drop (nea - i)) = some (.inr (res.drop (nea - i)), env') := by
  intro args
  induction args with
  | nil =>
    intro env nea i res env' h
    simp only [eval_args, Option.some.injEq, Prod.mk.injEq, Sum.inr.injEq] at h
    obtain ⟨h1, h2⟩ := h
    subst h1
    subst h2
    simp [eval_args]
  | cons a rest ih =>
    intro env nea i res env' h
    by_cases hi : i < nea
    · simp only [eval_args, if_pos hi] at h
      by_cases he : (copy_node a).isError
      · simp [he] at h
      · rw [if_neg he] at h
        cases hrec : eval_args cb env nea (i + 1) rest with
        | none => rw [hrec] at h; cases h
        | some p =>
          rw [hrec] at h
          obtain ⟨x, env1⟩ := p
          cases x with
          | inl err => simp at h
          | inr es =>
            simp only [Option.some.injEq, Prod.mk.injEq, Sum.inr.injEq] at h
            obtain ⟨h1, h2⟩ := h
            subst h2
            obtain ⟨ihtake, ihdrop⟩ := ih _ _ _ _ _ hrec
            have hsub : nea - i = (nea - (i + 1)) + 1 := by omega
            constructor
            · rw [← h1, hsub]
              simp only [List.take_succ_cons, List.map_cons]
              rw [ihtake]
            · rw [← h1, hsub]
              simp only [List.drop_succ_cons]
              exact ihdrop
    · have hsub : nea - i = 0 := by omega
      rw [hsub]
      refine ⟨by simp, ?_⟩
      simp only [List.drop_zero]
      rw [← eval_args_past_prefix cb (a :: rest) env nea i 0 (Nat.not_lt.mp hi)]
      exact h

theorem map_copy_node_id (l : List Node) : l.map copy_node = l := by
  induction l with
  | nil => rfl
  | cons x xs ih => simp [copy_node_id, ih]

theorem eval_number (f : Nat) (env : Env) (i : Int) :
    eval_ (f + 1) env (.number i) = some (.number i, env) := rfl

/-- C1: in the reference top-level environment `def!` is registered with
nonevalargs 1, `let*` with 2, and the numeric/comparison primitives with 0;
a list whose head symbol is bound as a Function dispatches through
`eval_function`, whose argument processing hands the implementation the
first nonevalargs arguments as raw unevaluated copies (equal to the
argument forms themselves) and the left-to-right evaluations of every later
argument. -/
theorem C1_call_policy :
    (lookup_function initial_environment "def!" = some (1, .fdef) ∧
      lookup_function initial_environment "let*" = some (2, .flet) ∧
      lookup_function initial_environment "+" = some (0, .fadd) ∧
      lookup_function initial_environment "-" = some (0, .fsub) ∧
      lookup_function initial_environment "*" = some (0, .fmul) ∧
      lookup_function initial_environment "/" = some (0, .fdiv) ∧
      lookup_function initial_environment "<" = some (0, .flt) ∧
      lookup_function initial_environment "<=" = some (0, .flteq) ∧
      lookup_function initial_environment ">" = some (0, .fgt) ∧
      lookup_function initial_environment ">=" = some (0, .fgteq) ∧
      lookup_function initial_environment "=" = some (0, .feq)) ∧
    (∀ (f : Nat) (env : Env) (s : String) (args : List Node) (nea : Nat) (fid : FuncId),
      lookup_function env s = some (nea, fid) →
      eval_ (f + 1) env (.list (.symbol s :: args)) =
        eval_function (fun e m => eval_ f e m) env (.symbol s :: args)) ∧
    (∀ (cb : EvalCb) (env : Env) (s : String) (args : List Node) (nea : Nat) (fid : FuncId)
        (res : List Node) (env1 : Env),
      lookup_function env s = some (nea, fid) →
      eval_args cb env nea 0 args = some (.inr res, env1) →
      eval_function cb env (.symbol s :: args) = apply_function cb env1 fid res) ∧
    (∀ (cb : EvalCb) (env : Env) (nea : Nat) (args res : List Node) (env1 : Env),
      eval_args cb env nea 0 args = some (.inr res, env1) →
      res.length = args.length ∧
      res.take nea = (args.take nea).map copy_node ∧
      res.take nea = args.take nea ∧
      eval_args cb env 0 0 (args.drop nea) = some (.inr (res.drop nea), env1)) := by
  refine ⟨by decide, ?_, ?_, ?_⟩
  · intro f env s args nea fid h
    show eval_list (fun e m => eval_ f e m) env (.symbol s :: args) = _
    simp [eval_list, h]
  · intro cb env s args nea fid res env1 hlook hargs
    simp only [eval_function, hlook, hargs]
  · intro cb env nea args res env1 h
    have hsplit := eval_args_split cb args env nea 0 res env1 h
    rw [Nat.sub_zero] at hsplit
    exact ⟨eval_args_length cb args env nea 0 res env1 h, hsplit.1,
      by rw [hsplit.1, map_copy_node_id], hsplit.2⟩

/-- C1 witness: the conditional parts applied in the reference environment. -/
theorem C1_call_policy_witness :
    (eval_ 1 initial_environment (.list [.symbol "+", .number 1, .number 2]) =
      eval_function (fun e m => eval_ 0 e m) initial_environment
        [.symbol "+", .number 1, .number 2]) ∧
    (eval_function (fun e m => eval_ 3 e m) initial_environment
        [.symbol "def!", .symbol "x", .number 5] =
      apply_function (fun e m => eval_ 3 e m) initial_environment .fdef
        [.symbol "x", .number 5]) ∧
    ([Node.symbol "x", Node.number 5].length = [Node.symbol "x", Node.number 5].length ∧
      [Node.symbol "x", Node.number 5].take 1 = ([Node.symbol "x", Node.number 5].take 1).map copy_node ∧
      [Node.symbol "x", Node.number 5].take 1 = [Node.symbol "x", Node.number 5].take 1 ∧
      eval_args (fun e m => eval_ 3 e m) initial_environment 0 0
          ([Node.symbol "x", Node.number 5].drop 1) =
        some (.inr ([Node.symbol "x", Node.number 5].drop 1), initial_environment)) := by
  refine ⟨C1_call_policy.2.1 0 initial_environment "+" [.number 1, .number 2] 0 .fadd (by decide),
    C1_call_policy.2.2.1 (fun e m => eval_ 3 e m) initial_environment "def!"
      [.symbol "x", .number 5] 1 .fdef [.symbol "x", .number 5] initial_environment
      (by decide) (by decide),
    C1_call_policy.2.2.2 (fun e m => eval_ 3 e m) initial_environment 1
      [.symbol "x", .number 5] [.symbol "x", .number 5] initial_environment (by decide)⟩

theorem isError_symbol (s : String) : (Node.symbol s).isError = false := rfl

theorem eval_args_def_call (cb : EvalCb) (env : Env) (x : String) (v v' : Node) (env1 : Env)
    (hv : cb env v = some (v', env1)) (herr : v'.isError = false) :
    eval_args cb env 1 0 [.symbol x, v] = some (.inr [.symbol x, v'], env1) := by
  simp [eval_args, copy_node, isError_symbol, hv, herr]

/-- C2: with `def!` bound as in the reference environment, evaluating
`(def! x v)` evaluates `v` in the current environment, binds the result as a
Variable named `x` in the current scope only (removing any prior Variable of
that name from that scope, leaving outer scopes untouched), and returns the
bound value, so that a subsequent evaluation of `x` yields that value; a
missing name, missing value, excess arguments, and a non-Symbol name each
produce an error. -/
theorem C2_def_semantics :
    (∀ (f : Nat) (env : Env) (x : String) (v v' : Node) (s1 : List SymEntry) (t : Env),
      lookup_function env "def!" = some (1, .fdef) →
      eval_ f env v = some (v', s1 :: t) →
      v'.isError = false →
      eval_ (f + 1) env (.list [.symbol "def!", .symbol x, v]) =
          some (v', (SymEntry.var x v' :: remove_variable s1 x) :: t) ∧
        lookup_variable ((SymEntry.var x v' :: remove_variable s1 x) :: t) x = some v' ∧
        eval_ 1 ((SymEntry.var x v' :: remove_variable s1 x) :: t) (.symbol x) =
          some (v', (SymEntry.var x v' :: remove_variable s1 x) :: t)) ∧
    (∀ (f : Nat) (env : Env),
      lookup_function env "def!" = some (1, .fdef) →
      eval_ (f + 1) env (.list [.symbol "def!"]) = some (.errorN "no symbol to define", env)) ∧
    (∀ (f : Nat) (env : Env) (x : String),
      lookup_function env "def!" = some (1, .fdef) →
      eval_ (f + 1) env (.list [.symbol "def!", .symbol x]) =
        some (.errorN "symbol value missing", env)) ∧
    (∀ (f : Nat) (env : Env) (x : String) (n m : Int),
      lookup_function env "def!" = some (1, .fdef) →
      eval_ (f + 2) env (.list [.symbol "def!", .symbol x, .number n, .number m]) =
        some (.errorN "excessive symbol values", env)) ∧
    (∀ (f : Nat) (env : Env) (n m : Int),
      lookup_function env "def!" = some (1, .fdef) →
      eval_ (f + 2) env (.list [.symbol "def!", .number n, .number m]) =
        some (.errorN "not a symbol", env)) := by
  refine ⟨?_, ?_, ?_, ?_, ?_⟩
  · intro f env x v v' s1 t hlook heval herr
    have hargs := eval_args_def_call (fun e m => eval_ f e m) env x v v' (s1 :: t) heval herr
    have henv2 : lookup_variable ((SymEntry.var x v' :: remove_variable s1 x) :: t) x =
        some v' := by
      simp [lookup_variable, find_variable]
    refine ⟨?_, henv2, ?_⟩
    · show eval_list (fun e m => eval_ f e m) env [.symbol "def!", .symbol x, v] = _
      simp only [eval_list, hlook, Option.isSome_some, if_true, eval_function, hargs,
        apply_function, eval_def, add_variable, copy_node_id, herr, Bool.false_eq_true,
        if_false]
    · show some (eval_variable ((SymEntry.var x v' :: remove_variable s1 x) :: t) x, _) = _
      simp [eval_variable, henv2, copy_node_id]
  · intro f env hlook
    show eval_list (fun e m => eval_ f e m) env [.symbol "def!"] = _
    simp [eval_list, hlook, eval_function, eval_args, apply_function, eval_def]
  · intro f env x hlook
    show eval_list (fun e m => eval_ f e m) env [.symbol "def!", .symbol x] = _
    simp [eval_list, hlook, eval_function, eval_args, apply_function, eval_def,
      copy_node, Node.isError]
  · intro f env x n m hlook
    show eval_list (fun e m => eval_ (f + 1) e m) env
      [.symbol "def!", .symbol x, .number n, .number m] = _
    simp [eval_list, hlook, eval_function, eval_args, apply_function, eval_def,
      copy_node, Node.isError, eval_number]
  · intro f env n m hlook
    show eval_list (fun e m => eval_ (f + 1) e m) env
      [.symbol "def!", .number n, .number m] = _
    simp [eval_list, hlook, eval_function, eval_args, apply_function, eval_def,
      copy_node, Node.isError, eval_number]

/-- C2 witness: `(def! x 5)` in the reference environment, plus each error
case at a concrete input. -/
theorem C2_def_semantics_witness :
    (eval_ 2 initial_environment (.list [.symbol "def!", .symbol "x", .number 5]) =
        some (.number 5,
          (SymEntry.var "x" (.number 5) :: remove_variable initial_environment.head! "x")
            :: []) ∧
      lookup_variable
          ((SymEntry.var "x" (.number 5) :: remove_variable initial_environment.head! "x")
            :: []) "x" = some (.number 5) ∧
      eval_ 1 ((SymEntry.var "x" (.number 5) :: remove_variable initial_environment.head! "x")
            :: []) (.symbol "x") =
        some (.number 5,
          (SymEntry.var "x" (.number 5) :: remove_variable initial_environment.head! "x")
            :: [])) ∧
    eval_ 1 initial_environment (.list [.symbol "def!"]) =
      some (.errorN "no symbol to define", initial_environment) ∧
    eval_ 1 initial_environment (.list [.symbol "def!", .symbol "x"]) =
      some (.errorN "symbol value missing", initial_environment) ∧
    eval_ 2 initial_environment (.list [.symbol "def!", .symbol "x", .number 1, .number 2]) =
      some (.errorN "excessive symbol values", initial_environment) ∧
    eval_ 2 initial_environment (.list [.symbol "def!", .number 1, .number 2]) =
      some (.errorN "not a symbol", initial_environment) := by
  refine ⟨C2_def_semantics.1 1 initial_environment "x" (.number 5) (.number 5)
      initial_environment.head! [] (by decide) (by decide) (by decide),
    C2_def_semantics.2.1 0 initial_environment (by decide),
    C2_def_semantics.2.2.1 0 initial_environment "x" (by decide),
    C2_def_semantics.2.2.2.1 0 initial_environment "x" 1 2 (by decide),
    C2_def_semantics.2.2.2.2 0 initial_environment 1 2 (by decide)⟩

/-!
The scope-locality invariant: every evaluation step returns an environment
chain with the same outer part — only the innermost scope is ever rewritten
(`add_variable` mutates the current environment only, and `eval_let`'s child
scope is dropped before returning).
-/

/-- A callback that preserves the outer part of the environment chain. -/
def cb_tail_ok (cb : EvalCb) : Prop :=
  ∀ env n r env', cb env n = some (r, env') → env'.tail = env.tail

theorem add_variable_tail (env : Env) (name : String) (v : Node) (env' : Env)
    (h : add_variable env name v = some env') : env'.tail = env.tail := by
  cases env with
  | nil => cases h
  | cons syms outer =>
    simp only [add_variable] at h
    by_cases he : (copy_node v).isError
    · simp [he] at h
    · rw [if_neg he] at h
      simp only [Option.some.injEq] at h
      rw [← h]
      rfl

theorem eval_elements_loop_tail (cb : EvalCb) (hcb : cb_tail_ok cb) :
    ∀ (es : List Node) (env : Env) (result : Node) (sel : chainsel) (r : Node) (env' : Env),
      eval_elements_loop cb env result sel es = some (r, env') → env'.tail = env.tail := by
  intro es
  induction es with
  | nil =>
    intro env result sel r env' h
    simp only [eval_elements_loop, Option.some.injEq, Prod.mk.injEq] at h
    rw [← h.2]
  | cons e rest ih =>
    intro env result sel r env' h
    simp only [eval_elements_loop] at h
    cases hc : cb env e with
    | none => rw [hc] at h; cases h
    | some p =>
      obtain ⟨r1, env1⟩ := p
      rw [hc] at h
      dsimp only at h
      have h1 : env1.tail = env.tail := hcb env e r1 env1 hc
      by_cases he : (eval_append_element result sel r1).isError
      · simp only [he, if_true, Option.some.injEq, Prod.mk.injEq] at h
        rw [← h.2, h1]
      · rw [if_neg he] at h
        exact (ih env1 (eval_append_element result sel r1) sel r env' h).trans h1

theorem eval_args_tail (cb : EvalCb) (hcb : cb_tail_ok cb) :
    ∀ (args : List Node) (env : Env) (nea i : Nat) (x : Node ⊕ List Node) (env' : Env),
      eval_args cb env nea i args = some (x, env') → env'.tail = env.tail := by
  intro args
  induction args with
  | nil =>
    intro env nea i x env' h
    simp only [eval_args, Option.some.injEq, Prod.mk.injEq] at h
    rw [← h.2]
  | cons a rest ih =>
    intro env nea i x env' h
    simp only [eval_args] at h
    by_cases hi : i < nea
    · rw [if_pos hi] at h
      by_cases he : (copy_node a).isError
      · simp only [he, if_true, Option.some.injEq, Prod.mk.injEq] at h
        rw [← h.2]
      · rw [if_neg he] at h
        cases hrec : eval_args cb env nea (i + 1) rest with
        | none => rw [hrec] at h; cases h
        | some p =>
          obtain ⟨x1, env1⟩ := p
          rw [hrec] at h
          have h1 : env1.tail = env.tail := ih env nea (i + 1) x1 env1 hrec
          cases x1 with
          | inl err =>
            simp only [Option.some.injEq, Prod.mk.injEq] at h
            rw [← h.2]; exact h1
          | inr es =>
            simp only [Option.some.injEq, Prod.mk.injEq] at h
            rw [← h.2]; exact h1
    · rw [if_neg hi] at h
      cases hc : cb env a with
      | none => rw [hc] at h; cases h
      | some p =>
        obtain ⟨element, env1⟩ := p
        rw [hc] at h
        dsimp only at h
        have h1 : env1.tail = env.tail := hcb env a element env1 hc
        by_cases he : element.isError
        · simp only [he, if_true, Option.some.injEq, Prod.mk.injEq] at h
          rw [← h.2]; exact h1
        · rw [if_neg he] at h
          cases hrec : eval_args cb env1 nea (i + 1) rest with
          | none => rw [hrec] at h; cases h
          | some p2 =>
            obtain ⟨x2, env2⟩ := p2
            rw [hrec] at h
            have h2 : env2.tail = env1.tail := ih env1 nea (i + 1) x2 env2 hrec
            cases x2 with
            | inl err =>
              simp only [Option.some.injEq, Prod.mk.injEq] at h
              rw [← h.2]; exact h2.trans h1
            | inr es =>
              simp only [Option.some.injEq, Prod.mk.injEq] at h
              rw [← h.2]; exact h2.trans h1

theorem eval_let_bindings_tail (cb : EvalCb) (hcb : cb_tail_ok cb) :
    ∀ (bindings : List Node) (env : Env) (x : Node ⊕ Unit) (env' : Env),
      eval_let_bindings cb env bindings = some (x, env') → env'.tail = env.tail := by
  have main : ∀ (n : Nat) (bindings : List Node), bindings.length ≤ n →
      ∀ (env : Env) (x : Node ⊕ Unit) (env' : Env),
        eval_let_bindings cb env bindings = some (x, env') → env'.tail = env.tail := by
    intro n
    induction n with
    | zero =>
      intro bindings hlen env x env' h
      rcases bindings with - | ⟨b, rest⟩
      · simp only [eval_let_bindings, Option.some.injEq, Prod.mk.injEq] at h
        rw [← h.2]
      · simp at hlen
    | succ m ih =>
      intro bindings hlen env x env' h
      rcases bindings with - | ⟨b, - | ⟨v, rest⟩⟩
      · simp only [eval_let_bindings, Option.some.injEq, Prod.mk.injEq] at h
        rw [← h.2]
      · simp only [eval_let_bindings, Option.some.injEq, Prod.mk.injEq] at h
        rw [← h.2]
      · cases b with
        | symbol name =>
          simp only [eval_let_bindings] at h
          cases hc : cb env v with
          | none => rw [hc] at h; cases h
          | some p =>
            obtain ⟨value, env1⟩ := p
            rw [hc] at h
            dsimp only at h
            have h1 : env1.tail = env.tail := hcb env v value env1 hc
            by_cases he : value.isError
            · simp only [he, if_true, Option.some.injEq, Prod.mk.injEq] at h
              rw [← h.2]; exact h1
            · rw [if_neg he] at h
              cases hadd : add_variable env1 name value with
              | none =>
                rw [hadd] at h
                simp only [Option.some.injEq, Prod.mk.injEq] at h
                rw [← h.2]; exact h1
              | some env2 =>
                rw [hadd] at h
                dsimp only at h
                have h2 : env2.tail = env1.tail := add_variable_tail env1 name value env2 hadd
                have h3 : env'.tail = env2.tail := by
                  refine ih rest ?_ env2 x env' h
                  simp at hlen
                  omega
                exact h3.trans (h2.trans h1)
        | eofN =>
          simp only [eval_let_bindings, Option.some.injEq, Prod.mk.injEq] at h
          rw [← h.2]
        | errorN msg =>
          simp only [eval_let_bindings, Option.some.injEq, Prod.mk.injEq] at h
          rw [← h.2]
        | nilN =>
          simp only [eval_let_bindings, Option.some.injEq, Prod.mk.injEq] at h
          rw [← h.2]
        | trueN =>
          simp only [eval_let_bindings, Option.some.injEq, Prod.mk.injEq] at h
          rw [← h.2]
        | falseN =>
          simp only [eval_let_bindings, Option.some.injEq, Prod.mk.injEq] at h
          rw [← h.2]
        | number k =>
          simp only [eval_let_bindings, Option.some.injEq, Prod.mk.injEq] at h
          rw [← h.2]
        | keyword k =>
          simp only [eval_let_bindings, Option.some.injEq, Prod.mk.injEq] at h
          rw [← h.2]
        | string s =>
          simp only [eval_let_bindings, Option.some.injEq, Prod.mk.injEq] at h
          rw [← h.2]
        | list xs =>
          simp only [eval_let_bindings, Option.some.injEq, Prod.mk.injEq] at h
          rw [← h.2]
        | vector xs =>
          simp only [eval_let_bindings, Option.some.injEq, Prod.mk.injEq] at h
          rw [← h.2]
        | hashmap ks vs =>
          simp only [eval_let_bindings, Option.some.injEq, Prod.mk.injEq] at h
          rw [← h.2]
  intro bindings
  exact main bindings.length bindings le_rfl

theorem eval_let_env_eq (cb : EvalCb) (hcb : cb_tail_ok cb)
    (env : Env) (args : List Node) (r : Node) (env' : Env)
    (h : eval_let cb env args = some (r, env')) : env' = env := by
  have body : ∀ (belems rest : List Node),
      eval_let_body cb env belems rest = some (r, env') → env' = env := by
    intro belems rest hb
    rcases rest with - | ⟨e, - | ⟨e2, rest2⟩⟩
    · simp only [eval_let_body, Option.some.injEq, Prod.mk.injEq] at hb
      exact hb.2.symm
    · simp only [eval_let_body] at hb
      cases hbind : eval_let_bindings cb ([] :: env) belems with
      | none => rw [hbind] at hb; cases hb
      | some p =>
        obtain ⟨x, cenv⟩ := p
        rw [hbind] at hb
        have hct : cenv.tail = env :=
          eval_let_bindings_tail cb hcb belems ([] :: env) x cenv hbind
        cases x with
        | inl err =>
          dsimp only at hb
          simp only [Option.some.injEq, Prod.mk.injEq] at hb
          rw [← hb.2, hct]
        | inr u =>
          dsimp only at hb
          cases hbody : cb cenv e with
          | none => rw [hbody] at hb; cases hb
          | some p2 =>
            obtain ⟨result, cenv1⟩ := p2
            rw [hbody] at hb
            dsimp only at hb
            simp only [Option.some.injEq, Prod.mk.injEq] at hb
            have : cenv1.tail = cenv.tail := hcb cenv e result cenv1 hbody
            rw [← hb.2, this, hct]
    · simp only [eval_let_body, Option.some.injEq, Prod.mk.injEq] at hb
      exact hb.2.symm
  rcases args with - | ⟨bindings, rest⟩
  · simp only [eval_let, Option.some.injEq, Prod.mk.injEq] at h
    exact h.2.symm
  · cases bindings with
    | list belems => exact body belems rest h
    | vector belems => exact body belems rest h
    | eofN => simp only [eval_let, Option.some.injEq, Prod.mk.injEq] at h; exact h.2.symm
    | errorN m => simp only [eval_let, Option.some.injEq, Prod.mk.injEq] at h; exact h.2.symm
    | nilN => simp only [eval_let, Option.some.injEq, Prod.mk.injEq] at h; exact h.2.symm
    | trueN => simp only [eval_let, Option.some.injEq, Prod.mk.injEq] at h; exact h.2.symm
    | falseN => simp only [eval_let, Option.some.injEq, Prod.mk.injEq] at h; exact h.2.symm
    | number k => simp only [eval_let, Option.some.injEq, Prod.mk.injEq] at h; exact h.2.symm
    | symbol s => simp only [eval_let, Option.some.injEq, Prod.mk.injEq] at h; exact h.2.symm
    | keyword k => simp only [eval_let, Option.some.injEq, Prod.mk.injEq] at h; exact h.2.symm
    | string s => simp only [eval_let, Option.some.injEq, Prod.mk.injEq] at h; exact h.2.symm
    | hashmap ks vs =>
      simp only [eval_let, Option.some.injEq, Prod.mk.injEq] at h; exact h.2.symm

theorem eval_def_tail (env : Env) (args : List Node) :
    (eval_def env args).2.tail = env.tail := by
  rcases args with - | ⟨sym, rest⟩
  · rfl
  · cases sym with
    | symbol name =>
      rcases rest with - | ⟨value, - | ⟨w, ws⟩⟩
      · rfl
      · simp only [eval_def]
        cases hadd : add_variable env name value with
        | none => rfl
        | some env1 => exact add_variable_tail env name value env1 hadd
      · rfl
    | eofN => rfl
    | errorN m => rfl
    | nilN => rfl
    | trueN => rfl
    | falseN => rfl
    | number k => rfl
    | keyword k => rfl
    | string s => rfl
    | list xs => rfl
    | vector xs => rfl
    | hashmap ks vs => rfl

theorem apply_function_tail (cb : EvalCb) (hcb : cb_tail_ok cb)
    (fid : FuncId) (env : Env) (args : List Node) (r : Node) (env' : Env)
    (h : apply_function cb env fid args = some (r, env')) : env'.tail = env.tail := by
  cases fid with
  | fdef =>
    simp only [apply_function, Option.some.injEq] at h
    have := eval_def_tail env args
    rw [h] at this
    simpa using this
  | flet => rw [eval_let_env_eq cb hcb env args r env' h]
  | fadd => simp only [apply_function, Option.some.injEq, Prod.mk.injEq] at h; rw [← h.2]
  | fmul => simp only [apply_function, Option.some.injEq, Prod.mk.injEq] at h; rw [← h.2]
  | fsub => simp only [apply_function, Option.some.injEq, Prod.mk.injEq] at h; rw [← h.2]
  | fdiv => simp only [apply_function, Option.some.injEq, Prod.mk.injEq] at h; rw [← h.2]
  | flt => simp only [apply_function, Option.some.injEq, Prod.mk.injEq] at h; rw [← h.2]
  | flteq => simp only [apply_function, Option.some.injEq, Prod.mk.injEq] at h; rw [← h.2]
  | fgt => simp only [apply_function, Option.some.injEq, Prod.mk.injEq] at h; rw [← h.2]
  | fgteq => simp only [apply_function, Option.some.injEq, Prod.mk.injEq] at h; rw [← h.2]
  | feq => simp only [apply_function, Option.some.injEq, Prod.mk.injEq] at h; rw [← h.2]

theorem eval_function_tail (cb : EvalCb) (hcb : cb_tail_ok cb)
    (env : Env) (elements : List Node) (r : Node) (env' : Env)
    (h : eval_function cb env elements = some (r, env')) : env'.tail = env.tail := by
  rcases elements with - | ⟨head, args⟩
  · simp only [eval_function, Option.some.injEq, Prod.mk.injEq] at h
    rw [← h.2]
  · cases head with
    | symbol s =>
      simp only [eval_function] at h
      cases hlook : lookup_function env s with
      | none =>
        rw [hlook] at h
        dsimp only at h
        simp only [Option.some.injEq, Prod.mk.injEq] at h
        rw [← h.2]
      | some p =>
        obtain ⟨nea, fid⟩ := p
        rw [hlook] at h
        dsimp only at h
        cases hargs : eval_args cb env nea 0 args with
        | none => rw [hargs] at h; cases h
        | some q =>
          obtain ⟨x, env1⟩ := q
          rw [hargs] at h
          have h1 : env1.tail = env.tail := eval_args_tail cb hcb args env nea 0 x env1 hargs
          cases x with
          | inl err =>
            dsimp only at h
            simp only [Option.some.injEq, Prod.mk.injEq] at h
            rw [← h.2]; exact h1
          | inr evallist =>
            dsimp only at h
            exact (apply_function_tail cb hcb fid env1 evallist r env' h).trans h1
    | eofN => simp only [eval_function, Option.some.injEq, Prod.mk.injEq] at h; rw [← h.2]
    | errorN m => simp only [eval_function, Option.some.injEq, Prod.mk.injEq] at h; rw [← h.2]
    | nilN => simp only [eval_function, Option.some.injEq, Prod.mk.injEq] at h; rw [← h.2]
    | trueN => simp only [eval_function, Option.some.injEq, Prod.mk.injEq] at h; rw [← h.2]
    | falseN => simp only [eval_function, Option.some.injEq, Prod.mk.injEq] at h; rw [← h.2]
    | number k => simp only [eval_function, Option.some.injEq, Prod.mk.injEq] at h; rw [← h.2]
    | keyword k => simp only [eval_function, Option.some.injEq, Prod.mk.injEq] at h; rw [← h.2]
    | string s => simp only [eval_function, Option.some.injEq, Prod.mk.injEq] at h; rw [← h.2]
    | list xs => simp only [eval_function, Option.some.injEq, Prod.mk.injEq] at h; rw [← h.2]
    | vector xs => simp only [eval_function, Option.some.injEq, Prod.mk.injEq] at h; rw [← h.2]
    | hashmap ks vs =>
      simp only [eval_function, Option.some.injEq, Prod.mk.injEq] at h; rw [← h.2]

theorem eval_list_tail (cb : EvalCb) (hcb : cb_tail_ok cb)
    (env : Env) (elements : List Node) (r : Node) (env' : Env)
    (h : eval_list cb env elements = some (r, env')) : env'.tail = env.tail := by
  rcases elements with - | ⟨head, rest⟩
  · exact eval_elements_loop_tail cb hcb [] env (.list []) .elems r env' h
  · cases head with
    | symbol s =>
      simp only [eval_list] at h
      by_cases hs : (lookup_function env s).isSome
      · rw [if_pos hs] at h
        exact eval_function_tail cb hcb env (.symbol s :: rest) r env' h
      · rw [if_neg hs] at h
        exact eval_elements_loop_tail cb hcb (.symbol s :: rest) env (.list []) .elems r env' h
    | eofN => exact eval_elements_loop_tail cb hcb _ env (.list []) .elems r env' h
    | errorN m => exact eval_elements_loop_tail cb hcb _ env (.list []) .elems r env' h
    | nilN => exact eval_elements_loop_tail cb hcb _ env (.list []) .elems r env' h
    | trueN => exact eval_elements_loop_tail cb hcb _ env (.list []) .elems r env' h
    | falseN => exact eval_elements_loop_tail cb hcb _ env (.list []) .elems r env' h
    | number k => exact eval_elements_loop_tail cb hcb _ env (.list []) .elems r env' h
    | keyword k => exact eval_elements_loop_tail cb hcb _ env (.list []) .elems r env' h
    | string s => exact eval_elements_loop_tail cb hcb _ env (.list []) .elems r env' h
    | list xs => exact eval_elements_loop_tail cb hcb _ env (.list []) .elems r env' h
    | vector xs => exact eval_elements_loop_tail cb hcb _ env (.list []) .elems r env' h
    | hashmap ks vs => exact eval_elements_loop_tail cb hcb _ env (.list []) .elems r env' h

theorem eval_tail_ok : ∀ fuel : Nat, cb_tail_ok (fun e m => eval_ fuel e m) := by
  intro fuel
  induction fuel with
  | zero => intro env n r env' h; cases h
  | succ f ih =>
    intro env n r env' h
    cases n with
    | list xs => exact eval_list_tail _ ih env xs r env' h
    | vector xs =>
      exact eval_elements_loop_tail _ ih xs env (.vector []) .elems r env' h
    | hashmap ks vs =>
      cases ks with
      | nil => exact eval_elements_loop_tail _ ih vs env (.hashmap [] []) .hashvalues r env' h
      | cons k ks2 =>
        exact eval_elements_loop_tail _ ih vs env (.hashmap [copy_node k] []) .hashvalues r env' h
    | symbol s =>
      simp only [eval_, Option.some.injEq, Prod.mk.injEq] at h
      rw [← h.2]
    | eofN => simp only [eval_, Option.some.injEq, Prod.mk.injEq] at h; rw [← h.2]
    | errorN m => simp only [eval_, Option.some.injEq, Prod.mk.injEq] at h; rw [← h.2]
    | nilN => simp only [eval_, Option.some.injEq, Prod.mk.injEq] at h; rw [← h.2]
    | trueN => simp only [eval_, Option.some.injEq, Prod.mk.injEq] at h; rw [← h.2]
    | falseN => simp only [eval_, Option.some.injEq, Prod.mk.injEq] at h; rw [← h.2]
    | number k => simp only [eval_, Option.some.injEq, Prod.mk.injEq] at h; rw [← h.2]
    | keyword k => simp only [eval_, Option.some.injEq, Prod.mk.injEq] at h; rw [← h.2]
    | string s => simp only [eval_, Option.some.injEq, Prod.mk.injEq] at h; rw [← h.2]

/-- Every evaluation preserves the outer part of the environment chain. -/
theorem eval_env_tail (fuel : Nat) (env : Env) (n r : Node) (env' : Env)
    (h : eval_ fuel env n = some (r, env')) : env'.tail = env.tail :=
  eval_tail_ok fuel env n r env' h

theorem eval_args_all_copy (cb : EvalCb) :
    ∀ (args : List Node) (env : Env) (nea i : Nat) (x : Node ⊕ List Node) (env1 : Env),
      i + args.length ≤ nea → eval_args cb env nea i args = some (x, env1) → env1 = env := by
  intro args
  induction args with
  | nil =>
    intro env nea i x env1 _ h
    simp only [eval_args, Option.some.injEq, Prod.mk.injEq] at h
    exact h.2.symm
  | cons a rest ih =>
    intro env nea i x env1 hle h
    have hi : i < nea := by simp at hle; omega
    simp only [eval_args, if_pos hi] at h
    by_cases he : (copy_node a).isError
    · simp only [he, if_true, Option.some.injEq, Prod.mk.injEq] at h
      exact h.2.symm
    · rw [if_neg he] at h
      cases hrec : eval_args cb env nea (i + 1) rest with
      | none => rw [hrec] at h; cases h
      | some p =>
        obtain ⟨x2, env2⟩ := p
        rw [hrec] at h
        have h2 : env2 = env := by
          refine ih env nea (i + 1) x2 env2 ?_ hrec
          simp at hle
          omega
        cases x2 with
        | inl err =>
          simp only [Option.some.injEq, Prod.mk.injEq] at h
          rw [← h.2]; exact h2
        | inr es =>
          simp only [Option.some.injEq, Prod.mk.injEq] at h
          rw [← h.2]; exact h2

/-- C3: `(let* (x 1 y (+ x 1)) (+ x y))` evaluates to `Integer(3)` and leaves
the caller's environment untouched, `x` and `y` unbound; in general a `let*`
call with a bindings form and one body returns the caller's environment chain
unchanged (the child scope is discarded), and each binding pair evaluates its
value form in the child environment and binds it into the child's scope
before the next pair is processed (so later bindings see earlier ones). -/
theorem C3_let_semantics :
    (parse 29 "(let* (x 1 y (+ x 1)) (+ x y))".data =
      some (some (.list [.symbol "let*",
        .list [.symbol "x", .number 1, .symbol "y",
          .list [.symbol "+", .symbol "x", .number 1]],
        .list [.symbol "+", .symbol "x", .symbol "y"]])) ∧
      eval_ 9 initial_environment
        (.list [.symbol "let*",
          .list [.symbol "x", .number 1, .symbol "y",
            .list [.symbol "+", .symbol "x", .number 1]],
          .list [.symbol "+", .symbol "x", .symbol "y"]]) =
        some (.number 3, initial_environment) ∧
      lookup_variable initial_environment "x" = none ∧
      lookup_variable initial_environment "y" = none) ∧
    (∀ (f : Nat) (env : Env) (bindings body r : Node) (env' : Env),
      lookup_function env "let*" = some (2, .flet) →
      eval_ f env (.list [.symbol "let*", bindings, body]) = some (r, env') →
      env' = env) ∧
    (∀ (cb : EvalCb) (env : Env) (name : String) (v value : Node) (rest : List Node)
        (s1 : List SymEntry) (t1 : Env),
      cb env v = some (value, s1 :: t1) →
      value.isError = false →
      eval_let_bindings cb env (.symbol name :: v :: rest) =
        eval_let_bindings cb ((SymEntry.var name value :: remove_variable s1 name) :: t1) rest) := by
  refine ⟨⟨by decide, by decide, by decide, by decide⟩, ?_, ?_⟩
  · intro f env bindings body r env' hlook heval
    cases f with
    | zero => cases heval
    | succ g =>
      have hcb : cb_tail_ok (fun e m => eval_ g e m) := eval_tail_ok g
      replace heval : eval_list (fun e m => eval_ g e m) env
          [.symbol "let*", bindings, body] = some (r, env') := heval
      simp only [eval_list, hlook, Option.isSome_some, if_true, eval_function] at heval
      cases hargs : eval_args (fun e m => eval_ g e m) env 2 0 [bindings, body] with
      | none => rw [hargs] at heval; cases heval
      | some p =>
        obtain ⟨x, env1⟩ := p
        rw [hargs] at heval
        have henv1 : env1 = env :=
          eval_args_all_copy _ [bindings, body] env 2 0 x env1 (by simp) hargs
        cases x with
        | inl err =>
          dsimp only at heval
          simp only [Option.some.injEq, Prod.mk.injEq] at heval
          rw [← heval.2]; exact henv1
        | inr evallist =>
          dsimp only at heval
          have := eval_let_env_eq _ hcb env1 evallist r env' heval
          rw [this, henv1]
  · intro cb env name v value rest s1 t1 hv herr
    simp only [eval_let_bindings, hv, herr, Bool.false_eq_true, if_false, add_variable,
      copy_node_id]

/-- C3 witness: the conditional parts at concrete inputs — a concrete `let*`
evaluation returns the reference environment unchanged, and one binding step
on a concrete child environment. -/
theorem C3_let_semantics_witness :
    initial_environment = initial_environment ∧
    eval_let_bindings (fun e m => eval_ 1 e m) ([] :: initial_environment)
        [.symbol "z", .number 7] =
      eval_let_bindings (fun e m => eval_ 1 e m)
        ((SymEntry.var "z" (.number 7) :: remove_variable [] "z") :: initial_environment) [] := by
  refine ⟨?_, ?_⟩
  · exact C3_let_semantics.2.1 9 initial_environment
      (.list [.symbol "z", .number 7]) (.symbol "z") (.number 7) initial_environment
      (by decide) (by decide)
  · exact C3_let_semantics.2.2 (fun e m => eval_ 1 e m) ([] :: initial_environment)
      "z" (.number 7) (.number 7) [] [] initial_environment (by decide) (by decide)

/-- C7 counterexample: the claim says an error from a sub-evaluation is
propagated upward unchanged, but when a `let*` binding value fails the error
seen by the caller is a fresh "can not evaluate binding value", not the
"division by 0" produced at the point of failure. -/
theorem C7_error_rewrite_counterexample :
    parse 29 "(let* (x (/ 1 0)) x)".data =
      some (some (.list [.symbol "let*",
        .list [.symbol "x", .list [.symbol "/", .number 1, .number 0]], .symbol "x"])) ∧
    eval_ 9 initial_environment
      (.list [.symbol "let*",
        .list [.symbol "x", .list [.symbol "/", .number 1, .number 0]], .symbol "x"]) =
      some (.errorN "can not evaluate binding value", initial_environment) ∧
    Node.errorN "can not evaluate binding value" ≠ Node.errorN "division by 0" := by
  refine ⟨by decide, by decide, by decide⟩

/-- C7 (amended): when a sub-evaluation returns an Error, the enclosing
operation discards any accumulated Values and propagates that same Error
value upward unchanged — in container-element evaluation
(`eval_append_element` and the element loop) and in call-argument
evaluation (`eval_args` and `eval_function`) — except `eval_let`, which
replaces a failing binding value's error with a fresh
"can not evaluate binding value" error. -/
theorem C7_error_propagation :
    (∀ (container : Node) (sel : chainsel) (e : Node),
      e.isError = true → eval_append_element container sel e = e) ∧
    (∀ (cb : EvalCb) (env : Env) (result : Node) (sel : chainsel) (e : Node)
        (rest : List Node) (err : Node) (env1 : Env),
      cb env e = some (err, env1) → err.isError = true →
      eval_elements_loop cb env result sel (e :: rest) = some (err, env1)) ∧
    (∀ (cb : EvalCb) (env : Env) (nea i : Nat) (a : Node) (rest : List Node)
        (err : Node) (env1 : Env),
      ¬ i < nea → cb env a = some (err, env1) → err.isError = true →
      eval_args cb env nea i (a :: rest) = some (.inl err, env1)) ∧
    (∀ (cb : EvalCb) (env : Env) (s : String) (args : List Node) (err : Node)
        (env1 : Env) (nea : Nat) (fid : FuncId),
      lookup_function env s = some (nea, fid) →
      eval_args cb env nea 0 args = some (.inl err, env1) →
      eval_function cb env (.symbol s :: args) = some (err, env1)) ∧
    (∀ (cb : EvalCb) (env : Env) (name : String) (v : Node) (rest : List Node)
        (err : Node) (env1 : Env),
      cb env v = some (err, env1) → err.isError = true →
      eval_let_bindings cb env (.symbol name :: v :: rest) =
        some (.inl (.errorN "can not evaluate binding value"), env1)) := by
  refine ⟨?_, ?_, ?_, ?_, ?_⟩
  · intro container sel e he
    simp [eval_append_element, he]
  · intro cb env result sel e rest err env1 hc he
    have happ : eval_append_element result sel err = err := by
      simp [eval_append_element, he]
    simp only [eval_elements_loop, hc, happ, he, if_true]
  · intro cb env nea i a rest err env1 hi hc he
    simp only [eval_args, if_neg hi, hc, he, if_true]
  · intro cb env s args err env1 nea fid hlook hargs
    simp only [eval_function, hlook, hargs]
  · intro cb env name v rest err env1 hc he
    simp only [eval_let_bindings, hc, he, if_true]

/-- C7 witness: the propagation facts at concrete inputs. -/
theorem C7_error_propagation_witness :
    eval_append_element (.list []) .elems (.errorN "division by 0") = .errorN "division by 0" ∧
    eval_elements_loop (fun e m => eval_ 2 e m) initial_environment (.list []) .elems
        [.list [.symbol "/", .number 1, .number 0]] =
      some (.errorN "division by 0", initial_environment) ∧
    eval_args (fun e m => eval_ 2 e m) initial_environment 0 0
        [.list [.symbol "/", .number 1, .number 0]] =
      some (.inl (.errorN "division by 0"), initial_environment) ∧
    eval_function (fun e m => eval_ 2 e m) initial_environment
        [.symbol "+", .list [.symbol "/", .number 1, .number 0]] =
      some (.errorN "division by 0", initial_environment) ∧
    eval_let_bindings (fun e m => eval_ 2 e m) initial_environment
        [.symbol "x", .list [.symbol "/", .number 1, .number 0]] =
      some (.inl (.errorN "can not evaluate binding value"), initial_environment) := by
  refine ⟨C7_error_propagation.1 (.list []) .elems (.errorN "division by 0") (by decide),
    C7_error_propagation.2.1 (fun e m => eval_ 2 e m) initial_environment (.list []) .elems
      (.list [.symbol "/", .number 1, .number 0]) [] (.errorN "division by 0")
      initial_environment (by decide) (by decide),
    C7_error_propagation.2.2.1 (fun e m => eval_ 2 e m) initial_environment 0 0
      (.list [.symbol "/", .number 1, .number 0]) [] (.errorN "division by 0")
      initial_environment (by omega) (by decide) (by decide),
    C7_error_propagation.2.2.2.1 (fun e m => eval_ 2 e m) initial_environment "+"
      [.list [.symbol "/", .number 1, .number 0]] (.errorN "division by 0")
      initial_environment 0 .fadd (by decide) (by decide),
    C7_error_propagation.2.2.2.2 (fun e m => eval_ 2 e m) initial_environment "x"
      (.list [.symbol "/", .number 1, .number 0]) [] (.errorN "division by 0")
      initial_environment (by decide) (by decide)⟩

/-- C8: `read_metadata` never consumes the `^` token (unlike `read_quote`,
it lacks the cursor advance), so its first recursive read re-enters
`read_form_` on the same cursor: reading any form that starts with `^`
recurses forever — the model runs out of fuel at every fuel value — instead
of producing `(with-meta t m)`. -/
theorem C8_metadata_divergence :
    tokenizer "^1 2".data = some ["^", "1", "2"] ∧
    (∀ (fuel : Nat) (toks : List String), read_form_ fuel ("^" :: toks) = none) := by
  refine ⟨by decide, ?_⟩
  intro fuel
  induction fuel with
  | zero => intro toks; rfl
  | succ f ih =>
    intro toks
    show read_metadata (fun ts => read_form_ f ts) ("^" :: toks) = none
    simp only [read_metadata, ih]

mutual

/-- Every hashmap inside the value has equally long key and value chains. -/
def hash_balanced : Node → Bool
  | .hashmap ks vs => (ks.length == vs.length) && hash_balanced_list ks && hash_balanced_list vs
  | .list xs => hash_balanced_list xs
  | .vector xs => hash_balanced_list xs
  | _ => true

def hash_balanced_list : List Node → Bool
  | [] => true
  | x :: xs => hash_balanced x && hash_balanced_list xs

end

theorem hash_balanced_list_append (xs : List Node) (e : Node)
    (hxs : hash_balanced_list xs = true) (he : hash_balanced e = true) :
    hash_balanced_list (xs ++ [e]) = true := by
  induction xs with
  | nil => simp [hash_balanced_list, he]
  | cons x rest ih =>
    simp only [hash_balanced_list, Bool.and_eq_true] at hxs
    simp only [List.cons_append, hash_balanced_list, Bool.and_eq_true]
    exact ⟨hxs.1, ih hxs.2⟩

theorem hash_balanced_error (m : String) : hash_balanced (.errorN m) = true := rfl

/-- A reader callback whose successful results are all hash-balanced. -/
def cb_reads_balanced (cb : ReadCb) : Prop :=
  ∀ toks n rest, cb toks = some (some n, rest) → hash_balanced n = true

theorem read_prepend_element_balanced (acc : List Node) (element : Option Node)
    (hacc : hash_balanced_list acc = true)
    (helem : ∀ e, element = some e → hash_balanced e = true) :
    hash_balanced (read_prepend_element (.list acc) element) = true := by
  cases element with
  | none => simpa [read_prepend_element, hash_balanced] using hacc
  | some e =>
    by_cases he : e.isError
    · simp only [read_prepend_element, he, if_true]
      exact helem e rfl
    · simp only [read_prepend_element, he, Bool.false_eq_true, if_false]
      simp only [hash_balanced, hash_balanced_list, Bool.and_eq_true]
      exact ⟨helem e rfl, hacc⟩

theorem read_quote_balanced (cb : ReadCb) (hcb : cb_reads_balanced cb)
    (quote : String) (toks : List String) (n : Node) (rest : List String)
    (h : read_quote cb quote toks = some (some n, rest)) : hash_balanced n = true := by
  simp only [read_quote] at h
  cases hc : cb toks.tail with
  | none => rw [hc] at h; cases h
  | some p =>
    obtain ⟨element, toks1⟩ := p
    rw [hc] at h
    dsimp only at h
    have hel : ∀ e, element = some e → hash_balanced e = true := by
      intro e hee
      subst hee
      exact hcb toks.tail e toks1 hc
    have hr : hash_balanced (read_prepend_element (.list []) element) = true :=
      read_prepend_element_balanced [] element rfl hel
    by_cases he : (read_prepend_element (.list []) element).isError
    · rw [if_pos he] at h
      simp only [Option.some.injEq, Prod.mk.injEq] at h
      rw [← h.1]
      exact hr
    · rw [if_neg he] at h
      simp only [Option.some.injEq, Prod.mk.injEq] at h
      rw [← h.1]
      cases hpe : read_prepend_element (.list []) element with
      | list xs =>
        rw [hpe] at hr
        simp only [hash_balanced] at hr
        simp only [read_prepend_element, isError_symbol, Bool.false_eq_true, if_false,
          hash_balanced, hash_balanced_list, Bool.and_eq_true]
        exact ⟨trivial, hr⟩
      | eofN => rw [hpe] at hr; simpa [read_prepend_element, isError_symbol] using hr
      | errorN m => rw [hpe] at hr; simpa [read_prepend_element, isError_symbol] using hr
      | nilN => rw [hpe] at hr; simpa [read_prepend_element, isError_symbol] using hr
      | trueN => rw [hpe] at hr; simpa [read_prepend_element, isError_symbol] using hr
      | falseN => rw [hpe] at hr; simpa [read_prepend_element, isError_symbol] using hr
      | number k => rw [hpe] at hr; simpa [read_prepend_element, isError_symbol] using hr
      | symbol s => rw [hpe] at hr; simpa [read_prepend_element, isError_symbol] using hr
      | keyword k => rw [hpe] at hr; simpa [read_prepend_element, isError_symbol] using hr
      | string s => rw [hpe] at hr; simpa [read_prepend_element, isError_symbol] using hr
      | vector xs => rw [hpe] at hr; simpa [read_prepend_element, isError_symbol] using hr
      | hashmap ks vs => rw [hpe] at hr; simpa [read_prepend_element, isError_symbol] using hr

theorem read_prepend_any_balanced (r : Node) (element : Option Node)
    (hr : hash_balanced r = true)
    (helem : ∀ e, element = some e → hash_balanced e = true) :
    hash_balanced (read_prepend_element r element) = true := by
  cases element with
  | none => simpa [read_prepend_element] using hr
  | some e =>
    by_cases he : e.isError
    · simp only [read_prepend_element, he, if_true]
      exact helem e rfl
    · simp only [read_prepend_element, he, Bool.false_eq_true, if_false]
      cases r with
      | list xs =>
        simp only [hash_balanced] at hr
        simp only [hash_balanced, hash_balanced_list, Bool.and_eq_true]
        exact ⟨helem e rfl, hr⟩
      | eofN => exact hr
      | errorN m => exact hr
      | nilN => exact hr
      | trueN => exact hr
      | falseN => exact hr
      | number k => exact hr
      | symbol s => exact hr
      | keyword k => exact hr
      | string s => exact hr
      | vector xs => exact hr
      | hashmap ks vs => exact hr

theorem read_metadata_balanced (cb : ReadCb) (hcb : cb_reads_balanced cb)
    (toks : List String) (n : Node) (rest : List String)
    (h : read_metadata cb toks = some (some n, rest)) : hash_balanced n = true := by
  simp only [read_metadata] at h
  cases hc1 : cb toks with
  | none => rw [hc1] at h; cases h
  | some p1 =>
    obtain ⟨e1, t1⟩ := p1
    rw [hc1] at h
    dsimp only at h
    have hr1 : hash_balanced (read_prepend_element (.list []) e1) = true :=
      read_prepend_any_balanced (.list []) e1 rfl
        (fun e hee => hcb toks e t1 (by rw [hc1, hee]))
    by_cases he1 : (read_prepend_element (.list []) e1).isError
    · rw [if_pos he1] at h
      simp only [Option.some.injEq, Prod.mk.injEq] at h
      rw [← h.1]
      exact hr1
    · rw [if_neg he1] at h
      cases hc2 : cb t1 with
      | none => rw [hc2] at h; cases h
      | some p2 =>
        obtain ⟨e2, t2⟩ := p2
        rw [hc2] at h
        dsimp only at h
        have hr2 : hash_balanced
            (read_prepend_element (read_prepend_element (.list []) e1) e2) = true :=
          read_prepend_any_balanced _ e2 hr1
            (fun e hee => hcb t1 e t2 (by rw [hc2, hee]))
        by_cases he2 : (read_prepend_element (read_prepend_element (.list []) e1) e2).isError
        · rw [if_pos he2] at h
          simp only [Option.some.injEq, Prod.mk.injEq] at h
          rw [← h.1]
          exact hr2
        · rw [if_neg he2] at h
          simp only [Option.some.injEq, Prod.mk.injEq] at h
          rw [← h.1]
          exact read_prepend_any_balanced _ (some (.symbol "with-meta")) hr2
            (fun e hee => by cases hee; rfl)

theorem read_list_loop_balanced (cb : ReadCb) (hcb : cb_reads_balanced cb) :
    ∀ (lf : Nat) (acc : List Node) (toks : List String) (n : Node) (rest : List String),
      hash_balanced_list acc = true →
      read_list_loop cb lf (.list acc) toks = some (some n, rest) →
      hash_balanced n = true := by
  intro lf
  induction lf with
  | zero => intro acc toks n rest _ h; cases h
  | succ f ih =>
    intro acc toks n rest hacc h
    rcases toks with - | ⟨t, ts⟩
    · simp only [read_list_loop, Option.some.injEq, Prod.mk.injEq] at h
      rw [← h.1]
      rfl
    · simp only [read_list_loop] at h
      by_cases ht : t = ")"
      · rw [if_pos ht] at h
        simp only [Option.some.injEq, Prod.mk.injEq] at h
        rw [← h.1]
        simpa [hash_balanced] using hacc
      · rw [if_neg ht] at h
        cases hc : cb (t :: ts) with
        | none => rw [hc] at h; cases h
        | some p =>
          obtain ⟨element, toks1⟩ := p
          rw [hc] at h
          dsimp only at h
          cases element with
          | none =>
            simp only [read_append_element, Node.isError, Bool.false_eq_true, if_false] at h
            exact ih acc toks1 n rest hacc h
          | some e =>
            by_cases he : e.isError
            · rw [show read_append_element (.list acc) .elems (some e) = e by
                simp [read_append_element, he]] at h
              rw [if_pos he] at h
              simp only [Option.some.injEq, Prod.mk.injEq] at h
              rw [← h.1]
              exact hcb (t :: ts) e toks1 hc
            · rw [show read_append_element (.list acc) .elems (some e) = .list (acc ++ [e]) by
                simp [read_append_element, he, append_to_chain]] at h
              rw [if_neg (by simp [Node.isError])] at h
              exact ih (acc ++ [e]) toks1 n rest
                (hash_balanced_list_append acc e hacc (hcb (t :: ts) e toks1 hc)) h

theorem read_vector_loop_balanced (cb : ReadCb) (hcb : cb_reads_balanced cb) :
    ∀ (lf : Nat) (acc : List Node) (toks : List String) (n : Node) (rest : List String),
      hash_balanced_list acc = true →
      read_vector_loop cb lf (.vector acc) toks = some (some n, rest) →
      hash_balanced n = true := by
  intro lf
  induction lf with
  | zero => intro acc toks n rest _ h; cases h
  | succ f ih =>
    intro acc toks n rest hacc h
    rcases toks with - | ⟨t, ts⟩
    · simp only [read_vector_loop, Option.some.injEq, Prod.mk.injEq] at h
      rw [← h.1]
      rfl
    · simp only [read_vector_loop] at h
      by_cases ht : t = "]"
      · rw [if_pos ht] at h
        simp only [Option.some.injEq, Prod.mk.injEq] at h
        rw [← h.1]
        simpa [hash_balanced] using hacc
      · rw [if_neg ht] at h
        cases hc : cb (t :: ts) with
        | none => rw [hc] at h; cases h
        | some p =>
          obtain ⟨element, toks1⟩ := p
          rw [hc] at h
          dsimp only at h
          cases element with
          | none =>
            simp only [read_append_element, Node.isError, Bool.false_eq_true, if_false] at h
            exact ih acc toks1 n rest hacc h
          | some e =>
            by_cases he : e.isError
            · rw [show read_append_element (.vector acc) .elems (some e) = e by
                simp [read_append_element, he]] at h
              rw [if_pos he] at h
              simp only [Option.some.injEq, Prod.mk.injEq] at h
              rw [← h.1]
              exact hcb (t :: ts) e toks1 hc
            · rw [show read_append_element (.vector acc) .elems (some e) = .vector (acc ++ [e]) by
                simp [read_append_element, he, append_to_chain]] at h
              rw [if_neg (by simp [Node.isError])] at h
              exact ih (acc ++ [e]) toks1 n rest
                (hash_balanced_list_append acc e hacc (hcb (t :: ts) e toks1 hc)) h

/-- A reader callback that never yields the NULL node on a nonempty cursor
(`read_form_` only returns NULL when the cursor is exhausted). -/
def cb_reads_some (cb : ReadCb) : Prop :=
  ∀ (t : String) (ts : List String) (r : Option Node) (rest : List String),
    cb (t :: ts) = some (r, rest) → ∃ m, r = some m

theorem read_hashmap_loop_balanced (cb : ReadCb) (hcb : cb_reads_balanced cb)
    (hnn : cb_reads_some cb) :
    ∀ (lf : Nat) (ks vs : List Node) (key : Bool) (toks : List String) (n : Node)
      (rest : List String),
      hash_balanced_list ks = true → hash_balanced_list vs = true →
      ks.length = (if key then vs.length else vs.length + 1) →
      read_hashmap_loop cb lf (.hashmap ks vs) key toks = some (some n, rest) →
      hash_balanced n = true := by
  intro lf
  induction lf with
  | zero => intro ks vs key toks n rest _ _ _ h; cases h
  | succ f ih =>
    intro ks vs key toks n rest hks hvs hlen h
    rcases toks with - | ⟨t, ts⟩
    · simp only [read_hashmap_loop, Option.some.injEq, Prod.mk.injEq] at h
      rw [← h.1]
      rfl
    · simp only [read_hashmap_loop] at h
      by_cases ht : t = "\x7d"
      · rw [if_pos ht] at h
        cases key with
        | false =>
          simp only [Bool.not_false, if_true, Option.some.injEq, Prod.mk.injEq] at h
          rw [← h.1]
          rfl
        | true =>
          simp only [Bool.not_true, Bool.false_eq_true, if_false, Option.some.injEq,
            Prod.mk.injEq] at h
          rw [← h.1]
          simp only [hash_balanced, Bool.and_eq_true, beq_iff_eq]
          simp only [if_true] at hlen
          exact ⟨⟨hlen, hks⟩, hvs⟩
      · rw [if_neg ht] at h
        cases hc : cb (t :: ts) with
        | none => rw [hc] at h; cases h
        | some p =>
          obtain ⟨element, toks1⟩ := p
          rw [hc] at h
          dsimp only at h
          obtain ⟨e, hee⟩ := hnn t ts element toks1 hc
          subst hee
          have hbe : hash_balanced e = true := hcb (t :: ts) e toks1 hc
          by_cases he : e.isError
          · rw [show read_append_element (.hashmap ks vs)
                (if key then .hashkeys else .hashvalues) (some e) = e by
              cases key <;> simp [read_append_element, he]] at h
            rw [if_pos he] at h
            simp only [Option.some.injEq, Prod.mk.injEq] at h
            rw [← h.1]
            exact hbe
          · cases key with
            | true =>
              rw [show read_append_element (.hashmap ks vs) (if true then .hashkeys
                  else .hashvalues) (some e) = .hashmap (ks ++ [e]) vs by
                simp [read_append_element, he, append_to_chain]] at h
              rw [if_neg (by simp [Node.isError])] at h
              refine ih (ks ++ [e]) vs (!true) toks1 n rest
                (hash_balanced_list_append ks e hks hbe) hvs ?_ h
              simp only [if_true] at hlen
              simp only [Bool.not_true, Bool.false_eq_true, if_false, List.length_append,
                List.length_cons, List.length_nil]
              omega
            | false =>
              rw [show read_append_element (.hashmap ks vs) (if false then .hashkeys
                  else .hashvalues) (some e) = .hashmap ks (vs ++ [e]) by
                simp [read_append_element, he, append_to_chain]] at h
              rw [if_neg (by simp [Node.isError])] at h
              refine ih ks (vs ++ [e]) (!false) toks1 n rest hks
                (hash_balanced_list_append vs e hvs hbe) ?_ h
              simp only [Bool.false_eq_true, if_false] at hlen
              simp only [Bool.not_false, if_true, List.length_append, List.length_cons,
                List.length_nil]
              omega

theorem read_keyword_balanced (toks : List String) :
    hash_balanced (read_keyword toks).1 = true := by
  rcases toks with - | ⟨t, ts⟩
  · rfl
  · simp only [read_keyword]
    cases hd : t.data with
    | nil => rfl
    | cons c cs =>
      dsimp only
      by_cases hk : cs.isEmpty
      · rw [if_pos hk]
        rfl
      · rw [if_neg hk]
        rfl

theorem allocstring_loop_error_aux : ∀ (n : Nat) (cs : List Char), cs.length ≤ n →
    ∀ e : Node, allocstring_loop cs = .inl e → e.isError = true := by
  intro n
  induction n with
  | zero =>
    intro cs hle e h
    cases cs with
    | nil => cases h
    | cons c rest => simp at hle
  | succ m ih =>
    intro cs hle e h
    cases cs with
    | nil => cases h
    | cons c rest =>
      unfold allocstring_loop at h
      by_cases hc : c = '\\'
      · rw [if_pos hc] at h
        cases rest with
        | nil =>
          simp only [Sum.inl.injEq] at h
          rw [← h]
          rfl
        | cons e2 rest1 =>
          dsimp only at h
          have hr1 : rest1.length ≤ m := by
            simp only [List.length_cons] at hle
            omega
          by_cases h2 : e2 = '\\'
          · rw [if_pos h2] at h
            cases hrec : allocstring_loop rest1 with
            | inl err2 =>
              rw [hrec] at h
              simp only [Sum.inl.injEq] at h
              subst h
              exact ih rest1 hr1 err2 hrec
            | inr cs2 => rw [hrec] at h; cases h
          · rw [if_neg h2] at h
            by_cases h3 : e2 = '\n'
            · rw [if_pos h3] at h
              cases hrec : allocstring_loop rest1 with
              | inl err2 =>
                rw [hrec] at h
                simp only [Sum.inl.injEq] at h
                subst h
                exact ih rest1 hr1 err2 hrec
              | inr cs2 => rw [hrec] at h; cases h
            · rw [if_neg h3] at h
              by_cases h4 : e2 = '"'
              · rw [if_pos h4] at h
                cases hrec : allocstring_loop rest1 with
                | inl err2 =>
                  rw [hrec] at h
                  simp only [Sum.inl.injEq] at h
                  subst h
                  exact ih rest1 hr1 err2 hrec
                | inr cs2 => rw [hrec] at h; cases h
              · rw [if_neg h4] at h
                simp only [Sum.inl.injEq] at h
                rw [← h]
                rfl
      · rw [if_neg hc] at h
        have hr : rest.length ≤ m := by
          simp only [List.length_cons] at hle
          omega
        cases hrec : allocstring_loop rest with
        | inl err2 =>
          rw [hrec] at h
          simp only [Sum.inl.injEq] at h
          subst h
          exact ih rest hr err2 hrec
        | inr cs2 => rw [hrec] at h; cases h

theorem allocstring_loop_error (cs : List Char) (e : Node)
    (h : allocstring_loop cs = .inl e) : e.isError = true :=
  allocstring_loop_error_aux cs.length cs (Nat.le_refl _) e h
theorem hash_balanced_of_isError (n : Node) (h : n.isError = true) :
    hash_balanced n = true := by
  cases n <;> first | rfl | cases h

theorem allocstring_balanced (content : List Char) :
    hash_balanced (allocstring content) = true := by
  unfold allocstring
  cases hl : allocstring_loop content with
  | inl err => exact hash_balanced_of_isError err (allocstring_loop_error content err hl)
  | inr cs => rfl

theorem read_string_balanced (toks : List String) :
    hash_balanced (read_string toks).1 = true := by
  rcases toks with - | ⟨t, ts⟩
  · rfl
  · simp only [read_string]
    cases hd : t.data with
    | nil => rfl
    | cons c body =>
      dsimp only
      by_cases hb : body.length < 1
      · rw [if_pos hb]
        rfl
      · rw [if_neg hb]
        cases hlast : body.getLast? with
        | none => rfl
        | some last =>
          dsimp only
          by_cases hq : last ≠ '"'
          · rw [if_pos hq]
            rfl
          · rw [if_neg hq]
            by_cases he : (allocstring body.dropLast).isError
            · rw [if_pos he]
              exact allocstring_balanced body.dropLast
            · rw [if_neg he]
              exact allocstring_balanced body.dropLast

theorem read_number_balanced (t : String) (n : Node) (h : read_number t = some n) :
    hash_balanced n = true := by
  simp only [read_number] at h
  split at h
  · cases h
  · split at h
    · cases h
    · simp only [Option.some.injEq] at h
      rw [← h]
      rfl

theorem read_atom_balanced (toks : List String) :
    hash_balanced (read_atom toks).1 = true := by
  rcases toks with - | ⟨t, ts⟩
  · rfl
  · simp only [read_atom]
    by_cases h1 : t = "nil"
    · rw [if_pos h1]
      rfl
    · rw [if_neg h1]
      by_cases h2 : t = "true"
      · rw [if_pos h2]
        rfl
      · rw [if_neg h2]
        by_cases h3 : t = "false"
        · rw [if_pos h3]
          rfl
        · rw [if_neg h3]
          cases hn : read_number t with
          | none =>
            dsimp only
            by_cases hl : t.length ≠ 0
            · rw [if_pos hl]
              rfl
            · rw [if_neg hl]
              rfl
          | some m =>
            dsimp only
            exact read_number_balanced t m hn
theorem read_quote_some (cb : ReadCb) (quote : String) (toks : List String)
    (r : Option Node) (rest : List String)
    (h : read_quote cb quote toks = some (r, rest)) : ∃ m, r = some m := by
  simp only [read_quote] at h
  cases hc : cb toks.tail with
  | none => rw [hc] at h; cases h
  | some p =>
    obtain ⟨element, toks1⟩ := p
    rw [hc] at h
    dsimp only at h
    split at h <;>
      (simp only [Option.some.injEq, Prod.mk.injEq] at h; exact ⟨_, h.1.symm⟩)

theorem read_metadata_some (cb : ReadCb) (toks : List String)
    (r : Option Node) (rest : List String)
    (h : read_metadata cb toks = some (r, rest)) : ∃ m, r = some m := by
  simp only [read_metadata] at h
  cases hc1 : cb toks with
  | none => rw [hc1] at h; cases h
  | some p1 =>
    obtain ⟨e1, t1⟩ := p1
    rw [hc1] at h
    dsimp only at h
    split at h
    · simp only [Option.some.injEq, Prod.mk.injEq] at h
      exact ⟨_, h.1.symm⟩
    · cases hc2 : cb t1 with
      | none => rw [hc2] at h; cases h
      | some p2 =>
        obtain ⟨e2, t2⟩ := p2
        rw [hc2] at h
        dsimp only at h
        split at h <;>
          (simp only [Option.some.injEq, Prod.mk.injEq] at h; exact ⟨_, h.1.symm⟩)

theorem read_list_loop_some (cb : ReadCb) : ∀ (lf : Nat) (acc : Node) (toks : List String)
    (r : Option Node) (rest : List String),
    read_list_loop cb lf acc toks = some (r, rest) → ∃ m, r = some m := by
  intro lf
  induction lf with
  | zero => intro acc toks r rest h; cases h
  | succ f ih =>
    intro acc toks r rest h
    rcases toks with - | ⟨t, ts⟩
    · simp only [read_list_loop, Option.some.injEq, Prod.mk.injEq] at h
      exact ⟨_, h.1.symm⟩
    · simp only [read_list_loop] at h
      by_cases ht : t = ")"
      · rw [if_pos ht] at h
        simp only [Option.some.injEq, Prod.mk.injEq] at h
        exact ⟨_, h.1.symm⟩
      · rw [if_neg ht] at h
        cases hc : cb (t :: ts) with
        | none => rw [hc] at h; cases h
        | some p =>
          obtain ⟨element, toks1⟩ := p
          rw [hc] at h
          dsimp only at h
          split at h
          · simp only [Option.some.injEq, Prod.mk.injEq] at h
            exact ⟨_, h.1.symm⟩
          · exact ih _ toks1 r rest h

theorem read_vector_loop_some (cb : ReadCb) : ∀ (lf : Nat) (acc : Node) (toks : List String)
    (r : Option Node) (rest : List String),
    read_vector_loop cb lf acc toks = some (r, rest) → ∃ m, r = some m := by
  intro lf
  induction lf with
  | zero => intro acc toks r rest h; cases h
  | succ f ih =>
    intro acc toks r rest h
    rcases toks with - | ⟨t, ts⟩
    · simp only [read_vector_loop, Option.some.injEq, Prod.mk.injEq] at h
      exact ⟨_, h.1.symm⟩
    · simp only [read_vector_loop] at h
      by_cases ht : t = "]"
      · rw [if_pos ht] at h
        simp only [Option.some.injEq, Prod.mk.injEq] at h
        exact ⟨_, h.1.symm⟩
      · rw [if_neg ht] at h
        cases hc : cb (t :: ts) with
        | none => rw [hc] at h; cases h
        | some p =>
          obtain ⟨element, toks1⟩ := p
          rw [hc] at h
          dsimp only at h
          split at h
          · simp only [Option.some.injEq, Prod.mk.injEq] at h
            exact ⟨_, h.1.symm⟩
          · exact ih _ toks1 r rest h

theorem read_hashmap_loop_some (cb : ReadCb) : ∀ (lf : Nat) (acc : Node) (key : Bool)
    (toks : List String) (r : Option Node) (rest : List String),
    read_hashmap_loop cb lf acc key toks = some (r, rest) → ∃ m, r = some m := by
  intro lf
  induction lf with
  | zero => intro acc key toks r rest h; cases h
  | succ f ih =>
    intro acc key toks r rest h
    rcases toks with - | ⟨t, ts⟩
    · simp only [read_hashmap_loop, Option.some.injEq, Prod.mk.injEq] at h
      exact ⟨_, h.1.symm⟩
    · simp only [read_hashmap_loop] at h
      by_cases ht : t = "\x7d"
      · rw [if_pos ht] at h
        split at h <;>
          (simp only [Option.some.injEq, Prod.mk.injEq] at h; exact ⟨_, h.1.symm⟩)
      · rw [if_neg ht] at h
        cases hc : cb (t :: ts) with
        | none => rw [hc] at h; cases h
        | some p =>
          obtain ⟨element, toks1⟩ := p
          rw [hc] at h
          dsimp only at h
          split at h <;> split at h <;>
            first
              | (simp only [Option.some.injEq, Prod.mk.injEq] at h; exact ⟨_, h.1.symm⟩)
              | exact ih _ (!key) toks1 r rest h

theorem read_form_some (fuel : Nat) : cb_reads_some (read_form_ fuel) := by
  cases fuel with
  | zero => intro t ts r rest h; cases h
  | succ f =>
    intro t ts r rest h
    simp only [read_form_] at h
    by_cases h1 : t = "~@"
    · rw [if_pos h1] at h
      exact read_quote_some _ _ _ r rest h
    · rw [if_neg h1] at h
      by_cases h2 : t = "'"
      · rw [if_pos h2] at h
        exact read_quote_some _ _ _ r rest h
      · rw [if_neg h2] at h
        by_cases h3 : t = "`"
        · rw [if_pos h3] at h
          exact read_quote_some _ _ _ r rest h
        · rw [if_neg h3] at h
          by_cases h4 : t = "~"
          · rw [if_pos h4] at h
            exact read_quote_some _ _ _ r rest h
          · rw [if_neg h4] at h
            by_cases h5 : t = "@"
            · rw [if_pos h5] at h
              exact read_quote_some _ _ _ r rest h
            · rw [if_neg h5] at h
              by_cases h6 : t = "^"
              · rw [if_pos h6] at h
                exact read_metadata_some _ _ r rest h
              · rw [if_neg h6] at h
                by_cases h7 : t = "\x7b"
                · rw [if_pos h7] at h
                  exact read_hashmap_loop_some _ f _ true _ r rest h
                · rw [if_neg h7] at h
                  by_cases h8 : t = "("
                  · rw [if_pos h8] at h
                    exact read_list_loop_some _ f _ _ r rest h
                  · rw [if_neg h8] at h
                    by_cases h9 : t = "["
                    · rw [if_pos h9] at h
                      exact read_vector_loop_some _ f _ _ r rest h
                    · rw [if_neg h9] at h
                      split at h <;>
                        (simp only [Option.some.injEq, Prod.mk.injEq] at h;
                          exact ⟨_, h.1.symm⟩)
theorem read_form_balanced (fuel : Nat) : cb_reads_balanced (read_form_ fuel) := by
  induction fuel with
  | zero => intro toks n rest h; cases h
  | succ f ih =>
    intro toks n rest h
    rcases toks with - | ⟨t, ts⟩
    · simp only [read_form_, Option.some.injEq, Prod.mk.injEq] at h
      cases h.1
    · simp only [read_form_] at h
      by_cases h1 : t = "~@"
      · rw [if_pos h1] at h
        exact read_quote_balanced _ ih _ _ n rest h
      · rw [if_neg h1] at h
        by_cases h2 : t = "'"
        · rw [if_pos h2] at h
          exact read_quote_balanced _ ih _ _ n rest h
        · rw [if_neg h2] at h
          by_cases h3 : t = "`"
          · rw [if_pos h3] at h
            exact read_quote_balanced _ ih _ _ n rest h
          · rw [if_neg h3] at h
            by_cases h4 : t = "~"
            · rw [if_pos h4] at h
              exact read_quote_balanced _ ih _ _ n rest h
            · rw [if_neg h4] at h
              by_cases h5 : t = "@"
              · rw [if_pos h5] at h
                exact read_quote_balanced _ ih _ _ n rest h
              · rw [if_neg h5] at h
                by_cases h6 : t = "^"
                · rw [if_pos h6] at h
                  exact read_metadata_balanced _ ih _ n rest h
                · rw [if_neg h6] at h
                  by_cases h7 : t = "\x7b"
                  · rw [if_pos h7] at h
                    exact read_hashmap_loop_balanced _ ih (read_form_some f) f [] [] true
                      ts n rest rfl rfl rfl h
                  · rw [if_neg h7] at h
                    by_cases h8 : t = "("
                    · rw [if_pos h8] at h
                      exact read_list_loop_balanced _ ih f [] ts n rest rfl h
                    · rw [if_neg h8] at h
                      by_cases h9 : t = "["
                      · rw [if_pos h9] at h
                        exact read_vector_loop_balanced _ ih f [] ts n rest rfl h
                      · rw [if_neg h9] at h
                        split at h
                        · rcases hp : read_keyword (t :: ts) with ⟨n1, ts1⟩
                          rw [hp] at h
                          dsimp only at h
                          simp only [Option.some.injEq, Prod.mk.injEq] at h
                          have hb := read_keyword_balanced (t :: ts)
                          rw [hp] at hb
                          exact h.1 ▸ hb
                        · rcases hp : read_string (t :: ts) with ⟨n1, ts1⟩
                          rw [hp] at h
                          dsimp only at h
                          simp only [Option.some.injEq, Prod.mk.injEq] at h
                          have hb := read_string_balanced (t :: ts)
                          rw [hp] at hb
                          exact h.1 ▸ hb
                        · rcases hp : read_atom (t :: ts) with ⟨n1, ts1⟩
                          rw [hp] at h
                          dsimp only at h
                          simp only [Option.some.injEq, Prod.mk.injEq] at h
                          have hb := read_atom_balanced (t :: ts)
                          rw [hp] at hb
                          exact h.1 ▸ hb

theorem parse_balanced (fuel : Nat) (line : List Char) (n : Node)
    (h : parse fuel line = some (some n)) : hash_balanced n = true := by
  simp only [parse, read_form] at h
  cases ht : tokenizer line with
  | none =>
    rw [ht] at h
    simp only [Option.some.injEq] at h
    rw [← h]
    rfl
  | some ts =>
    rw [ht] at h
    dsimp only at h
    cases hr : read_form_ fuel ts with
    | none => rw [hr] at h; cases h
    | some p =>
      obtain ⟨r, rest⟩ := p
      rw [hr] at h
      dsimp only at h
      simp only [Option.some.injEq] at h
      subst h
      exact read_form_balanced fuel ts n rest hr
/-- C6: counterexample to the key-type half of the claim.  The reference
reader accepts `{1 2}` and constructs a hashmap whose key is the number `1`,
which is neither a String nor a Keyword; no error is reported. -/
theorem C6_hashmap_key_counterexample :
    parse 9 "{1 2}".data = some (some (.hashmap [.number 1] [.number 2])) ∧
    node_type (.number 1) ≠ nodetype.MAL_STRING ∧
    node_type (.number 1) ≠ nodetype.MAL_KEYWORD := by
  refine ⟨by decide, by decide, by decide⟩

/-- C6 (amended): every node the reader produces is hash-balanced — every
hashmap in it, recursively, has equally long key and value chains — and a
missing trailing value and a missing closing brace are distinct reported
errors; but the reader performs no key-type check (see the counterexample),
so "every key is a String or Keyword" is not enforced. -/
theorem C6_hashmap_invariant (fuel : Nat) (line : List Char) (n : Node)
    (h : parse fuel line = some (some n)) :
    hash_balanced n = true ∧
    parse 9 "{:a}".data = some (some (.errorN "last keyword in hashmap lacks value")) ∧
    parse 9 "\x7b:a 1".data = some (some (.errorN "unterminated hashmap")) :=
  ⟨parse_balanced fuel line n h, by decide, by decide⟩

theorem C6_hashmap_invariant_witness :
    hash_balanced (.hashmap [.keyword "a"] [.number 1]) = true ∧
    parse 9 "{:a}".data = some (some (.errorN "last keyword in hashmap lacks value")) ∧
    parse 9 "\x7b:a 1".data = some (some (.errorN "unterminated hashmap")) :=
  C6_hashmap_invariant 9 "{:a 1}".data (.hashmap [.keyword "a"] [.number 1]) (by decide)
/-!
Round-trip machinery: sizes, the token sequence of a printed value, and the
well-formedness predicate under which printing then reading is the identity.
-/

mutual

/-- Node count of a value (the structural size used to bound fuel). -/
def nsize : Node → Nat
  | .eofN => 1
  | .errorN _ => 1
  | .nilN => 1
  | .trueN => 1
  | .falseN => 1
  | .number _ => 1
  | .symbol _ => 1
  | .keyword _ => 1
  | .string _ => 1
  | .list xs => nsize_list xs + 1
  | .vector xs => nsize_list xs + 1
  | .hashmap ks vs => nsize_list ks + nsize_list vs + 1

/-- Total node count of a chain. -/
def nsize_list : List Node → Nat
  | [] => 0
  | x :: xs => nsize x + nsize_list xs

end

/-- The pairwise key/value interleaving of a hashmap's chains. -/
def interleave : List Node → List Node → List Node
  | k :: ks, v :: vs => k :: v :: interleave ks vs
  | _, _ => []

/-- Concatenation of pre-rendered per-node token runs, pairwise
(key run, value run, key run, ...). -/
def tok_pairs_text : List (List String) → List (List String) → List String
  | k :: ks, v :: vs => k ++ (v ++ tok_pairs_text ks vs)
  | _, _ => []

mutual

/-- The token sequence the tokenizer recovers from the printed (readable)
text of a value. -/
def tok_of : Node → List String
  | .eofN => []
  | .errorN m => [m]
  | .nilN => ["nil"]
  | .trueN => ["true"]
  | .falseN => ["false"]
  | .number i => [String.mk (int_chars i)]
  | .symbol s => [s]
  | .keyword k => [String.mk (':' :: k.data)]
  | .string s => [String.mk ('"' :: (escape_string s.data ++ ['"']))]
  | .list xs => "(" :: (tok_list xs ++ [")"])
  | .vector xs => "[" :: (tok_list xs ++ ["]"])
  | .hashmap ks vs => "\x7b" :: (tok_pairs_text (tok_each ks) (tok_each vs) ++ ["\x7d"])

/-- Token sequence of a chain of values. -/
def tok_list : List Node → List String
  | [] => []
  | x :: xs => tok_of x ++ tok_list xs

/-- Per-node token runs of a chain. -/
def tok_each : List Node → List (List String)
  | [] => []
  | x :: xs => tok_of x :: tok_each xs

end

mutual

/-- Well-formedness for the print/read round trip: the atom kinds named by
the claim with the further conditions the reference code forces (symbols must
survive the tokenizer and `read_atom` unchanged; keywords must be nonempty
with tokenizable text; strings must avoid the newline escape the reader does
not accept and must not end in a backslash, which defeats the tokenizer's
escaped-quote test), and containers of such values, hashmaps balanced. -/
def wf_node : Node → Bool
  | .eofN => false
  | .errorN _ => false
  | .nilN => true
  | .trueN => true
  | .falseN => true
  | .number _ => true
  | .symbol s =>
    (match s.data with
      | [] => false
      | c :: _ => decide (c ∉ special_chars) && decide (c ≠ ':')) &&
    s.data.all (fun ch => decide (ch ∉ notallowed_chars)) &&
    decide (s ≠ "nil") && decide (s ≠ "true") && decide (s ≠ "false") &&
    (read_number s).isNone
  | .keyword k => !k.data.isEmpty && k.data.all (fun ch => decide (ch ∉ notallowed_chars))
  | .string s =>
    s.data.all (fun ch => decide (ch ≠ '\n')) && decide (s.data.getLast? ≠ some '\\')
  | .list xs => wf_list xs
  | .vector xs => wf_list xs
  | .hashmap ks vs => (ks.length == vs.length) && wf_list ks && wf_list vs

/-- Every node of a chain is well-formed. -/
def wf_list : List Node → Bool
  | [] => true
  | x :: xs => wf_node x && wf_list xs

end

theorem nsize_pos (v : Node) : 1 ≤ nsize v := by
  cases v <;> simp [nsize]

theorem nsize_mem_le (xs : List Node) (x : Node) (hx : x ∈ xs) :
    nsize x ≤ nsize_list xs := by
  induction xs with
  | nil => cases hx
  | cons y ys ih =>
    rcases List.mem_cons.mp hx with h | h
    · subst h
      simp [nsize_list]
    · calc nsize x ≤ nsize_list ys := ih h
        _ ≤ nsize_list (y :: ys) := by simp [nsize_list]

theorem length_le_nsize_list (xs : List Node) : xs.length ≤ nsize_list xs := by
  induction xs with
  | nil => simp [nsize_list]
  | cons x ys ih =>
    simp only [List.length_cons, nsize_list]
    have := nsize_pos x
    omega

theorem interleave_mem (ks vs : List Node) (x : Node) :
    ∀ _ : x ∈ interleave ks vs, x ∈ ks ∨ x ∈ vs := by
  induction ks generalizing vs with
  | nil => intro hx; cases hx
  | cons k ks' ih =>
    intro hx
    cases vs with
    | nil => cases hx
    | cons v vs' =>
      simp only [interleave, List.mem_cons] at hx
      rcases hx with h | h | h
      · exact Or.inl (by simp [h])
      · exact Or.inr (by simp [h])
      · rcases ih vs' h with h2 | h2
        · exact Or.inl (List.mem_cons_of_mem _ h2)
        · exact Or.inr (List.mem_cons_of_mem _ h2)

theorem wf_list_mem (xs : List Node) (x : Node) (hx : x ∈ xs)
    (h : wf_list xs = true) : wf_node x = true := by
  induction xs with
  | nil => cases hx
  | cons y ys ih =>
    simp only [wf_list, Bool.and_eq_true] at h
    rcases List.mem_cons.mp hx with h2 | h2
    · subst h2; exact h.1
    · exact ih h2 h.2

theorem tok_pairs_eq_interleave (ks : List Node) :
    ∀ vs : List Node, ks.length = vs.length →
      tok_pairs_text (tok_each ks) (tok_each vs) = tok_list (interleave ks vs) := by
  induction ks with
  | nil =>
    intro vs hlen
    cases vs with
    | nil => rfl
    | cons v vs' => cases hlen
  | cons k ks' ih =>
    intro vs hlen
    cases vs with
    | nil => cases hlen
    | cons v vs' =>
      simp only [List.length_cons, Nat.succ.injEq] at hlen
      simp only [tok_each, tok_pairs_text, interleave, tok_list, ih vs' hlen,
        List.append_assoc]

theorem hashpairs_eq_interleave (ks : List Node) :
    ∀ vs : List Node, ks.length = vs.length →
      hashpairs_text (print_each true ks) (print_each true vs) =
        print_elements true (interleave ks vs) := by
  induction ks with
  | nil =>
    intro vs hlen
    cases vs with
    | nil => rfl
    | cons v vs' => cases hlen
  | cons k ks' ih =>
    intro vs hlen
    cases vs with
    | nil => cases hlen
    | cons v vs' =>
      simp only [List.length_cons, Nat.succ.injEq] at hlen
      cases ks' with
      | nil =>
        cases vs' with
        | nil => simp [print_each, hashpairs_text, interleave, print_elements]
        | cons w ws => cases hlen
      | cons k2 ks2 =>
        cases vs' with
        | nil => cases hlen
        | cons v2 vs2 =>
          rw [show hashpairs_text (print_each true (k :: k2 :: ks2))
                (print_each true (v :: v2 :: vs2)) =
              print_ true k ++ ' ' :: (print_ true v ++
                ((if (print_each true (k2 :: ks2)).isEmpty then [] else [' ']) ++
                  hashpairs_text (print_each true (k2 :: ks2))
                    (print_each true (v2 :: vs2)))) from rfl]
          rw [ih (v2 :: vs2) hlen]
          simp [interleave, print_elements, print_each]
/-- The characters that may legitimately follow a printed value: end of line,
a separating space, or a closing delimiter.  All of them terminate a
symbol-like token. -/
def boundary : List Char → Bool
  | [] => true
  | c :: _ => decide (c ∈ [' ', ')', ']', '}'])

theorem token_span_boundary (l : List Char) (hb : boundary l = true) :
    token_span l = ([], l) := by
  cases l with
  | nil => rfl
  | cons c r =>
    simp only [boundary, decide_eq_true_eq] at hb
    have hc : c ∈ notallowed_chars := by fin_cases hb <;> decide
    simp [token_span, hc]

theorem token_span_append (cs : List Char) (hall : ∀ c ∈ cs, c ∉ notallowed_chars)
    (l : List Char) (hb : boundary l = true) : token_span (cs ++ l) = (cs, l) := by
  induction cs with
  | nil => simpa using token_span_boundary l hb
  | cons c cs' ih =>
    have hc : c ∉ notallowed_chars := hall c (by simp)
    simp only [List.cons_append, token_span, hc, if_false]
    simp only [List.append_eq]
    rw [ih (fun x hx => hall x (by simp [hx]))]

theorem read_whitecomma_id (c : Char) (l : List Char) (hw : c ∉ whitecomma) :
    read_whitecomma (c :: l) = c :: l := by
  simp [read_whitecomma, hw]

theorem read_comment_none (c : Char) (l : List Char) (hc : c ≠ ';') :
    read_comment (c :: l) = none := by
  rw [read_comment.eq_def]
  split <;> simp_all

theorem tokenize_spliceunquote_none (c : Char) (l : List Char) (hc : c ≠ '~') :
    tokenize_spliceunquote (c :: l) = none := by
  rw [tokenize_spliceunquote.eq_def]
  split <;> simp_all

theorem tokenize_keyword_none (c : Char) (l : List Char) (hc : c ≠ ':') :
    tokenize_keyword (c :: l) = none := by
  rw [tokenize_keyword.eq_def]
  split <;> simp_all

theorem tokenize_string_none (c : Char) (l : List Char) (hc : c ≠ '"') :
    tokenize_string (c :: l) = none := by
  rw [tokenize_string.eq_def]
  split <;> simp_all

theorem tokenize_special_some (c : Char) (l : List Char) (hc : c ∈ special_chars) :
    tokenize_special (c :: l) = some ([c], l) := by
  simp [tokenize_special, hc]

theorem tokenize_special_none (c : Char) (l : List Char) (hc : c ∉ special_chars) :
    tokenize_special (c :: l) = none := by
  simp [tokenize_special, hc]

theorem tokenizer_classes_special (c : Char) (l : List Char)
    (hc : c ∈ special_chars) (hnt : c ≠ '~') (hnk : c ≠ ':') :
    tokenizer_classes (c :: l) = some ([c], l) := by
  simp only [tokenizer_classes, tokenize_spliceunquote_none c l hnt,
    tokenize_keyword_none c l hnk, tokenize_special_some c l hc]

theorem tokenizer_classes_keyword (kcs : List Char)
    (hall : ∀ c ∈ kcs, c ∉ notallowed_chars) (l : List Char) (hb : boundary l = true) :
    tokenizer_classes ((':' :: kcs) ++ l) = some (':' :: kcs, l) := by
  simp only [tokenizer_classes, List.cons_append,
    tokenize_spliceunquote_none ':' (kcs ++ l) (by decide)]
  rw [show tokenize_keyword (':' :: (kcs ++ l)) =
      some (':' :: (token_span (kcs ++ l)).1, (token_span (kcs ++ l)).2) from rfl]
  rw [token_span_append kcs hall l hb]

theorem tokenizer_classes_symbolish (cs : List Char) (hne : cs ≠ [])
    (hall : ∀ c ∈ cs, c ∉ notallowed_chars)
    (hhead : ∀ c0, cs.head? = some c0 → c0 ∉ special_chars ∧ c0 ≠ ':')
    (l : List Char) (hb : boundary l = true) :
    tokenizer_classes (cs ++ l) = some (cs, l) := by
  cases cs with
  | nil => exact absurd rfl hne
  | cons c0 cr =>
    obtain ⟨hsp, hnk⟩ := hhead c0 rfl
    have hnt : c0 ≠ '~' := fun he => hsp (by rw [he]; decide)
    have hnq : c0 ≠ '"' := fun he => hall c0 (by simp) (by rw [he]; decide)
    simp only [tokenizer_classes, List.cons_append,
      tokenize_spliceunquote_none c0 (cr ++ l) hnt,
      tokenize_keyword_none c0 (cr ++ l) hnk,
      tokenize_special_none c0 (cr ++ l) hsp,
      tokenize_string_none c0 (cr ++ l) hnq]
    have hspan : token_span ((c0 :: cr) ++ l) = (c0 :: cr, l) :=
      token_span_append (c0 :: cr) hall l hb
    simp only [List.cons_append] at hspan
    simp [tokenize_symbol, hspan]

theorem tokenizer_loop_cons (c : Char) (L : List Char) (hw : c ∉ whitecomma)
    (hns : c ≠ ';') (tok : List Char) (rem : List Char)
    (hcl : tokenizer_classes (c :: L) = some (tok, rem)) (f : Nat) (ts : List String)
    (h : tokenizer_loop f rem = some ts) :
    tokenizer_loop (f + 1) (c :: L) = some (String.mk tok :: ts) := by
  simp only [tokenizer_loop]
  rw [read_whitecomma_id c L hw]
  dsimp only
  rw [read_comment_none c L hns]
  simp only [Option.isSome_none, Bool.false_eq_true, if_false]
  rw [hcl]
  dsimp only
  rw [h]

theorem tok_skip_space (f : Nat) (l : List Char) :
    tokenizer_loop f (' ' :: l) = tokenizer_loop f l := by
  cases f with
  | zero => rfl
  | succ m =>
    simp only [tokenizer_loop]
    rw [show read_whitecomma (' ' :: l) = read_whitecomma l from rfl]

theorem tok_mono : ∀ (f : Nat) (l : List Char) (ts : List String),
    tokenizer_loop f l = some ts → ∀ g, tokenizer_loop (f + g) l = some ts := by
  intro f
  induction f with
  | zero => intro l ts h; cases h
  | succ m ih =>
    intro l ts h g
    rw [show m + 1 + g = (m + g) + 1 from by omega]
    simp only [tokenizer_loop] at h ⊢
    cases hw : read_whitecomma l with
    | nil =>
      rw [hw] at h
      exact h
    | cons c rest =>
      rw [hw] at h
      dsimp only at h ⊢
      by_cases hcm : (read_comment (c :: rest)).isSome
      · rw [if_pos hcm] at h ⊢
        exact h
      · rw [if_neg hcm] at h ⊢
        cases hcl : tokenizer_classes (c :: rest) with
        | none => rw [hcl] at h; cases h
        | some p =>
          obtain ⟨tok, rem⟩ := p
          rw [hcl] at h
          dsimp only at h ⊢
          cases hr : tokenizer_loop m rem with
          | none => rw [hr] at h; cases h
          | some toks =>
            rw [hr] at h
            rw [ih rem toks hr g]
            exact h
theorem string_scan_escape : ∀ (s : List Char), (∀ c ∈ s, c ≠ '\n') →
    s.getLast? ≠ some '\\' → ∀ (prev : Char) (l : List Char), (prev ≠ '\\' ∨ s ≠ []) →
    string_scan prev (escape_string s ++ '"' :: l) = some (escape_string s ++ ['"'], l) := by
  intro s
  induction s with
  | nil =>
    intro _ _ prev l hprev
    have hp : prev ≠ '\\' := hprev.resolve_right (fun hne => hne rfl)
    simp only [escape_string, List.nil_append, string_scan]
    rw [if_pos (by simp [hp])]
  | cons c s' ih =>
    intro hnl hend prev l hprev
    have hnl' : ∀ x ∈ s', x ≠ '\n' := fun x hx => hnl x (by simp [hx])
    have hcnl : c ≠ '\n' := hnl c (by simp)
    by_cases hc1 : c = '\\'
    · subst hc1
      have hs' : s' ≠ [] := by
        intro he
        subst he
        exact hend (by decide)
      have hend' : s'.getLast? ≠ some '\\' := by
        cases s' with
        | nil => exact absurd rfl hs'
        | cons d s2 => rw [List.getLast?_cons_cons] at hend; exact hend
      rw [show escape_string ('\\' :: s') = '\\' :: '\\' :: escape_string s' from by
        simp [escape_string]]
      simp only [List.cons_append, string_scan]
      rw [if_neg (by simp)]
      rw [if_neg (by simp)]
      simp only [List.append_eq]
      rw [ih hnl' hend' '\\' l (Or.inr hs')]
    · by_cases hc2 : c = '"'
      · subst hc2
        have hend' : s'.getLast? ≠ some '\\' := by
          cases s' with
          | nil => simp
          | cons d s2 => rw [List.getLast?_cons_cons] at hend; exact hend
        rw [show escape_string ('"' :: s') = '\\' :: '"' :: escape_string s' from by
          simp [escape_string, hc1, hcnl]]
        simp only [List.cons_append, string_scan]
        rw [if_neg (by simp)]
        rw [if_neg (by simp)]
        simp only [List.append_eq]
        rw [ih hnl' hend' '"' l (Or.inl (by decide))]
      · have hend' : s'.getLast? ≠ some '\\' := by
          cases s' with
          | nil =>
            simp only [List.getLast?_nil]
            intro hcon
            cases hcon
          | cons d s2 => rw [List.getLast?_cons_cons] at hend; exact hend
        rw [show escape_string (c :: s') = c :: escape_string s' from by
          simp [escape_string, hc1, hcnl, hc2]]
        simp only [List.cons_append, string_scan]
        rw [if_neg (by simp [hc2])]
        simp only [List.append_eq]
        rw [ih hnl' hend' c l (Or.inl hc1)]

theorem tokenizer_classes_string (s : List Char) (hnl : ∀ c ∈ s, c ≠ '\n')
    (hend : s.getLast? ≠ some '\\') (l : List Char) :
    tokenizer_classes (('"' :: (escape_string s ++ ['"'])) ++ l) =
      some ('"' :: (escape_string s ++ ['"']), l) := by
  simp only [tokenizer_classes, List.cons_append,
    tokenize_spliceunquote_none '"' _ (by decide),
    tokenize_keyword_none '"' _ (by decide),
    tokenize_special_none '"' _ (by decide)]
  rw [show tokenize_string ('"' :: ((escape_string s ++ ['"']) ++ l)) =
      match string_scan '"' ((escape_string s ++ ['"']) ++ l) with
      | some (tok, rem) => some ('"' :: tok, rem)
      | none => some ('"' :: ((escape_string s ++ ['"']) ++ l), []) from rfl]
  rw [show (escape_string s ++ ['"']) ++ l = escape_string s ++ '"' :: l by simp]
  rw [string_scan_escape s hnl hend '"' l (Or.inl (by decide))]
theorem nat_chars_aux_ne_nil (f n : Nat) (hf : 0 < f) : nat_chars_aux f n ≠ [] := by
  cases f with
  | zero => cases hf
  | succ f' =>
    simp only [nat_chars_aux]
    by_cases hn : n < 10
    · simp [hn]
    · simp [hn]

theorem nat_chars_ne_nil (n : Nat) : nat_chars n ≠ [] :=
  nat_chars_aux_ne_nil (n + 1) n (Nat.succ_pos n)

theorem digit_char_facts (d : Nat) (hd : d < 10) :
    digit_char d ∈ digit_chars ∧ ((digit_char d).toNat - '0'.toNat : Nat) = d := by
  interval_cases d <;> exact ⟨by decide, by decide⟩

theorem nat_chars_aux_mem : ∀ (f n : Nat) (c : Char), c ∈ nat_chars_aux f n →
    c ∈ digit_chars := by
  intro f
  induction f with
  | zero => intro n c hc; cases hc
  | succ f' ih =>
    intro n c hc
    simp only [nat_chars_aux] at hc
    by_cases hn : n < 10
    · rw [if_pos hn] at hc
      simp only [List.mem_singleton] at hc
      subst hc
      exact (digit_char_facts n hn).1
    · rw [if_neg hn] at hc
      rcases List.mem_append.mp hc with h | h
      · exact ih (n / 10) c h
      · simp only [List.mem_singleton] at h
        subst h
        exact (digit_char_facts (n % 10) (Nat.mod_lt n (by norm_num))).1

theorem int_chars_mem (i : Int) (c : Char) (hc : c ∈ int_chars i) :
    c ∈ '-' :: digit_chars := by
  simp only [int_chars] at hc
  by_cases hi : i < 0
  · rw [if_pos hi] at hc
    rcases List.mem_cons.mp hc with h | h
    · simp [h]
    · exact List.mem_cons_of_mem _ (nat_chars_aux_mem _ _ c h)
  · rw [if_neg hi] at hc
    exact List.mem_cons_of_mem _ (nat_chars_aux_mem _ _ c hc)

theorem read_number_digits_append (xs : List Char) : ∀ (ys : List Char) (acc : Int),
    read_number_digits acc (xs ++ ys) =
      match read_number_digits acc xs with
      | none => none
      | some v => read_number_digits v ys := by
  induction xs with
  | nil => intro ys acc; rfl
  | cons c xr ih =>
    intro ys acc
    simp only [List.cons_append, read_number_digits]
    by_cases hc : c ∈ digit_chars
    · rw [if_pos hc, if_pos hc]
      exact ih ys _
    · rw [if_neg hc, if_neg hc]

theorem nat_chars_aux_val : ∀ (f n : Nat), n < f → ∀ acc : Int,
    read_number_digits acc (nat_chars_aux f n) =
      some (acc * (10 : Int) ^ (nat_chars_aux f n).length + (n : Int)) := by
  intro f
  induction f with
  | zero => intro n hn; omega
  | succ f' ih =>
    intro n hn acc
    by_cases h10 : n < 10
    · rw [show nat_chars_aux (f' + 1) n = [digit_char n] from by
        simp [nat_chars_aux, h10]]
      simp only [read_number_digits, (digit_char_facts n h10).1, if_pos,
        List.length_singleton, pow_one]
      rw [(digit_char_facts n h10).2]
    · have hd : n / 10 < f' := by
        have h1 : n / 10 < n := Nat.div_lt_self (by omega) (by norm_num)
        omega
      rw [show nat_chars_aux (f' + 1) n =
          nat_chars_aux f' (n / 10) ++ [digit_char (n % 10)] from by
        simp [nat_chars_aux, h10]]
      rw [read_number_digits_append]
      rw [ih (n / 10) hd acc]
      have hm : n % 10 < 10 := Nat.mod_lt n (by norm_num)
      simp only [read_number_digits, (digit_char_facts (n % 10) hm).1, if_pos]
      rw [(digit_char_facts (n % 10) hm).2]
      simp only [List.length_append, List.length_singleton, Option.some.injEq]
      rw [pow_succ]
      have hn2 : ((n % 10 : Nat) : Int) + ((n / 10 : Nat) : Int) * 10 = (n : Int) := by
        push_cast
        omega
      linear_combination hn2

theorem nat_chars_val (n : Nat) : read_number_digits 0 (nat_chars n) = some (n : Int) := by
  rw [nat_chars, nat_chars_aux_val (n + 1) n (Nat.lt_succ_self n) 0]
  simp
theorem read_number_digits_only (ds : List Char) (hne : ds ≠ [])
    (hmem : ∀ c ∈ ds, c ∈ digit_chars) (v : Int)
    (hval : read_number_digits 0 ds = some v) :
    read_number (String.mk ds) = some (.number v) := by
  cases ds with
  | nil => exact absurd rfl hne
  | cons c0 dr =>
    have hc0 : c0 ∈ digit_chars := hmem c0 (by simp)
    have hplus : c0 ≠ '+' := by
      intro he
      subst he
      revert hc0
      decide
    have hminus : c0 ≠ '-' := by
      intro he
      subst he
      revert hc0
      decide
    have harm : (match c0 :: dr with
        | '+' :: cs => (false, cs)
        | '-' :: cs => (true, cs)
        | cs => (false, cs)) = (false, c0 :: dr) := by
      split
      · rename_i cs heq
        injection heq with h1 h2
        exact absurd h1 hplus
      · rename_i cs heq
        injection heq with h1 h2
        exact absurd h1 hminus
      · rfl
    simp only [read_number]
    simp only [harm]
    simp only [List.isEmpty_cons, Bool.false_eq_true, if_false]
    rw [hval]

theorem int_chars_ne_literals (i : Int) :
    String.mk (int_chars i) ≠ "nil" ∧ String.mk (int_chars i) ≠ "true" ∧
      String.mk (int_chars i) ≠ "false" := by
  refine ⟨fun he => ?_, fun he => ?_, fun he => ?_⟩
  · have hd : int_chars i = ['n', 'i', 'l'] := congrArg String.data he
    exact absurd (int_chars_mem i 'n' (by rw [hd]; decide)) (by decide)
  · have hd : int_chars i = ['t', 'r', 'u', 'e'] := congrArg String.data he
    exact absurd (int_chars_mem i 't' (by rw [hd]; decide)) (by decide)
  · have hd : int_chars i = ['f', 'a', 'l', 's', 'e'] := congrArg String.data he
    exact absurd (int_chars_mem i 'f' (by rw [hd]; decide)) (by decide)
theorem read_number_neg_digits (ds : List Char) (hne : ds ≠ [])
    (v : Int) (hval : read_number_digits 0 ds = some v) :
    read_number (String.mk ('-' :: ds)) = some (.number (-v)) := by
  simp only [read_number]
  simp only [List.isEmpty_iff, if_neg hne]
  rw [hval]
  simp

theorem read_number_int_chars (i : Int) :
    read_number (String.mk (int_chars i)) = some (.number i) := by
  by_cases hi : i < 0
  · rw [show int_chars i = '-' :: nat_chars i.natAbs from by simp [int_chars, hi]]
    rw [read_number_neg_digits (nat_chars i.natAbs) (nat_chars_ne_nil i.natAbs)
      ((i.natAbs : Nat) : Int) (nat_chars_val i.natAbs)]
    have hcast : ((i.natAbs : Nat) : Int) = -i := by omega
    rw [hcast]
    simp
  · have hcast : ((i.toNat : Nat) : Int) = i := by omega
    have h2 := read_number_digits_only (nat_chars i.toNat) (nat_chars_ne_nil i.toNat)
      (fun c hc => nat_chars_aux_mem _ _ c hc) ((i.toNat : Nat) : Int)
      (nat_chars_val i.toNat)
    rw [show int_chars i = nat_chars i.toNat from by simp [int_chars, hi]]
    rw [h2, hcast]
/-- One printed value tokenizes, in front of any boundary-headed remainder,
to its token run followed by the remainder's tokens. -/
def tok_rt (v : Node) : Prop :=
  ∀ (f : Nat) (l : List Char) (ts : List String), boundary l = true →
    tokenizer_loop f l = some ts →
    tokenizer_loop ((tok_of v).length + f) (print_ true v ++ l) = some (tok_of v ++ ts)

theorem tok_step_symbolish (cs : List Char) (hne : cs ≠ [])
    (hall : ∀ c ∈ cs, c ∉ notallowed_chars)
    (hhead : ∀ c0, cs.head? = some c0 → c0 ∉ special_chars ∧ c0 ≠ ':')
    (l : List Char) (hb : boundary l = true) (f : Nat) (ts : List String)
    (h : tokenizer_loop f l = some ts) :
    tokenizer_loop (f + 1) (cs ++ l) = some (String.mk cs :: ts) := by
  cases cs with
  | nil => exact absurd rfl hne
  | cons c0 cr =>
    have hcl := tokenizer_classes_symbolish (c0 :: cr) hne hall hhead l hb
    have hsub : ∀ x ∈ whitecomma, x ∈ notallowed_chars := by decide
    have hw : c0 ∉ whitecomma := fun hcw => hall c0 (by simp) (hsub c0 hcw)
    have hns : c0 ≠ ';' := fun he => hall c0 (by simp) (by rw [he]; decide)
    have hmain := tokenizer_loop_cons c0 (cr ++ l) hw hns (c0 :: cr) l
      (by simpa using hcl) f ts h
    simpa using hmain

theorem tok_step_special (c : Char) (hc : c ∈ ['(', ')', '[', ']', '{', '}'])
    (l : List Char) (f : Nat) (ts : List String) (h : tokenizer_loop f l = some ts) :
    tokenizer_loop (f + 1) (c :: l) = some (String.mk [c] :: ts) := by
  have h1 : c ∈ special_chars := by fin_cases hc <;> decide
  have h2 : c ≠ '~' := by fin_cases hc <;> decide
  have h3 : c ≠ ':' := by fin_cases hc <;> decide
  have hw : c ∉ whitecomma := by fin_cases hc <;> decide
  have hns : c ≠ ';' := by fin_cases hc <;> decide
  exact tokenizer_loop_cons c l hw hns [c] l (tokenizer_classes_special c l h1 h2 h3) f ts h

theorem tok_step_keyword (kcs : List Char) (hall : ∀ c ∈ kcs, c ∉ notallowed_chars)
    (l : List Char) (hb : boundary l = true) (f : Nat) (ts : List String)
    (h : tokenizer_loop f l = some ts) :
    tokenizer_loop (f + 1) ((':' :: kcs) ++ l) = some (String.mk (':' :: kcs) :: ts) := by
  have hcl := tokenizer_classes_keyword kcs hall l hb
  have hmain := tokenizer_loop_cons ':' (kcs ++ l) (by decide) (by decide) (':' :: kcs) l
    (by simpa using hcl) f ts h
  simpa using hmain

theorem tok_step_string (s : List Char) (hnl : ∀ c ∈ s, c ≠ '\n')
    (hend : s.getLast? ≠ some '\\') (l : List Char) (f : Nat) (ts : List String)
    (h : tokenizer_loop f l = some ts) :
    tokenizer_loop (f + 1) (('"' :: (escape_string s ++ ['"'])) ++ l) =
      some (String.mk ('"' :: (escape_string s ++ ['"'])) :: ts) := by
  have hcl := tokenizer_classes_string s hnl hend l
  have hmain := tokenizer_loop_cons '"' ((escape_string s ++ ['"']) ++ l) (by decide)
    (by decide) ('"' :: (escape_string s ++ ['"'])) l (by simpa using hcl) f ts h
  simpa using hmain
theorem int_chars_ne_nil (i : Int) : int_chars i ≠ [] := by
  by_cases hi : i < 0
  · simp [int_chars, hi]
  · simp only [int_chars, hi, if_false]
    exact nat_chars_ne_nil i.toNat

theorem wf_symbol_elim (s : String) (h : wf_node (.symbol s) = true) :
    s.data ≠ [] ∧ (∀ c ∈ s.data, c ∉ notallowed_chars) ∧
    (∀ c0, s.data.head? = some c0 → c0 ∉ special_chars ∧ c0 ≠ ':') ∧
    s ≠ "nil" ∧ s ≠ "true" ∧ s ≠ "false" ∧ read_number s = none := by
  simp only [wf_node, Bool.and_eq_true, List.all_eq_true, decide_eq_true_eq,
    Option.isNone_iff_eq_none] at h
  obtain ⟨⟨⟨⟨⟨hhead, hall⟩, h1⟩, h2⟩, h3⟩, hnum⟩ := h
  split at hhead
  · cases hhead
  · rename_i c cr heq
    simp only [Bool.and_eq_true, decide_eq_true_eq] at hhead
    refine ⟨by rw [heq]; simp, hall, ?_, h1, h2, h3, hnum⟩
    intro c0 hc0
    rw [heq] at hc0
    simp only [List.head?_cons, Option.some.injEq] at hc0
    rw [← hc0]
    exact hhead

theorem wf_keyword_elim (k : String) (h : wf_node (.keyword k) = true) :
    k.data ≠ [] ∧ (∀ c ∈ k.data, c ∉ notallowed_chars) := by
  simp only [wf_node, Bool.and_eq_true, List.all_eq_true, decide_eq_true_eq,
    Bool.not_eq_eq_eq_not, Bool.not_true] at h
  obtain ⟨h1, h2⟩ := h
  refine ⟨?_, h2⟩
  intro he
  rw [show k.data.isEmpty = true from by rw [List.isEmpty_iff]; exact he] at h1
  cases h1

theorem wf_string_elim (s : String) (h : wf_node (.string s) = true) :
    (∀ c ∈ s.data, c ≠ '\n') ∧ s.data.getLast? ≠ some '\\' := by
  simp only [wf_node, Bool.and_eq_true, List.all_eq_true, decide_eq_true_eq] at h
  exact h

theorem wf_hashmap_elim (ks vs : List Node) (h : wf_node (.hashmap ks vs) = true) :
    ks.length = vs.length ∧ wf_list ks = true ∧ wf_list vs = true := by
  simp only [wf_node, Bool.and_eq_true, beq_iff_eq] at h
  exact ⟨h.1.1, h.1.2, h.2⟩

theorem tok_rt_elements (xs : List Node) (hx : ∀ x ∈ xs, tok_rt x)
    (closer : Char) (hc : closer ∈ [')', ']', '}']) :
    ∀ (f : Nat) (l : List Char) (ts : List String), boundary l = true →
      tokenizer_loop f l = some ts →
      tokenizer_loop ((tok_list xs).length + 1 + f)
          (print_elements true xs ++ closer :: l) =
        some (tok_list xs ++ String.mk [closer] :: ts) := by
  induction xs with
  | nil =>
    intro f l ts hb h
    have hstep := tok_step_special closer (by fin_cases hc <;> decide) l f ts h
    rw [show (tok_list ([] : List Node)).length + 1 + f = f + 1 from by
      simp [tok_list]; omega]
    simpa [tok_list, print_elements] using hstep
  | cons x xr ih =>
    intro f l ts hb h
    have hxx : tok_rt x := hx x (by simp)
    cases xr with
    | nil =>
      have hstep := tok_step_special closer (by fin_cases hc <;> decide) l f ts h
      have hbc : boundary (closer :: l) = true := by
        fin_cases hc <;> rfl
      have hmain := hxx (f + 1) (closer :: l) (String.mk [closer] :: ts) hbc hstep
      rw [show (tok_list [x]).length + 1 + f = (tok_of x).length + (f + 1) from by
        simp [tok_list]; omega]
      simpa [tok_list, print_elements] using hmain
    | cons y yr =>
      have hrest := ih (fun z hz => hx z (by simp [hz])) f l ts hb h
      have hsp : tokenizer_loop ((tok_list (y :: yr)).length + 1 + f)
          (' ' :: (print_elements true (y :: yr) ++ closer :: l)) =
          some (tok_list (y :: yr) ++ String.mk [closer] :: ts) := by
        rw [tok_skip_space]
        exact hrest
      have hmain := hxx ((tok_list (y :: yr)).length + 1 + f)
        (' ' :: (print_elements true (y :: yr) ++ closer :: l))
        (tok_list (y :: yr) ++ String.mk [closer] :: ts) rfl hsp
      rw [show (tok_list (x :: y :: yr)).length + 1 + f =
          (tok_of x).length + ((tok_list (y :: yr)).length + 1 + f) from by
        simp [tok_list]; omega]
      rw [show print_elements true (x :: y :: yr) ++ closer :: l =
          print_ true x ++ (' ' :: (print_elements true (y :: yr) ++ closer :: l)) from by
        simp [print_elements]]
      rw [show tok_list (x :: y :: yr) ++ String.mk [closer] :: ts =
          tok_of x ++ (tok_list (y :: yr) ++ String.mk [closer] :: ts) from by
        simp [tok_list]]
      exact hmain
theorem tok_rt_of_wf : ∀ (n : Nat) (v : Node), nsize v ≤ n → wf_node v = true →
    tok_rt v := by
  intro n
  induction n with
  | zero =>
    intro v hsz _
    exact absurd hsz (by have := nsize_pos v; omega)
  | succ m ih =>
    intro v hsz hwf
    cases v with
    | eofN => cases hwf
    | errorN msg => cases hwf
    | nilN =>
      intro f l ts hb h
      have hstep := tok_step_symbolish ['n', 'i', 'l'] (by decide) (by decide)
        (fun c0 hc0 => by cases hc0; exact ⟨by decide, by decide⟩) l hb f ts h
      rw [show (tok_of .nilN).length + f = f + 1 from by simp [tok_of]; omega]
      exact hstep
    | trueN =>
      intro f l ts hb h
      have hstep := tok_step_symbolish ['t', 'r', 'u', 'e'] (by decide) (by decide)
        (fun c0 hc0 => by cases hc0; exact ⟨by decide, by decide⟩) l hb f ts h
      rw [show (tok_of .trueN).length + f = f + 1 from by simp [tok_of]; omega]
      exact hstep
    | falseN =>
      intro f l ts hb h
      have hstep := tok_step_symbolish ['f', 'a', 'l', 's', 'e'] (by decide) (by decide)
        (fun c0 hc0 => by cases hc0; exact ⟨by decide, by decide⟩) l hb f ts h
      rw [show (tok_of .falseN).length + f = f + 1 from by simp [tok_of]; omega]
      exact hstep
    | number i =>
      intro f l ts hb h
      have hdm : ∀ c ∈ '-' :: digit_chars, c ∉ notallowed_chars := by decide
      have hds : ∀ c ∈ '-' :: digit_chars, c ∉ special_chars ∧ c ≠ ':' := by decide
      have hstep := tok_step_symbolish (int_chars i) (int_chars_ne_nil i)
        (fun c hc => hdm c (int_chars_mem i c hc))
        (fun c0 hc0 => by
          have hc0m : c0 ∈ int_chars i := by
            cases hcs : int_chars i with
            | nil => rw [hcs] at hc0; cases hc0
            | cons a rest =>
              rw [hcs] at hc0
              simp only [List.head?_cons, Option.some.injEq] at hc0
              rw [← hc0]
              simp
          exact hds c0 (int_chars_mem i c0 hc0m)) l hb f ts h
      rw [show (tok_of (.number i)).length + f = f + 1 from by simp [tok_of]; omega]
      exact hstep
    | symbol s =>
      intro f l ts hb h
      obtain ⟨hne, hall, hhead, -, -, -, -⟩ := wf_symbol_elim s hwf
      have hstep := tok_step_symbolish s.data (hne) hall hhead l hb f ts h
      rw [show (tok_of (.symbol s)).length + f = f + 1 from by simp [tok_of]; omega]
      simpa using hstep
    | keyword k =>
      intro f l ts hb h
      obtain ⟨-, hall⟩ := wf_keyword_elim k hwf
      have hstep := tok_step_keyword k.data hall l hb f ts h
      rw [show (tok_of (.keyword k)).length + f = f + 1 from by simp [tok_of]; omega]
      exact hstep
    | string s =>
      intro f l ts hb h
      obtain ⟨hnl, hend⟩ := wf_string_elim s hwf
      have hstep := tok_step_string s.data hnl hend l f ts h
      rw [show (tok_of (.string s)).length + f = f + 1 from by simp [tok_of]; omega]
      simpa [print_, tok_of] using hstep
    | list xs =>
      intro f l ts hb h
      have hx : ∀ x ∈ xs, tok_rt x := by
        intro x hxm
        have h1 : nsize x ≤ m := by
          have := nsize_mem_le xs x hxm
          simp only [nsize] at hsz
          omega
        exact ih x h1 (wf_list_mem xs x hxm (by simpa [wf_node] using hwf))
      have hinner := tok_rt_elements xs hx ')' (by decide) f l ts hb h
      have houter := tok_step_special '(' (by decide)
        (print_elements true xs ++ ')' :: l) _ _ hinner
      rw [show (tok_of (.list xs)).length + f =
          ((tok_list xs).length + 1 + f) + 1 from by simp [tok_of]; omega]
      rw [show print_ true (.list xs) ++ l =
          '(' :: (print_elements true xs ++ ')' :: l) from by simp [print_]]
      rw [show tok_of (.list xs) ++ ts =
          String.mk ['('] :: (tok_list xs ++ String.mk [')'] :: ts) from by
        simp [tok_of]]
      exact houter
    | vector xs =>
      intro f l ts hb h
      have hx : ∀ x ∈ xs, tok_rt x := by
        intro x hxm
        have h1 : nsize x ≤ m := by
          have := nsize_mem_le xs x hxm
          simp only [nsize] at hsz
          omega
        exact ih x h1 (wf_list_mem xs x hxm (by simpa [wf_node] using hwf))
      have hinner := tok_rt_elements xs hx ']' (by decide) f l ts hb h
      have houter := tok_step_special '[' (by decide)
        (print_elements true xs ++ ']' :: l) _ _ hinner
      rw [show (tok_of (.vector xs)).length + f =
          ((tok_list xs).length + 1 + f) + 1 from by simp [tok_of]; omega]
      rw [show print_ true (.vector xs) ++ l =
          '[' :: (print_elements true xs ++ ']' :: l) from by simp [print_]]
      rw [show tok_of (.vector xs) ++ ts =
          String.mk ['['] :: (tok_list xs ++ String.mk [']'] :: ts) from by
        simp [tok_of]]
      exact houter
    | hashmap ks vs =>
      intro f l ts hb h
      obtain ⟨hlen, hwks, hwvs⟩ := wf_hashmap_elim ks vs hwf
      have hx : ∀ x ∈ interleave ks vs, tok_rt x := by
        intro x hxm
        rcases interleave_mem ks vs x hxm with hk | hk
        · have h1 : nsize x ≤ m := by
            have := nsize_mem_le ks x hk
            simp only [nsize] at hsz
            omega
          exact ih x h1 (wf_list_mem ks x hk hwks)
        · have h1 : nsize x ≤ m := by
            have := nsize_mem_le vs x hk
            simp only [nsize] at hsz
            omega
          exact ih x h1 (wf_list_mem vs x hk hwvs)
      have hinner := tok_rt_elements (interleave ks vs) hx '}' (by decide) f l ts hb h
      have houter := tok_step_special '{' (by decide)
        (print_elements true (interleave ks vs) ++ '}' :: l) _ _ hinner
      rw [show (tok_of (.hashmap ks vs)).length + f =
          ((tok_list (interleave ks vs)).length + 1 + f) + 1 from by
        simp [tok_of, tok_pairs_eq_interleave ks vs hlen]
        omega]
      rw [show print_ true (.hashmap ks vs) ++ l =
          '{' :: (print_elements true (interleave ks vs) ++ '}' :: l) from by
        simp [print_, hashpairs_eq_interleave ks vs hlen]]
      rw [show tok_of (.hashmap ks vs) ++ ts =
          String.mk ['{'] :: (tok_list (interleave ks vs) ++ String.mk ['}'] :: ts) from by
        simp [tok_of, tok_pairs_eq_interleave ks vs hlen]]
      exact houter
theorem tok_list_len_le (xs : List Node)
    (hx : ∀ x ∈ xs, (tok_of x).length ≤ (print_ true x).length) :
    (tok_list xs).length ≤ (print_elements true xs).length := by
  induction xs with
  | nil => simp [tok_list, print_elements]
  | cons x xr ih =>
    cases xr with
    | nil =>
      simpa [tok_list, print_elements] using hx x (by simp)
    | cons y yr =>
      have h1 := hx x (by simp)
      have h2 := ih (fun z hz => hx z (by simp [hz]))
      simp only [tok_list, print_elements, List.length_append, List.length_cons] at h2 ⊢
      omega

theorem tok_len_le : ∀ (n : Nat) (v : Node), nsize v ≤ n → wf_node v = true →
    (tok_of v).length ≤ (print_ true v).length := by
  intro n
  induction n with
  | zero =>
    intro v hsz _
    exact absurd hsz (by have := nsize_pos v; omega)
  | succ m ih =>
    intro v hsz hwf
    cases v with
    | eofN => cases hwf
    | errorN msg => cases hwf
    | nilN => decide
    | trueN => decide
    | falseN => decide
    | number i =>
      have := List.length_pos.mpr (int_chars_ne_nil i)
      simp only [tok_of, print_, List.length_singleton]
      omega
    | symbol s =>
      obtain ⟨hne, -, -, -, -, -, -⟩ := wf_symbol_elim s hwf
      have := List.length_pos.mpr hne
      simp only [tok_of, print_, List.length_singleton]
      omega
    | keyword k =>
      simp only [tok_of, print_, List.length_singleton, List.length_cons,
        List.length_nil]
      omega
    | string s =>
      simp only [tok_of, print_, if_pos, List.length_singleton, List.length_cons,
        List.length_nil]
      omega
    | list xs =>
      have hx : ∀ x ∈ xs, (tok_of x).length ≤ (print_ true x).length := by
        intro x hxm
        have h1 : nsize x ≤ m := by
          have := nsize_mem_le xs x hxm
          simp only [nsize] at hsz
          omega
        exact ih x h1 (wf_list_mem xs x hxm (by simpa [wf_node] using hwf))
      have := tok_list_len_le xs hx
      simp only [tok_of, print_, List.length_cons, List.length_append,
        List.length_singleton, List.length_nil]
      omega
    | vector xs =>
      have hx : ∀ x ∈ xs, (tok_of x).length ≤ (print_ true x).length := by
        intro x hxm
        have h1 : nsize x ≤ m := by
          have := nsize_mem_le xs x hxm
          simp only [nsize] at hsz
          omega
        exact ih x h1 (wf_list_mem xs x hxm (by simpa [wf_node] using hwf))
      have := tok_list_len_le xs hx
      simp only [tok_of, print_, List.length_cons, List.length_append,
        List.length_singleton, List.length_nil]
      omega
    | hashmap ks vs =>
      obtain ⟨hlen, hwks, hwvs⟩ := wf_hashmap_elim ks vs hwf
      have hx : ∀ x ∈ interleave ks vs, (tok_of x).length ≤ (print_ true x).length := by
        intro x hxm
        rcases interleave_mem ks vs x hxm with hk | hk
        · have h1 : nsize x ≤ m := by
            have := nsize_mem_le ks x hk
            simp only [nsize] at hsz
            omega
          exact ih x h1 (wf_list_mem ks x hk hwks)
        · have h1 : nsize x ≤ m := by
            have := nsize_mem_le vs x hk
            simp only [nsize] at hsz
            omega
          exact ih x h1 (wf_list_mem vs x hk hwvs)
      have := tok_list_len_le (interleave ks vs) hx
      simp only [tok_of, print_, tok_pairs_eq_interleave ks vs hlen,
        hashpairs_eq_interleave ks vs hlen, List.length_cons, List.length_append,
        List.length_singleton, List.length_nil]
      omega

theorem tokenizer_print (v : Node) (hwf : wf_node v = true) :
    tokenizer (print_ true v) = some (tok_of v) := by
  have h1 := tok_rt_of_wf (nsize v) v (le_refl _) hwf 1 [] [] rfl (by rfl)
  rw [List.append_nil, List.append_nil] at h1
  have hlen := tok_len_le (nsize v) v (le_refl _) hwf
  have h2 := tok_mono _ _ _ h1 ((print_ true v).length + 1 - ((tok_of v).length + 1))
  rw [show (tok_of v).length + 1 + ((print_ true v).length + 1 - ((tok_of v).length + 1)) =
      (print_ true v).length + 1 from by omega] at h2
  exact h2
theorem allocstring_loop_escape (cs : List Char) (hnl : ∀ c ∈ cs, c ≠ '\n') :
    allocstring_loop (escape_string cs) = .inr cs := by
  induction cs with
  | nil => rfl
  | cons c cr ih =>
    have hnl' : ∀ x ∈ cr, x ≠ '\n' := fun x hx => hnl x (by simp [hx])
    have hcnl : c ≠ '\n' := hnl c (by simp)
    by_cases hc1 : c = '\\'
    · subst hc1
      rw [show escape_string ('\\' :: cr) = '\\' :: '\\' :: escape_string cr from by
        simp [escape_string]]
      rw [show allocstring_loop ('\\' :: '\\' :: escape_string cr) =
          (match allocstring_loop (escape_string cr) with
           | .inl err => .inl err
           | .inr cs2 => .inr ('\\' :: cs2)) from rfl]
      rw [ih hnl']
    · by_cases hc2 : c = '"'
      · subst hc2
        rw [show escape_string ('"' :: cr) = '\\' :: '"' :: escape_string cr from by
          simp [escape_string, hcnl]]
        rw [show allocstring_loop ('\\' :: '"' :: escape_string cr) =
            (match allocstring_loop (escape_string cr) with
             | .inl err => .inl err
             | .inr cs2 => .inr ('"' :: cs2)) from rfl]
        rw [ih hnl']
      · rw [show escape_string (c :: cr) = c :: escape_string cr from by
          simp [escape_string, hc1, hcnl, hc2]]
        unfold allocstring_loop
        rw [if_neg hc1]
        rw [ih hnl']

theorem allocstring_escape (cs : List Char) (hnl : ∀ c ∈ cs, c ≠ '\n') :
    allocstring (escape_string cs) = .string (String.mk cs) := by
  unfold allocstring
  rw [allocstring_loop_escape cs hnl]

theorem read_string_token (s : String) (hnl : ∀ c ∈ s.data, c ≠ '\n')
    (rest : List String) :
    read_string (String.mk ('"' :: (escape_string s.data ++ ['"'])) :: rest) =
      (.string s, rest) := by
  simp only [read_string]
  rw [if_neg (show ¬((escape_string s.data ++ ['"']).length < 1) from by simp)]
  simp only [List.getLast?_concat]
  rw [if_neg (show ¬('"' ≠ '"') from by simp)]
  simp only [List.dropLast_concat]
  rw [allocstring_escape s.data hnl]
  simp [Node.isError]

theorem ne_specials_of_head (t : String) (c : Char) (hd : t.data.head? = some c)
    (hc : c ∉ special_chars) :
    t ≠ "~@" ∧ t ≠ "'" ∧ t ≠ "`" ∧ t ≠ "~" ∧ t ≠ "@" ∧ t ≠ "^" ∧ t ≠ "\x7b" ∧
      t ≠ "(" ∧ t ≠ "[" := by
  refine ⟨?_, ?_, ?_, ?_, ?_, ?_, ?_, ?_, ?_⟩ <;>
    (intro he
     subst he
     refine hc ?_
     injection hd with h1
     rw [← h1]
     decide)

theorem read_form_not_special (f : Nat) (t : String) (ts : List String) (c : Char)
    (hd : t.data.head? = some c) (hc : c ∉ special_chars) :
    read_form_ (f + 1) (t :: ts) =
      match t.data with
      | ':' :: _ =>
        let (n, ts2) := read_keyword (t :: ts)
        some (some n, ts2)
      | '"' :: _ =>
        let (n, ts2) := read_string (t :: ts)
        some (some n, ts2)
      | _ =>
        let (n, ts2) := read_atom (t :: ts)
        some (some n, ts2) := by
  obtain ⟨h1, h2, h3, h4, h5, h6, h7, h8, h9⟩ := ne_specials_of_head t c hd hc
  simp only [read_form_, if_neg h1, if_neg h2, if_neg h3, if_neg h4, if_neg h5,
    if_neg h6, if_neg h7, if_neg h8, if_neg h9]
theorem read_form_nil (f : Nat) (rest : List String) :
    read_form_ (f + 1) ("nil" :: rest) = some (some .nilN, rest) := rfl

theorem read_form_true (f : Nat) (rest : List String) :
    read_form_ (f + 1) ("true" :: rest) = some (some .trueN, rest) := rfl

theorem read_form_false (f : Nat) (rest : List String) :
    read_form_ (f + 1) ("false" :: rest) = some (some .falseN, rest) := rfl

theorem read_atom_symbol (s : String) (hne : s.data ≠ []) (hn1 : s ≠ "nil")
    (hn2 : s ≠ "true") (hn3 : s ≠ "false") (hnum : read_number s = none)
    (rest : List String) : read_atom (s :: rest) = (.symbol s, rest) := by
  have hlen : s.length ≠ 0 := by
    rcases s with ⟨d⟩
    simp only [String.length]
    intro h0
    exact hne (List.length_eq_zero.mp h0)
  simp only [read_atom, if_neg hn1, if_neg hn2, if_neg hn3, hnum]
  rw [if_pos hlen]

theorem read_form_symbol (f : Nat) (s : String) (hwf : wf_node (.symbol s) = true)
    (rest : List String) :
    read_form_ (f + 1) (s :: rest) = some (some (.symbol s), rest) := by
  obtain ⟨hne, hall, hhead, hn1, hn2, hn3, hnum⟩ := wf_symbol_elim s hwf
  cases hdd : s.data with
  | nil => exact absurd hdd hne
  | cons c cr =>
    have hd : s.data.head? = some c := by rw [hdd]; rfl
    obtain ⟨hcs, hck⟩ := hhead c hd
    have hcq : c ≠ '"' := fun he => hall c (by rw [hdd]; simp) (by rw [he]; decide)
    rw [read_form_not_special f s rest c hd hcs]
    split
    · rename_i cs heq
      rw [hdd] at heq
      injection heq with e1 e2
      exact absurd e1 hck
    · rename_i cs heq
      rw [hdd] at heq
      injection heq with e1 e2
      exact absurd e1 hcq
    · rw [read_atom_symbol s hne hn1 hn2 hn3 hnum rest]

theorem read_form_number (f : Nat) (i : Int) (rest : List String) :
    read_form_ (f + 1) (String.mk (int_chars i) :: rest) =
      some (some (.number i), rest) := by
  have hds : ∀ c ∈ '-' :: digit_chars, c ∉ special_chars ∧ c ≠ ':' ∧ c ≠ '"' := by decide
  obtain ⟨hm1, hm2, hm3⟩ := int_chars_ne_literals i
  obtain ⟨c, cr, hdd⟩ : ∃ c cr, int_chars i = c :: cr := by
    cases hic : int_chars i with
    | nil => exact absurd hic (int_chars_ne_nil i)
    | cons a b => exact ⟨a, b, rfl⟩
  have hcm : c ∈ '-' :: digit_chars := int_chars_mem i c (by rw [hdd]; simp)
  have hd : (String.mk (int_chars i)).data.head? = some c := by
    rw [show (String.mk (int_chars i)).data = int_chars i from rfl, hdd]
    rfl
  rw [read_form_not_special f (String.mk (int_chars i)) rest c hd (hds c hcm).1]
  split
  · rename_i cs heq
    rw [show (String.mk (int_chars i)).data = int_chars i from rfl, hdd] at heq
    injection heq with e1 e2
    exact absurd e1 (hds c hcm).2.1
  · rename_i cs heq
    rw [show (String.mk (int_chars i)).data = int_chars i from rfl, hdd] at heq
    injection heq with e1 e2
    exact absurd e1 (hds c hcm).2.2
  · rw [show read_atom (String.mk (int_chars i) :: rest) = (.number i, rest) from by
      simp only [read_atom, if_neg hm1, if_neg hm2, if_neg hm3,
        read_number_int_chars i]]

theorem read_keyword_token (k : String) (hne : k.data ≠ []) (rest : List String) :
    read_keyword (String.mk (':' :: k.data) :: rest) = (.keyword k, rest) := by
  simp only [read_keyword]
  rw [if_neg (show ¬(k.data.isEmpty = true) from by simpa [List.isEmpty_iff] using hne)]

theorem read_form_keyword (f : Nat) (k : String) (hwf : wf_node (.keyword k) = true)
    (rest : List String) :
    read_form_ (f + 1) (String.mk (':' :: k.data) :: rest) =
      some (some (.keyword k), rest) := by
  obtain ⟨hne, -⟩ := wf_keyword_elim k hwf
  rw [read_form_not_special f (String.mk (':' :: k.data)) rest ':' rfl (by decide)]
  rw [read_keyword_token k hne rest]
  rfl

theorem read_form_string (f : Nat) (s : String) (hwf : wf_node (.string s) = true)
    (rest : List String) :
    read_form_ (f + 1) (String.mk ('"' :: (escape_string s.data ++ ['"'])) :: rest) =
      some (some (.string s), rest) := by
  obtain ⟨hnl, -⟩ := wf_string_elim s hwf
  rw [read_form_not_special f (String.mk ('"' :: (escape_string s.data ++ ['"'])))
    rest '"' rfl (by decide)]
  rw [read_string_token s hnl rest]
  rfl
theorem wf_not_error (v : Node) (hwf : wf_node v = true) : v.isError = false := by
  cases v <;> first | rfl | cases hwf

theorem tok_of_head (v : Node) (hwf : wf_node v = true) :
    ∃ t0 tr, tok_of v = t0 :: tr ∧ t0 ≠ ")" ∧ t0 ≠ "]" ∧ t0 ≠ "\x7d" := by
  cases v with
  | eofN => cases hwf
  | errorN msg => cases hwf
  | nilN => exact ⟨"nil", [], rfl, by decide, by decide, by decide⟩
  | trueN => exact ⟨"true", [], rfl, by decide, by decide, by decide⟩
  | falseN => exact ⟨"false", [], rfl, by decide, by decide, by decide⟩
  | number i =>
    refine ⟨String.mk (int_chars i), [], rfl, ?_, ?_, ?_⟩
    · intro he
      have hdd : int_chars i = [')'] := congrArg String.data he
      exact absurd (int_chars_mem i ')' (by rw [hdd]; simp)) (by decide)
    · intro he
      have hdd : int_chars i = [']'] := congrArg String.data he
      exact absurd (int_chars_mem i ']' (by rw [hdd]; simp)) (by decide)
    · intro he
      have hdd : int_chars i = ['}'] := congrArg String.data he
      exact absurd (int_chars_mem i '}' (by rw [hdd]; simp)) (by decide)
  | symbol s =>
    obtain ⟨-, hall, -, -, -, -, -⟩ := wf_symbol_elim s hwf
    refine ⟨s, [], rfl, ?_, ?_, ?_⟩
    · intro he
      have hdd : s.data = [')'] := congrArg String.data he
      exact hall ')' (by rw [hdd]; simp) (by decide)
    · intro he
      have hdd : s.data = [']'] := congrArg String.data he
      exact hall ']' (by rw [hdd]; simp) (by decide)
    · intro he
      have hdd : s.data = ['}'] := congrArg String.data he
      exact hall '}' (by rw [hdd]; simp) (by decide)
  | keyword k =>
    refine ⟨String.mk (':' :: k.data), [], rfl, ?_, ?_, ?_⟩ <;>
      (intro he
       have hdd := congrArg String.data he
       injection hdd with e1 e2
       exact absurd e1 (by decide))
  | string s =>
    refine ⟨String.mk ('"' :: (escape_string s.data ++ ['"'])), [], rfl, ?_, ?_, ?_⟩ <;>
      (intro he
       have hdd := congrArg String.data he
       injection hdd with e1 e2
       exact absurd e1 (by decide))
  | list xs => exact ⟨"(", _, rfl, by decide, by decide, by decide⟩
  | vector xs => exact ⟨"[", _, rfl, by decide, by decide, by decide⟩
  | hashmap ks vs => exact ⟨"\x7b", _, rfl, by decide, by decide, by decide⟩

/-- The per-element facts the container loop lemmas need: the callback reads
the element's token run off the cursor, the run starts with a non-closer
token, and the element is not an Error. -/
def elem_ok (cb : ReadCb) (x : Node) : Prop :=
  (∀ r2 : List String, cb (tok_of x ++ r2) = some (some x, r2)) ∧
  (∃ t0 tr, tok_of x = t0 :: tr ∧ t0 ≠ ")" ∧ t0 ≠ "]" ∧ t0 ≠ "\x7d") ∧
  x.isError = false

theorem read_list_loop_rt (cb : ReadCb) :
    ∀ (xs : List Node), (∀ x ∈ xs, elem_ok cb x) →
      ∀ (acc : List Node) (lf : Nat), xs.length + 1 ≤ lf → ∀ (rest : List String),
      read_list_loop cb lf (.list acc) (tok_list xs ++ ")" :: rest) =
        some (some (.list (acc ++ xs)), rest) := by
  intro xs
  induction xs with
  | nil =>
    intro hx acc lf hlf rest
    cases lf with
    | zero => omega
    | succ lf' =>
      rw [List.append_nil]
      rfl
  | cons x xr ih =>
    intro hx acc lf hlf rest
    obtain ⟨hcb, ⟨t0, tr, htok, hnp, -, -⟩, herr⟩ := hx x (by simp)
    cases lf with
    | zero => simp only [List.length_cons] at hlf; omega
    | succ lf' =>
      rw [show tok_list (x :: xr) ++ ")" :: rest =
          t0 :: (tr ++ (tok_list xr ++ ")" :: rest)) from by simp [tok_list, htok]]
      simp only [read_list_loop]
      rw [if_neg hnp]
      have hcbx : cb (t0 :: (tr ++ (tok_list xr ++ ")" :: rest))) =
          some (some x, tok_list xr ++ ")" :: rest) := by
        rw [show t0 :: (tr ++ (tok_list xr ++ ")" :: rest)) =
            tok_of x ++ (tok_list xr ++ ")" :: rest) from by simp [htok]]
        exact hcb _
      rw [hcbx]
      dsimp only
      rw [show read_append_element (.list acc) .elems (some x) = .list (acc ++ [x]) from by
        simp [read_append_element, herr, append_to_chain]]
      rw [if_neg (by simp [Node.isError])]
      rw [ih (fun z hz => hx z (by simp [hz])) (acc ++ [x]) lf'
        (by simp only [List.length_cons] at hlf ⊢; omega) rest]
      rw [show (acc ++ [x]) ++ xr = acc ++ x :: xr from by simp]

theorem read_vector_loop_rt (cb : ReadCb) :
    ∀ (xs : List Node), (∀ x ∈ xs, elem_ok cb x) →
      ∀ (acc : List Node) (lf : Nat), xs.length + 1 ≤ lf → ∀ (rest : List String),
      read_vector_loop cb lf (.vector acc) (tok_list xs ++ "]" :: rest) =
        some (some (.vector (acc ++ xs)), rest) := by
  intro xs
  induction xs with
  | nil =>
    intro hx acc lf hlf rest
    cases lf with
    | zero => omega
    | succ lf' =>
      rw [List.append_nil]
      rfl
  | cons x xr ih =>
    intro hx acc lf hlf rest
    obtain ⟨hcb, ⟨t0, tr, htok, -, hnp, -⟩, herr⟩ := hx x (by simp)
    cases lf with
    | zero => simp only [List.length_cons] at hlf; omega
    | succ lf' =>
      rw [show tok_list (x :: xr) ++ "]" :: rest =
          t0 :: (tr ++ (tok_list xr ++ "]" :: rest)) from by simp [tok_list, htok]]
      simp only [read_vector_loop]
      rw [if_neg hnp]
      have hcbx : cb (t0 :: (tr ++ (tok_list xr ++ "]" :: rest))) =
          some (some x, tok_list xr ++ "]" :: rest) := by
        rw [show t0 :: (tr ++ (tok_list xr ++ "]" :: rest)) =
            tok_of x ++ (tok_list xr ++ "]" :: rest) from by simp [htok]]
        exact hcb _
      rw [hcbx]
      dsimp only
      rw [show read_append_element (.vector acc) .elems (some x) = .vector (acc ++ [x]) from by
        simp [read_append_element, herr, append_to_chain]]
      rw [if_neg (by simp [Node.isError])]
      rw [ih (fun z hz => hx z (by simp [hz])) (acc ++ [x]) lf'
        (by simp only [List.length_cons] at hlf ⊢; omega) rest]
      rw [show (acc ++ [x]) ++ xr = acc ++ x :: xr from by simp]
theorem read_hashmap_loop_rt (cb : ReadCb) :
    ∀ (ks : List Node), ∀ (vs : List Node), (∀ x ∈ ks, elem_ok cb x) →
      (∀ x ∈ vs, elem_ok cb x) → ks.length = vs.length →
      ∀ (aks avs : List Node) (lf : Nat), ks.length + vs.length + 1 ≤ lf →
      ∀ (rest : List String),
      read_hashmap_loop cb lf (.hashmap aks avs) true
          (tok_pairs_text (tok_each ks) (tok_each vs) ++ "\x7d" :: rest) =
        some (some (.hashmap (aks ++ ks) (avs ++ vs)), rest) := by
  intro ks
  induction ks with
  | nil =>
    intro vs hxk hxv hlen aks avs lf hlf rest
    cases vs with
    | cons v vs' => cases hlen
    | nil =>
      cases lf with
      | zero => omega
      | succ lf' =>
        rw [List.append_nil, List.append_nil]
        rfl
  | cons k ks' ih =>
    intro vs hxk hxv hlen aks avs lf hlf rest
    cases vs with
    | nil => cases hlen
    | cons v vs' =>
      simp only [List.length_cons] at hlen hlf
      obtain ⟨hcbk, ⟨tk0, tkr, htokk, -, -, hnpk⟩, herrk⟩ := hxk k (by simp)
      obtain ⟨hcbv, ⟨tv0, tvr, htokv, -, -, hnpv⟩, herrv⟩ := hxv v (by simp)
      cases lf with
      | zero => omega
      | succ lf' =>
        cases lf' with
        | zero => omega
        | succ lf2 =>
          rw [show tok_pairs_text (tok_each (k :: ks')) (tok_each (v :: vs')) ++ "\x7d" :: rest =
              tk0 :: (tkr ++ (tok_of v ++
                (tok_pairs_text (tok_each ks') (tok_each vs') ++ "\x7d" :: rest))) from by
            simp [tok_each, tok_pairs_text, htokk]]
          simp only [read_hashmap_loop]
          rw [if_neg hnpk]
          have hcbk2 : cb (tk0 :: (tkr ++ (tok_of v ++
              (tok_pairs_text (tok_each ks') (tok_each vs') ++ "\x7d" :: rest)))) =
              some (some k, tok_of v ++
                (tok_pairs_text (tok_each ks') (tok_each vs') ++ "\x7d" :: rest)) := by
            rw [show tk0 :: (tkr ++ (tok_of v ++
                (tok_pairs_text (tok_each ks') (tok_each vs') ++ "\x7d" :: rest))) =
                tok_of k ++ (tok_of v ++
                  (tok_pairs_text (tok_each ks') (tok_each vs') ++ "\x7d" :: rest)) from by
              simp [htokk]]
            exact hcbk _
          rw [hcbk2]
          dsimp only
          rw [show (if True then chainsel.hashkeys else chainsel.hashvalues) =
              chainsel.hashkeys from by simp]
          rw [show (if (!true) = true then chainsel.hashkeys else chainsel.hashvalues) =
              chainsel.hashvalues from by simp]
          rw [show read_append_element (.hashmap aks avs) chainsel.hashkeys (some k) =
              .hashmap (aks ++ [k]) avs from by
            simp [read_append_element, herrk, append_to_chain]]
          rw [if_neg (by simp [Node.isError])]
          rw [show tok_of v ++ (tok_pairs_text (tok_each ks') (tok_each vs') ++ "\x7d" :: rest) =
              tv0 :: (tvr ++ (tok_pairs_text (tok_each ks') (tok_each vs') ++ "\x7d" :: rest))
              from by simp [htokv]]
          simp only [read_hashmap_loop]
          rw [if_neg hnpv]
          have hcbv2 : cb (tv0 :: (tvr ++
              (tok_pairs_text (tok_each ks') (tok_each vs') ++ "\x7d" :: rest))) =
              some (some v, tok_pairs_text (tok_each ks') (tok_each vs') ++ "\x7d" :: rest) := by
            rw [show tv0 :: (tvr ++
                (tok_pairs_text (tok_each ks') (tok_each vs') ++ "\x7d" :: rest)) =
                tok_of v ++ (tok_pairs_text (tok_each ks') (tok_each vs') ++ "\x7d" :: rest)
                from by simp [htokv]]
            exact hcbv _
          rw [hcbv2]
          dsimp only
          rw [show read_append_element (.hashmap (aks ++ [k]) avs) chainsel.hashvalues
              (some v) = .hashmap (aks ++ [k]) (avs ++ [v]) from by
            simp [read_append_element, herrv, append_to_chain]]
          rw [if_neg (by simp [Node.isError])]
          rw [show (!!true) = true from by decide]
          rw [ih vs' (fun z hz => hxk z (by simp [hz])) (fun z hz => hxv z (by simp [hz]))
            (by omega) (aks ++ [k]) (avs ++ [v]) lf2 (by omega) rest]
          rw [show (aks ++ [k]) ++ ks' = aks ++ k :: ks' from by simp]
          rw [show (avs ++ [v]) ++ vs' = avs ++ v :: vs' from by simp]
/-- One value's token run reads back, in front of any remaining tokens, to
exactly that value, given fuel at least twice its size. -/
def read_rt (v : Node) : Prop :=
  ∀ (g : Nat) (rest : List String),
    read_form_ (2 * nsize v + g) (tok_of v ++ rest) = some (some v, rest)

theorem read_rt_of_wf : ∀ (n : Nat) (v : Node), nsize v ≤ n → wf_node v = true →
    read_rt v := by
  intro n
  induction n with
  | zero =>
    intro v hsz _
    exact absurd hsz (by have := nsize_pos v; omega)
  | succ m ih =>
    intro v hsz hwf
    cases v with
    | eofN => cases hwf
    | errorN msg => cases hwf
    | nilN =>
      intro g rest
      rw [show 2 * nsize .nilN + g = (1 + g) + 1 from by simp [nsize]; omega]
      exact read_form_nil (1 + g) rest
    | trueN =>
      intro g rest
      rw [show 2 * nsize .trueN + g = (1 + g) + 1 from by simp [nsize]; omega]
      exact read_form_true (1 + g) rest
    | falseN =>
      intro g rest
      rw [show 2 * nsize .falseN + g = (1 + g) + 1 from by simp [nsize]; omega]
      exact read_form_false (1 + g) rest
    | number i =>
      intro g rest
      rw [show 2 * nsize (.number i) + g = (1 + g) + 1 from by simp [nsize]; omega]
      exact read_form_number (1 + g) i rest
    | symbol s =>
      intro g rest
      rw [show 2 * nsize (.symbol s) + g = (1 + g) + 1 from by simp [nsize]; omega]
      exact read_form_symbol (1 + g) s hwf rest
    | keyword k =>
      intro g rest
      rw [show 2 * nsize (.keyword k) + g = (1 + g) + 1 from by simp [nsize]; omega]
      exact read_form_keyword (1 + g) k hwf rest
    | string s =>
      intro g rest
      rw [show 2 * nsize (.string s) + g = (1 + g) + 1 from by simp [nsize]; omega]
      exact read_form_string (1 + g) s hwf rest
    | list xs =>
      intro g rest
      have hx : ∀ x ∈ xs,
          elem_ok (fun ts => read_form_ (2 * nsize_list xs + 1 + g) ts) x := by
        intro x hxm
        have hle := nsize_mem_le xs x hxm
        have h1 : nsize x ≤ m := by
          simp only [nsize] at hsz
          omega
        have hwfx := wf_list_mem xs x hxm (by simpa [wf_node] using hwf)
        refine ⟨?_, tok_of_head x hwfx, wf_not_error x hwfx⟩
        intro r2
        have hrt := ih x h1 hwfx (2 * nsize_list xs + 1 + g - 2 * nsize x) r2
        rw [show 2 * nsize x + (2 * nsize_list xs + 1 + g - 2 * nsize x) =
            2 * nsize_list xs + 1 + g from by omega] at hrt
        exact hrt
      have hloop := read_list_loop_rt (fun ts => read_form_ (2 * nsize_list xs + 1 + g) ts)
        xs hx [] (2 * nsize_list xs + 1 + g)
        (by have := length_le_nsize_list xs; omega) rest
      rw [show 2 * nsize (.list xs) + g = (2 * nsize_list xs + 1 + g) + 1 from by
        simp [nsize]; omega]
      rw [show tok_of (.list xs) ++ rest = "(" :: (tok_list xs ++ ")" :: rest) from by
        simp [tok_of]]
      show read_list_loop (fun ts => read_form_ (2 * nsize_list xs + 1 + g) ts)
        (2 * nsize_list xs + 1 + g) (.list []) (tok_list xs ++ ")" :: rest) =
        some (some (.list xs), rest)
      exact hloop
    | vector xs =>
      intro g rest
      have hx : ∀ x ∈ xs,
          elem_ok (fun ts => read_form_ (2 * nsize_list xs + 1 + g) ts) x := by
        intro x hxm
        have hle := nsize_mem_le xs x hxm
        have h1 : nsize x ≤ m := by
          simp only [nsize] at hsz
          omega
        have hwfx := wf_list_mem xs x hxm (by simpa [wf_node] using hwf)
        refine ⟨?_, tok_of_head x hwfx, wf_not_error x hwfx⟩
        intro r2
        have hrt := ih x h1 hwfx (2 * nsize_list xs + 1 + g - 2 * nsize x) r2
        rw [show 2 * nsize x + (2 * nsize_list xs + 1 + g - 2 * nsize x) =
            2 * nsize_list xs + 1 + g from by omega] at hrt
        exact hrt
      have hloop := read_vector_loop_rt (fun ts => read_form_ (2 * nsize_list xs + 1 + g) ts)
        xs hx [] (2 * nsize_list xs + 1 + g)
        (by have := length_le_nsize_list xs; omega) rest
      rw [show 2 * nsize (.vector xs) + g = (2 * nsize_list xs + 1 + g) + 1 from by
        simp [nsize]; omega]
      rw [show tok_of (.vector xs) ++ rest = "[" :: (tok_list xs ++ "]" :: rest) from by
        simp [tok_of]]
      show read_vector_loop (fun ts => read_form_ (2 * nsize_list xs + 1 + g) ts)
        (2 * nsize_list xs + 1 + g) (.vector []) (tok_list xs ++ "]" :: rest) =
        some (some (.vector xs), rest)
      exact hloop
    | hashmap ks vs =>
      intro g rest
      obtain ⟨hlen, hwks, hwvs⟩ := wf_hashmap_elim ks vs hwf
      have hxk : ∀ x ∈ ks,
          elem_ok (fun ts => read_form_ (2 * (nsize_list ks + nsize_list vs) + 1 + g) ts)
            x := by
        intro x hxm
        have hle := nsize_mem_le ks x hxm
        have h1 : nsize x ≤ m := by
          simp only [nsize] at hsz
          omega
        have hwfx := wf_list_mem ks x hxm hwks
        refine ⟨?_, tok_of_head x hwfx, wf_not_error x hwfx⟩
        intro r2
        have hrt := ih x h1 hwfx
          (2 * (nsize_list ks + nsize_list vs) + 1 + g - 2 * nsize x) r2
        rw [show 2 * nsize x + (2 * (nsize_list ks + nsize_list vs) + 1 + g - 2 * nsize x) =
            2 * (nsize_list ks + nsize_list vs) + 1 + g from by omega] at hrt
        exact hrt
      have hxv : ∀ x ∈ vs,
          elem_ok (fun ts => read_form_ (2 * (nsize_list ks + nsize_list vs) + 1 + g) ts)
            x := by
        intro x hxm
        have hle := nsize_mem_le vs x hxm
        have h1 : nsize x ≤ m := by
          simp only [nsize] at hsz
          omega
        have hwfx := wf_list_mem vs x hxm hwvs
        refine ⟨?_, tok_of_head x hwfx, wf_not_error x hwfx⟩
        intro r2
        have hrt := ih x h1 hwfx
          (2 * (nsize_list ks + nsize_list vs) + 1 + g - 2 * nsize x) r2
        rw [show 2 * nsize x + (2 * (nsize_list ks + nsize_list vs) + 1 + g - 2 * nsize x) =
            2 * (nsize_list ks + nsize_list vs) + 1 + g from by omega] at hrt
        exact hrt
      have hloop := read_hashmap_loop_rt
        (fun ts => read_form_ (2 * (nsize_list ks + nsize_list vs) + 1 + g) ts)
        ks vs hxk hxv hlen [] [] (2 * (nsize_list ks + nsize_list vs) + 1 + g)
        (by have h1 := length_le_nsize_list ks; have h2 := length_le_nsize_list vs; omega)
        rest
      rw [show 2 * nsize (.hashmap ks vs) + g =
          (2 * (nsize_list ks + nsize_list vs) + 1 + g) + 1 from by simp [nsize]; omega]
      rw [show tok_of (.hashmap ks vs) ++ rest =
          "\x7b" :: (tok_pairs_text (tok_each ks) (tok_each vs) ++ "\x7d" :: rest) from by
        simp [tok_of]]
      show read_hashmap_loop
        (fun ts => read_form_ (2 * (nsize_list ks + nsize_list vs) + 1 + g) ts)
        (2 * (nsize_list ks + nsize_list vs) + 1 + g) (.hashmap [] []) true
        (tok_pairs_text (tok_each ks) (tok_each vs) ++ "\x7d" :: rest) =
        some (some (.hashmap ks vs), rest)
      exact hloop
theorem parse_print (v : Node) (hwf : wf_node v = true) :
    parse (2 * nsize v) (print v) = some (some v) := by
  simp only [parse, read_form, print]
  rw [tokenizer_print v hwf]
  dsimp only
  have hrt := read_rt_of_wf (nsize v) v (le_refl _) hwf 0 []
  rw [show 2 * nsize v + 0 = 2 * nsize v from by omega] at hrt
  rw [List.append_nil] at hrt
  rw [hrt]

/-- C9: counterexample.  The symbol `nil` prints as the three characters
`nil`, which read back as the Nil atom, not as the symbol — the round trip is
not the identity on all Symbol atoms (the printer quotes nothing, and
`read_atom` claims the literals `nil`, `true`, `false` and all numerals
before the symbol case). -/
theorem C9_roundtrip_counterexample :
    print (.symbol "nil") = "nil".data ∧
    parse 9 (print (.symbol "nil")) = some (some .nilN) ∧
    Node.nilN ≠ Node.symbol "nil" := by
  refine ⟨by decide, by decide, by decide⟩

/-- C9 (amended): reading the readable-printed text of a value reproduces the
value exactly — with fuel twice the node count — provided the value is
well-formed: built from the claim's atom kinds and containers, where symbols
survive tokenization and `read_atom` unchanged (nonempty, no delimiter
characters, head neither special nor `:`, not a literal or numeral), keywords
are nonempty with tokenizable text, strings contain no newline (the printer's
`\n` escape is not accepted back by `allocstring`) and do not end in a
backslash (which defeats the tokenizer's escaped-quote test), and hashmaps
have equally many keys and values. -/
theorem C9_roundtrip (v : Node) (h : wf_node v = true) :
    parse (2 * nsize v) (print v) = some (some v) :=
  parse_print v h

theorem C9_roundtrip_witness :
    parse (2 * nsize (.hashmap [.keyword "a"]
        [.list [.number (-2), .string "x\"y", .symbol "abc"]]))
      (print (.hashmap [.keyword "a"]
        [.list [.number (-2), .string "x\"y", .symbol "abc"]])) =
    some (some (.hashmap [.keyword "a"]
        [.list [.number (-2), .string "x\"y", .symbol "abc"]])) :=
  C9_roundtrip (.hashmap [.keyword "a"]
    [.list [.number (-2), .string "x\"y", .symbol "abc"]]) (by decide)
